import Mathlib

/-!
Verification of the phpspa-js DOM reconciler (morphdom v2.7.0 port) and its
navigation glue, as found in `src/unnamed/part_000`.

The embedding models the host DOM as a tree of nodes carrying a numeric
object identity `oid` (standing for JavaScript reference identity), an
attribute list, and the runtime element properties the special-element
handlers read and write (`checked`, `value`, `selected`, `selectedIndex`, ...).
A reconciliation pass operates on a state holding the live document tree,
a "limbo" list of subtrees that have been detached from the document but are
still reachable through the key index (JavaScript keeps them alive through
the `fromNodesLookup` references), the key index itself, the keyed-removal
list, and a trace of the observable document mutations (the events a
MutationObserver attached to the container would record: attribute
writes/removals, child insertions/removals, character-data writes).

Fidelity notes, fixed once here:
* Lifecycle hooks are fixed to their source defaults (`noop`, default
  `addChild`, default `getNodeKey`); the dead branches they guard
  (`onBeforeElUpdated instanceof HTMLElement`, vetoes, `actualize`) are
  elided with comments at the corresponding places.
* Element properties are modeled as independent fields: writing a
  `<select>`'s `selectedIndex` does not implicitly rewrite its options'
  `selected` properties (the host coupling morphdom's OPTION handler works
  around).  No claim below depends on that coupling.
* All algorithm functions take a fuel argument and return `none` on fuel
  exhaustion; theorems about whole passes are stated conditionally on the
  pass completing, and each such theorem carries a witness run.
-/

set_option maxHeartbeats 1000000

namespace Phpspa

/-! ### Node kinds (source lines 99, 393-396) -/

def ELEMENT_NODE : Nat := 1

def TEXT_NODE : Nat := 3

def COMMENT_NODE : Nat := 8

def DOCUMENT_FRAGMENT_NODE : Nat := 11

/-! ### Attributes

A DOM attribute: qualified `name`, `localName`, prefix (`pfx`),
`namespaceURI` (`ns`) and `value`. -/

structure Attr where
  name : String
  localName : String
  pfx : Option String
  ns : Option String
  value : String
  deriving DecidableEq, Repr

/-- Element runtime properties read and written by the special element
handlers (source lines 277-391).  These are host object properties, not
attributes. -/
structure Props where
  checked : Bool
  disabled : Bool
  selected : Bool
  value : String
  placeholder : String
  selectedIndex : Int
  deriving DecidableEq, Repr

def Props.init : Props := ⟨false, false, false, "", "", 0⟩

/-- Scalar data of a DOM node.  `oid` is the node's object identity
(JavaScript reference identity); `sameNodeOf` models a virtual node whose
`isSameNode` reports true for the node with the given oid (real DOM nodes
carry `none`). -/
structure NodeData where
  oid : Nat
  nodeType : Nat
  nodeName : String
  nodeValue : String
  nsURI : Option String
  attrs : List Attr
  props : Props
  sameNodeOf : Option Nat
  deriving DecidableEq, Repr

inductive Node : Type where
  | mk : NodeData → List Node → Node
  deriving Repr

def Node.data : Node → NodeData
  | .mk d _ => d

def Node.children : Node → List Node
  | .mk _ cs => cs

def Node.oid (n : Node) : Nat := n.data.oid

@[simp] theorem Node.data_mk (d : NodeData) (cs : List Node) : (Node.mk d cs).data = d := rfl

@[simp] theorem Node.children_mk (d : NodeData) (cs : List Node) : (Node.mk d cs).children = cs := rfl

@[simp] theorem Node.oid_mk (d : NodeData) (cs : List Node) : (Node.mk d cs).oid = d.oid := rfl

mutual

def nodeBeq : Node → Node → Bool
  | .mk d cs, .mk d' cs' => d == d' && nodeListBeq cs cs'

def nodeListBeq : List Node → List Node → Bool
  | [], [] => true
  | c :: cs, c' :: cs' => nodeBeq c c' && nodeListBeq cs cs'
  | _, _ => false

end

mutual

theorem nodeBeq_iff : ∀ a b : Node, nodeBeq a b = true ↔ a = b
  | .mk d cs, .mk d' cs' => by
    rw [nodeBeq]
    constructor
    · intro h
      have h1 := (Bool.and_eq_true _ _).mp h
      have hcs := (nodeListBeq_iff cs cs').mp h1.2
      have hd : d = d' := eq_of_beq h1.1
      subst hd; subst hcs; rfl
    · intro h
      cases h
      have h2 : nodeListBeq cs cs = true := (nodeListBeq_iff cs cs).mpr rfl
      simp [h2]

theorem nodeListBeq_iff : ∀ a b : List Node, nodeListBeq a b = true ↔ a = b
  | [], [] => by simp [nodeListBeq]
  | c :: cs, c' :: cs' => by
    rw [nodeListBeq]
    constructor
    · intro h
      have h1 := (Bool.and_eq_true _ _).mp h
      have hc := (nodeBeq_iff c c').mp h1.1
      have hcs := (nodeListBeq_iff cs cs').mp h1.2
      rw [hc, hcs]
    · intro h
      cases h
      have h1 : nodeBeq c c = true := (nodeBeq_iff c c).mpr rfl
      have h2 : nodeListBeq cs cs = true := (nodeListBeq_iff cs cs).mpr rfl
      simp [h1, h2]
  | [], _ :: _ => by simp [nodeListBeq]
  | _ :: _, [] => by simp [nodeListBeq]

end

instance : DecidableEq Node := fun a b =>
  decidable_of_iff (nodeBeq a b = true) (nodeBeq_iff a b)

/-! ### Element-level attribute accessors (host DOM semantics)

`getAttribute`/`setAttribute`/`hasAttribute`/`removeAttribute` match by
qualified name (first match in attribute order); the `NS` variants match by
(namespaceURI, localName). -/

def attrFindByName (l : List Attr) (name : String) : Option Attr :=
  l.find? (fun a => a.name == name)

def attrFindByNS (l : List Attr) (nsv : String) (localName : String) : Option Attr :=
  l.find? (fun a => a.ns == some nsv && a.localName == localName)

def elGetAttribute (n : Node) (name : String) : Option String :=
  (attrFindByName n.data.attrs name).map (·.value)

def elGetAttributeNS (n : Node) (nsv : String) (localName : String) : Option String :=
  (attrFindByNS n.data.attrs nsv localName).map (·.value)

def elHasAttribute (n : Node) (name : String) : Bool :=
  (attrFindByName n.data.attrs name).isSome

def elHasAttributeNS (n : Node) (nsv : String) (localName : String) : Bool :=
  (attrFindByNS n.data.attrs nsv localName).isSome

/-- `setAttribute`: update the value of the first attribute with the given
qualified name, else append a fresh non-namespaced attribute. -/
def setAttrList : List Attr → String → String → List Attr
  | [], name, v => [⟨name, name, none, none, v⟩]
  | a :: as, name, v =>
    if a.name = name then { a with value := v } :: as
    else a :: setAttrList as name v

/-- Split a qualified name at the first colon into (prefix?, localName). -/
def splitQualified (q : String) : Option String × String :=
  match q.splitOn ":" with
  | [p, l] => (some p, l)
  | _ => (none, q)

/-- `setAttributeNS`: update the value of the first attribute matching
(namespace, localName of the given qualified name), else append. -/
def setAttrNSGo (nsv : String) (qualified : String) (v : String)
    (pl : Option String × String) : List Attr → List Attr
  | [] => [⟨qualified, pl.2, pl.1, some nsv, v⟩]
  | a :: as =>
    if a.ns = some nsv ∧ a.localName = pl.2 then { a with value := v } :: as
    else a :: setAttrNSGo nsv qualified v pl as

def setAttrNSList (l : List Attr) (nsv : String) (qualified : String) (v : String) : List Attr :=
  setAttrNSGo nsv qualified v (splitQualified qualified) l

/-- `removeAttribute`: drop the first attribute with the given qualified name. -/
def removeAttrList : List Attr → String → List Attr
  | [], _ => []
  | a :: as, name => if a.name = name then as else a :: removeAttrList as name

/-- `removeAttributeNS`: drop the first attribute matching (ns, localName). -/
def removeAttrNSList : List Attr → String → String → List Attr
  | [], _, _ => []
  | a :: as, nsv, localName =>
    if a.ns = some nsv ∧ a.localName = localName then as
    else a :: removeAttrNSList as nsv localName

/-! ### Generic tree functions -/

mutual

def nodeOids : Node → List Nat
  | .mk d cs => d.oid :: nodeListOids cs

def nodeListOids : List Node → List Nat
  | [] => []
  | c :: cs => nodeOids c ++ nodeListOids cs

end

def containsOid (n : Node) (x : Nat) : Bool := (nodeOids n).contains x

mutual

/-- Find the node with the given oid in a subtree (root included). -/
def findOid : Node → Nat → Option Node
  | .mk d cs, x => if d.oid = x then some (.mk d cs) else findOidL cs x

def findOidL : List Node → Nat → Option Node
  | [], _ => none
  | c :: cs, x =>
    match findOid c x with
    | some r => some r
    | none => findOidL cs x

end

mutual

/-- Parent of the node with the given oid (searching strictly below the root). -/
def parentOfOid : Node → Nat → Option Node
  | .mk d cs, x =>
    if cs.any (fun c => c.oid == x) then some (.mk d cs) else parentOfOidL cs x

def parentOfOidL : List Node → Nat → Option Node
  | [], _ => none
  | c :: cs, x =>
    match parentOfOid c x with
    | some r => some r
    | none => parentOfOidL cs x

end

mutual

/-- Next sibling oid of the node with the given oid, anywhere in the subtree. -/
def nextSibOid : Node → Nat → Option (Option Nat)
  | .mk _ cs, x => nextSibOidL cs x

def nextSibOidL : List Node → Nat → Option (Option Nat)
  | [], _ => none
  | c :: cs, x =>
    if c.oid = x then some (cs.head?.map Node.oid)
    else
      match nextSibOid c x with
      | some r => some r
      | none => nextSibOidL cs x

end

mutual

/-- Remove every strict-descendant node whose oid matches, returning the new
tree, the first removed subtree, and its parent's oid.  (Node identity is
unique in a well-formed document, so at most one node matches.) -/
def detachOid : Node → Nat → Node × Option (Nat × Node)
  | .mk d cs, x =>
    match detachOidL cs d.oid x with
    | (cs', r) => (.mk d cs', r)

def detachOidL : List Node → Nat → Nat → List Node × Option (Nat × Node)
  | [], _, _ => ([], none)
  | c :: cs, p, x =>
    if c.oid = x then
      match detachOidL cs p x with
      | (cs', r) => (cs', match r with | some r' => some r' | none => some (p, c))
    else
      match detachOid c x with
      | (c', r) =>
        match detachOidL cs p x with
        | (cs', r2) => (c' :: cs', match r with | some r' => some r' | none => r2)

end

def insertBeforeList : List Node → Nat → Node → List Node
  | [], _, n => [n]
  | c :: cs, bo, n => if c.oid = bo then n :: c :: cs else c :: insertBeforeList cs bo n

mutual

/-- Insert node `n` into the child list of the node with oid `p`, before the
child with oid `b` (or at the end when `b` is `none` or not a child —
the host DOM raises `NotFoundError` in the latter case; the algorithm only
reaches it through already-exceptional cursor drift). -/
def insertUnder : Node → Nat → Option Nat → Node → Node × Bool
  | .mk d cs, p, b, n =>
    if d.oid = p then
      match b with
      | none => (.mk d (cs ++ [n]), true)
      | some bo =>
        if cs.any (fun c => c.oid == bo) then
          (.mk d (insertBeforeList cs bo n), true)
        else (.mk d (cs ++ [n]), true)
    else
      match insertUnderL cs p b n with
      | (cs', ok) => (.mk d cs', ok)

def insertUnderL : List Node → Nat → Option Nat → Node → List Node × Bool
  | [], _, _, _ => ([], false)
  | c :: cs, p, b, n =>
    match insertUnder c p b n with
    | (c', true) => (c' :: cs, true)
    | (_, false) =>
      match insertUnderL cs p b n with
      | (cs', ok) => (c :: cs', ok)

end

mutual

/-- Replace the strict descendant with oid `x` by node `n`; return the new
tree, whether a replacement happened, and the displaced subtree with its
parent oid. -/
def replaceOid : Node → Nat → Node → Node × Option (Nat × Node)
  | .mk d cs, x, n =>
    match replaceOidL cs d.oid x n with
    | (cs', r) => (.mk d cs', r)

def replaceOidL : List Node → Nat → Nat → Node → List Node × Option (Nat × Node)
  | [], _, _, _ => ([], none)
  | c :: cs, p, x, n =>
    if c.oid = x then (n :: cs, some (p, c))
    else
      match replaceOid c x n with
      | (c', some r) => (c' :: cs, some r)
      | (_, none) =>
        match replaceOidL cs p x n with
        | (cs', r) => (c :: cs', r)

end

/-! ### Observable document mutations and the pass state -/

/-- One observable mutation of the live document: what a `MutationObserver`
on the container would record (attribute records, childList records,
characterData records), plus the root-replacement of the final
`replaceChild` (source line 863) and the incompatible-root swap. -/
inductive Ev where
  | setAttr (oid : Nat) (ns : Option String) (name : String) (value : String)
  | removeAttr (oid : Nat) (ns : Option String) (name : String)
  | setNodeValue (oid : Nat) (v : String)
  | addNode (parentOid : Nat) (oid : Nat)
  | remNode (parentOid : Nat) (oid : Nat)
  | rootSwap (oldOid : Nat) (newOid : Nat)
  | replaceRoot (oldOid : Nat) (newOid : Nat)
  deriving DecidableEq, Repr

/-- Key index: maps keys to live-node oids.  A JavaScript plain object with
string keys; setting prepends (first match wins on reads), deleting drops
every binding of the key. -/
def lkGet (l : List (String × Nat)) (k : String) : Option Nat :=
  (l.find? (fun e => e.1 == k)).map (·.2)

def lkSet (l : List (String × Nat)) (k : String) (v : Nat) : List (String × Nat) :=
  (k, v) :: l

def lkDel (l : List (String × Nat)) (k : String) : List (String × Nat) :=
  l.filter (fun e => e.1 ≠ k)

/-- State of one reconciliation pass.

`doc` is the live tree rooted at the container; `limbo` holds subtrees that
were detached from the document but are still referenced (through the key
index) and may be pulled back in; `lookup` is `fromNodesLookup`;
`removals` is `keyedRemovalList`; `trace` is the ordered list of observable
document mutations performed so far. -/
structure St where
  doc : Node
  limbo : List Node
  lookup : List (String × Nat)
  removals : List String
  trace : List Ev
  deriving DecidableEq, Repr

def stEmit (st : St) (e : Ev) : St := { st with trace := st.trace ++ [e] }

/-- Resolve an oid to its current node: search the document, then limbo. -/
def resolve (st : St) (x : Nat) : Option Node :=
  match findOid st.doc x with
  | some n => some n
  | none => findOidL st.limbo x

def docContains (st : St) (x : Nat) : Bool := containsOid st.doc x

/-- Next sibling of the node with oid `x`, in the document or in limbo. -/
def nextSiblingOf (st : St) (x : Nat) : Option Nat :=
  match nextSibOid st.doc x with
  | some r => r
  | none =>
    match nextSibOidL st.limbo x with
    | some r => r
    | none => none

def firstChildOidOf (st : St) (x : Nat) : Option Nat :=
  (resolve st x).bind (fun n => n.children.head?.map Node.oid)

mutual

def updDataN : Node → Nat → (NodeData → NodeData) → Node
  | .mk d cs, x, f =>
    .mk (if d.oid = x then f d else d) (updDataNL cs x f)

def updDataNL : List Node → Nat → (NodeData → NodeData) → List Node
  | [], _, _ => []
  | c :: cs, x, f => updDataN c x f :: updDataNL cs x f

end

/-- Apply a data update at the node with oid `x`, wherever it lives. -/
def updData (st : St) (x : Nat) (f : NodeData → NodeData) : St :=
  { st with
    doc := updDataN st.doc x f
    limbo := updDataNL st.limbo x f }

/-- `setAttribute` on the node with oid `x`.  The host queues an attribute
mutation record on every `setAttribute` call, so an event is emitted
whenever the node is in the document. -/
def stSetAttribute (st : St) (x : Nat) (name : String) (v : String) : St :=
  let st' := updData st x (fun d => { d with attrs := setAttrList d.attrs name v })
  if docContains st x then stEmit st' (.setAttr x none name v) else st'

def stSetAttributeNS (st : St) (x : Nat) (nsv : String) (qualified : String) (v : String) : St :=
  let st' := updData st x (fun d => { d with attrs := setAttrNSList d.attrs nsv qualified v })
  if docContains st x then stEmit st' (.setAttr x (some nsv) qualified v) else st'

/-- `removeAttribute`: removing an absent attribute is a no-op and queues no
mutation record. -/
def stRemoveAttribute (st : St) (x : Nat) (name : String) : St :=
  match resolve st x with
  | none => st
  | some n =>
    if elHasAttribute n name then
      let st' := updData st x (fun d => { d with attrs := removeAttrList d.attrs name })
      if docContains st x then stEmit st' (.removeAttr x none name) else st'
    else st

def stRemoveAttributeNS (st : St) (x : Nat) (nsv : String) (localName : String) : St :=
  match resolve st x with
  | none => st
  | some n =>
    if elHasAttributeNS n nsv localName then
      let st' := updData st x (fun d => { d with attrs := removeAttrNSList d.attrs nsv localName })
      if docContains st x then stEmit st' (.removeAttr x (some nsv) localName) else st'
    else st

/-- `nodeValue` assignment (characterData mutation record when in the document). -/
def stSetNodeValue (st : St) (x : Nat) (v : String) : St :=
  let st' := updData st x (fun d => { d with nodeValue := v })
  if docContains st x then stEmit st' (.setNodeValue x v) else st'

def stSetProps (st : St) (x : Nat) (f : Props → Props) : St :=
  updData st x (fun d => { d with props := f d.props })

/-- Detach the node with oid `x` from wherever it lives (never the document
root itself: the algorithm never removes the container from inside a pass).
Emits a childList removal record when the node was in the document. -/
def stDetach (st : St) (x : Nat) : St × Option Node :=
  if st.doc.oid = x then (st, none)
  else
    match detachOid st.doc x with
    | (doc', some (p, n)) => (stEmit { st with doc := doc' } (.remNode p x), some n)
    | (_, none) =>
      match detachOidL st.limbo 0 x with
      | (limbo', some (_, n)) => ({ st with limbo := limbo' }, some n)
      | (_, none) =>
        match st.limbo.find? (fun c => c.oid == x) with
        | some n => ({ st with limbo := st.limbo.filter (fun c => c.oid ≠ x) }, some n)
        | none => (st, none)

/-- Graft a detached node value as a child of the node with oid `p`
(before `b`, or appended when `b` is `none`). -/
def stInsertValue (st : St) (p : Nat) (b : Option Nat) (n : Node) : St :=
  match insertUnder st.doc p b n with
  | (doc', true) => stEmit { st with doc := doc' } (.addNode p n.oid)
  | (_, false) =>
    match insertUnderL st.limbo p b n with
    | (limbo', true) => { st with limbo := limbo' }
    | (_, false) => { st with limbo := st.limbo ++ [n] }

/-- Move the node with oid `m` to be a child of `p` (before `b` / appended):
`insertBefore`/`appendChild` semantics, which first remove the node from its
current parent. -/
def stMoveInto (st : St) (p : Nat) (b : Option Nat) (m : Nat) : St :=
  match stDetach st m with
  | (st', some n) => stInsertValue st' p b n
  | (st', none) => st'

/-! ### Keys, node-name comparison, tree indexing (source lines 400-404, 224-247, 520-537) -/

/-- `defaultGetNodeKey` (source lines 400-404):
`(node.getAttribute && node.getAttribute('id')) || node.id`.
Only elements have `getAttribute`; an empty id is falsy and means unkeyed. -/
def getNodeKey (n : Node) : Option String :=
  if n.data.nodeType = ELEMENT_NODE then
    match elGetAttribute n "id" with
    | some v => if v = "" then none else some v
    | none => none
  else none

/-- ASCII uppercase (the semantics of `toUpperCase()` on DOM names). -/
def asciiUpperChar (c : Char) : Char :=
  if 'a' ≤ c ∧ c ≤ 'z' then Char.ofNat (c.toNat - 32) else c

def asciiUpper (s : String) : String := String.mk (s.data.map asciiUpperChar)

/-- `compareNodeNames` (source lines 224-247): equal node names, or equal
after upper-casing the lower-case one (HTML vs. XML casing). -/
def compareNodeNames (fromEl toEl : Node) : Bool :=
  let fromNodeName := fromEl.data.nodeName
  let toNodeName := toEl.data.nodeName
  if fromNodeName = toNodeName then true
  else
    match fromNodeName.toList.head?, toNodeName.toList.head? with
    | some fc, some tc =>
      if fc.toNat ≤ 90 ∧ tc.toNat ≥ 97 then fromNodeName = asciiUpper toNodeName
      else if tc.toNat ≤ 90 ∧ fc.toNat ≥ 97 then toNodeName = asciiUpper fromNodeName
      else false
    | _, _ => false

mutual

/-- `indexTree` (source lines 520-537): walk the children of an element or
fragment; record each keyed child, then recurse into it, then move to its
next sibling.  Later writes overwrite earlier ones. -/
def indexTreeF : Node → List (String × Nat) → List (String × Nat)
  | .mk d cs, lk =>
    if d.nodeType = ELEMENT_NODE ∨ d.nodeType = DOCUMENT_FRAGMENT_NODE then
      indexTreeFL cs lk
    else lk

def indexTreeFL : List Node → List (String × Nat) → List (String × Nat)
  | [], lk => lk
  | c :: cs, lk =>
    let lk1 := match getNodeKey c with
      | some k => lkSet lk k c.oid
      | none => lk
    indexTreeFL cs (indexTreeF c lk1)

end

/-! ### morphAttrs (source lines 101-161) -/

/-- First loop of `morphAttrs`: iterate the target's attributes from last to
first, writing each one whose value differs on the live element (namespaced
attributes through the NS accessors, with the `xmlns`-prefix name quirk). -/
def morphAttrsSet (st : St) (fromOid : Nat) : List Attr → St
  | [] => st
  | attr :: rest =>
    let st1 :=
      match attr.ns with
      | some nsv =>
        let attrName := if attr.localName ≠ "" then attr.localName else attr.name
        let fromValue := (resolve st fromOid).bind (fun fe => elGetAttributeNS fe nsv attrName)
        if fromValue ≠ some attr.value then
          let setName := if attr.pfx = some "xmlns" then attr.name else attrName
          stSetAttributeNS st fromOid nsv setName attr.value
        else st
      | none =>
        let fromValue := (resolve st fromOid).bind (fun fe => elGetAttribute fe attr.name)
        if fromValue ≠ some attr.value then
          stSetAttribute st fromOid attr.name attr.value
        else st
    morphAttrsSet st1 fromOid rest

/-- Second loop of `morphAttrs`: iterate the live element's attributes from
last to first, removing each one absent on the target. -/
def morphAttrsRemove (st : St) (fromOid : Nat) (toEl : Node) : List Attr → St
  | [] => st
  | attr :: rest =>
    let st1 :=
      match attr.ns with
      | some nsv =>
        let attrName := if attr.localName ≠ "" then attr.localName else attr.name
        if ¬ elHasAttributeNS toEl nsv attrName then
          stRemoveAttributeNS st fromOid nsv attrName
        else st
      | none =>
        if ¬ elHasAttribute toEl attr.name then
          stRemoveAttribute st fromOid attr.name
        else st
    morphAttrsRemove st1 fromOid toEl rest

/-- `morphAttrs` (source lines 101-161): skip fragments; write differing
target attributes (last to first), then remove extra live attributes. -/
def morphAttrsF (st : St) (fromOid : Nat) (toEl : Node) : St :=
  match resolve st fromOid with
  | none => st
  | some fe =>
    if toEl.data.nodeType = DOCUMENT_FRAGMENT_NODE ∨ fe.data.nodeType = DOCUMENT_FRAGMENT_NODE then
      st
    else
      let st1 := morphAttrsSet st fromOid toEl.data.attrs.reverse
      let fromAttrsNow := match resolve st1 fromOid with
        | some fe1 => fe1.data.attrs
        | none => []
      morphAttrsRemove st1 fromOid toEl fromAttrsNow.reverse


/-! ### Special element handlers (source lines 277-391) -/

def parentOfOidSpace (st : St) (x : Nat) : Option Node :=
  match parentOfOid st.doc x with
  | some p => some p
  | none => parentOfOidL st.limbo x

/-- `syncBooleanAttrProp` (source lines 277-286): when the live property and
the target property differ, copy the property and mirror it into the
attribute (empty-string attribute when true, removed when false). -/
def syncBooleanAttrProp (st : St) (fromOid : Nat) (toEl : Node)
    (get : Props → Bool) (set : Bool → Props → Props) (name : String) : St :=
  match resolve st fromOid with
  | none => st
  | some fe =>
    if get fe.data.props ≠ get toEl.data.props then
      let newVal := get toEl.data.props
      let st1 := stSetProps st fromOid (set newVal)
      if newVal then stSetAttribute st1 fromOid name ""
      else stRemoveAttribute st1 fromOid name
    else st

/-- `specialElHandlers.OPTION` (source lines 289-312): under a non-multiple
`<select>` (looking through one `<optgroup>` level), apply the Edge
set-then-remove `selected` attribute workaround when the live option carries
the attribute but the target is not selected, reset the select's
`selectedIndex` to -1, then sync the `selected` boolean property. -/
def optionHandler (st : St) (fromOid : Nat) (toEl : Node) : St :=
  let st1 :=
    match parentOfOidSpace st fromOid with
    | none => st
    | some parent =>
      let pName := asciiUpper parent.data.nodeName
      let parent2 : Option Node :=
        if pName = "OPTGROUP" then parentOfOidSpace st parent.oid else some parent
      let pName2 := match parent2 with
        | some p => asciiUpper p.data.nodeName
        | none => ""
      match parent2 with
      | none => st
      | some p2 =>
        if pName2 = "SELECT" ∧ ¬ elHasAttribute p2 "multiple" then
          let st' :=
            match resolve st fromOid with
            | some fe =>
              if elHasAttribute fe "selected" ∧ ¬ toEl.data.props.selected then
                stRemoveAttribute (stSetAttribute st fromOid "selected" "selected") fromOid "selected"
              else st
            | none => st
          stSetProps st' p2.oid (fun pr => { pr with selectedIndex := -1 })
        else st
  syncBooleanAttrProp st1 fromOid toEl Props.selected
    (fun b pr => { pr with selected := b }) "selected"

/-- `specialElHandlers.INPUT` (source lines 319-330). -/
def inputHandler (st : St) (fromOid : Nat) (toEl : Node) : St :=
  let st1 := syncBooleanAttrProp st fromOid toEl Props.checked
    (fun b pr => { pr with checked := b }) "checked"
  let st2 := syncBooleanAttrProp st1 fromOid toEl Props.disabled
    (fun b pr => { pr with disabled := b }) "disabled"
  let st3 :=
    match resolve st2 fromOid with
    | some fe =>
      if fe.data.props.value ≠ toEl.data.props.value then
        stSetProps st2 fromOid (fun pr => { pr with value := toEl.data.props.value })
      else st2
    | none => st2
  if ¬ elHasAttribute toEl "value" then stRemoveAttribute st3 fromOid "value" else st3

/-- `specialElHandlers.TEXTAREA` (source lines 332-350). -/
def textareaHandler (st : St) (fromOid : Nat) (toEl : Node) : St :=
  let newValue := toEl.data.props.value
  let st1 :=
    match resolve st fromOid with
    | some fe =>
      if fe.data.props.value ≠ newValue then
        stSetProps st fromOid (fun pr => { pr with value := newValue })
      else st
    | none => st
  match (resolve st1 fromOid).bind (fun fe => fe.children.head?) with
  | some firstChild =>
    let oldValue := firstChild.data.nodeValue
    let ph := (((resolve st1 fromOid).map (fun fe => fe.data.props.placeholder)).getD "")
    if oldValue = newValue ∨ (newValue = "" ∧ oldValue = ph) then st1
    else stSetNodeValue st1 firstChild.oid newValue
  | none => st1

mutual

def nodeSize : Node → Nat
  | .mk _ cs => 2 + nodeListSize cs

def nodeListSize : List Node → Nat
  | [] => 0
  | c :: cs => nodeSize c + nodeListSize cs

end

/-- The scan loop of `specialElHandlers.SELECT` (source lines 359-386):
walk the select's current children, descending into an `<optgroup>`'s child
list (remembering only the innermost saved optgroup's following siblings as
the continuation `og`), counting `<option>` nodes and stopping at the first
one carrying a `selected` attribute.  Fueled like the rest of the
algorithm; the handler below passes fuel strictly above the loop's
decreasing measure, so the out-of-fuel branch is unreachable there. -/
def selLoop : Nat → List Node → Option (List Node) → Int → Int
  | 0, _, _, _ => -1
  | f + 1, [], some rest, i => selLoop f rest none i
  | _ + 1, [], none, _ => -1
  | f + 1, .mk d gcs :: cs, og, i =>
    let nodeName := asciiUpper d.nodeName
    if nodeName = "OPTGROUP" then
      match gcs with
      | [] => selLoop f cs none i
      | g :: gs => selLoop f (g :: gs) (some cs) i
    else
      if nodeName = "OPTION" then
        if elHasAttribute (.mk d gcs) "selected" then i
        else selLoop f cs og (i + 1)
      else selLoop f cs og i
termination_by structural f => f

/-- The decreasing measure of `selLoop`'s loop state. -/
def selMeasure (l : List Node) (og : Option (List Node)) : Nat :=
  nodeListSize l + (match og with | some r => nodeListSize r + 1 | none => 0)

/-- `specialElHandlers.SELECT` (source lines 351-390): for a target without
the `multiple` attribute, recompute `selectedIndex` from the live children. -/
def selectHandler (st : St) (fromOid : Nat) (toEl : Node) : St :=
  if ¬ elHasAttribute toEl "multiple" then
    match resolve st fromOid with
    | some fe =>
      stSetProps st fromOid (fun pr =>
        { pr with selectedIndex := selLoop (nodeListSize fe.children + 1) fe.children none 0 })
    | none => st
  else st

/-- `specialElHandlers[fromEl.nodeName]` dispatch (source lines 288, 791-794). -/
def applySpecialHandler (st : St) (fromOid : Nat) (toEl : Node) : St :=
  match resolve st fromOid with
  | none => st
  | some fe =>
    if fe.data.nodeName = "OPTION" then optionHandler st fromOid toEl
    else if fe.data.nodeName = "INPUT" then inputHandler st fromOid toEl
    else if fe.data.nodeName = "TEXTAREA" then textareaHandler st fromOid toEl
    else if fe.data.nodeName = "SELECT" then selectHandler st fromOid toEl
    else st

/-! ### Node discarding (source lines 441-490) -/

def addKeyedRemoval (st : St) (k : String) : St :=
  { st with removals := st.removals ++ [k] }

mutual

/-- `walkDiscardedChildNodes` (source lines 445-469): collect the keys of
keyed descendants when `skipKeyedNodes` is set (without descending into
them); descend into unkeyed children that have children. -/
def walkDiscardedKeys : Node → Bool → List String
  | .mk d cs, skipKeyedNodes =>
    if d.nodeType = ELEMENT_NODE then walkDiscardedKeysL cs skipKeyedNodes else []

def walkDiscardedKeysL : List Node → Bool → List String
  | [], _ => []
  | c :: cs, skipKeyedNodes =>
    (match (if skipKeyedNodes then getNodeKey c else none) with
     | some k => [k]
     | none => if c.children.isEmpty then [] else walkDiscardedKeys c skipKeyedNodes)
    ++ walkDiscardedKeysL cs skipKeyedNodes

end

/-- `removeNode` (source lines 479-490): `onBeforeNodeDiscarded` is the
default noop (never `false`), so the node is detached from its parent, the
keys of its keyed descendants are deferred when `skipKeyedNodes` is set, and
the detached subtree stays reachable (limbo) through the key index. -/
def removeNodeF (st : St) (nodeOid : Nat) (skipKeyedNodes : Bool) : St :=
  match stDetach st nodeOid with
  | (st', some n) =>
    { st' with
      removals := st'.removals ++ walkDiscardedKeys n skipKeyedNodes
      limbo := st'.limbo ++ [n] }
  | (st', none) => st'

/-- `parentNode.replaceChild(newNode, oldNode)` used by `handleNodeAdded`
(source line 552): move the live `newOid` node into `oldOid`'s position,
discarding the old subtree. -/
def stReplaceChild (st : St) (oldOid : Nat) (newOid : Nat) : St :=
  match stDetach st newOid with
  | (st1, some uNode) =>
    match replaceOid st1.doc oldOid uNode with
    | (doc', some (p, _)) =>
      stEmit (stEmit { st1 with doc := doc' } (.remNode p oldOid)) (.addNode p newOid)
    | (_, none) =>
      match replaceOidL st1.limbo 0 oldOid uNode with
      | (limbo', some _) => { st1 with limbo := limbo' }
      | (_, none) => { st1 with limbo := st1.limbo ++ [uNode] }
  | (st1, none) => st1

/-- `isSameNode` between a target node and a live node: reference identity,
or the target is a virtual node proxying the live one. -/
def isSameNodeB (toN fromN : Node) : Bool :=
  toN.oid == fromN.oid || toN.data.sameNodeOf == some fromN.oid

/-- Result of one iteration of the inner scan loop of `morphChildren`
(source lines 643-760): continue the outer loop with the next target child
(`toNext`), or keep scanning the remaining live children for the same target
child (`scanNext`).  Both carry the next live-side cursor. -/
inductive StepRes where
  | toNext (nf : Option Nat)
  | scanNext (nf : Option Nat)
  deriving DecidableEq, Repr

mutual

/-- `morphEl` (source lines 586-624) with the hooks at their defaults:
unindex the target's key, sync attributes unless `childrenOnly`, then
reconcile children (or run the TEXTAREA handler). -/
def morphElF : Nat → Nat → Node → Bool → St → Option St
  | 0, _, _, _, _ => none
  | f + 1, fromOid, toEl, childrenOnly, st =>
    let st1 := match getNodeKey toEl with
      | some k => { st with lookup := lkDel st.lookup k }
      | none => st
    -- onBeforeElUpdated: default noop, neither `false` nor an element (596-607)
    let st2 := if ¬ childrenOnly then
        -- morphAttrs (610); onElUpdated noop (612); onBeforeElChildrenUpdated noop (614)
        morphAttrsF st1 fromOid toEl
      else st1
    match resolve st2 fromOid with
    | none => some st2
    | some fe =>
      if fe.data.nodeName ≠ "TEXTAREA" then morphChildrenF f fromOid toEl st2
      else some (textareaHandler st2 fromOid toEl)
termination_by structural f => f

/-- `morphChildren` (source lines 626-795): walk both child lists, clean up
leftover live children, then run the special element handler. -/
def morphChildrenF : Nat → Nat → Node → St → Option St
  | 0, _, _, _ => none
  | f + 1, fromElOid, toEl, st =>
    -- skipFromChildren: default noop, falsy (627)
    match outerF f fromElOid toEl.children (firstChildOidOf st fromElOid) st with
    | none => none
    | some (st1, finalCursor) =>
      match cleanupFromElF f fromElOid finalCursor st1 with
      | none => none
      | some st2 => some (applySpecialHandler st2 fromElOid toEl)
termination_by structural f => f

/-- The outer `while (curToNodeChild)` loop (source line 638). -/
def outerF : Nat → Nat → List Node → Option Nat → St → Option (St × Option Nat)
  | 0, _, _, _, _ => none
  | f + 1, fromElOid, toList, cursor, st =>
    match toList with
    | [] => some (st, cursor)
    | toChild :: rest =>
      match innerScanF f fromElOid toChild cursor st with
      | none => none
      | some (st1, cur1) => outerF f fromElOid rest cur1 st1
termination_by structural f => f

/-- The inner `while (!skipFrom && curFromNodeChild)` loop for one target
child, followed — when the live children are exhausted — by the append
branch of lines 762-783.  After the append branch the stale
`fromNextSibling` is always null, so the cursor stays exhausted (786). -/
def innerScanF : Nat → Nat → Node → Option Nat → St → Option (St × Option Nat)
  | 0, _, _, _, _ => none
  | f + 1, fromElOid, toChild, cursor, st =>
    match cursor with
    | some c =>
      match innerStepF f fromElOid toChild c st with
      | none => none
      | some (st1, .toNext nf) => some (st1, nf)
      | some (st1, .scanNext nf) => innerScanF f fromElOid toChild nf st1
    | none =>
      let mMatch : Option Nat :=
        match getNodeKey toChild with
        | some k =>
          match lkGet st.lookup k with
          | some mOid =>
            match resolve st mOid with
            | some m => if compareNodeNames m toChild then some mOid else none
            | none => none
          | none => none
        | none => none
      match mMatch with
      | some mOid =>
        -- `if (!skipFrom) { addChild(fromEl, matchingFromEl); }` — default append (768)
        let st1 := stMoveInto st fromElOid none mOid
        match morphElF f mOid toChild false st1 with
        | none => none
        | some st2 => some (st2, none)
      | none =>
        -- onBeforeNodeAdded: default noop (771-775); `actualize` absent on DOM nodes (777)
        let st1 := stInsertValue st fromElOid none toChild
        match handleNodeAddedF f toChild st1 with
        | none => none
        | some st2 => some (st2, none)
termination_by structural f => f

/-- One iteration of the inner scan loop (source lines 643-760). -/
def innerStepF : Nat → Nat → Node → Nat → St → Option (St × StepRes)
  | 0, _, _, _, _ => none
  | f + 1, fromElOid, toChild, c, st =>
    let fromNextSibling := nextSiblingOf st c
    match resolve st c with
    | none => some (st, .scanNext fromNextSibling)
    | some cNode =>
      -- identity short-circuit (646-650)
      if isSameNodeB toChild cNode then some (st, .toNext fromNextSibling)
      else
        let curFromNodeKey := getNodeKey cNode
        let curFromNodeType := cNode.data.nodeType
        if curFromNodeType = toChild.data.nodeType then
          if curFromNodeType = ELEMENT_NODE then
            -- both element nodes (660-721)
            let curToNodeKey := getNodeKey toChild
            let stepState : St × Nat × Option String × Bool :=
              match curToNodeKey with
              | some tk =>
                if some tk ≠ curFromNodeKey then
                  match lkGet st.lookup tk with
                  | some mOid =>
                    if fromNextSibling = some mOid then
                      -- special case for single element removals (671-677)
                      (st, c, curFromNodeKey, true)
                    else
                      -- relocate the keyed match into position (679-701)
                      let sA := stMoveInto st fromElOid (some c) mOid
                      let sB := match curFromNodeKey with
                        | some k => addKeyedRemoval sA k
                        | none => removeNodeF sA c true
                      (sB, mOid, (resolve sB mOid).bind getNodeKey, false)
                  | none =>
                    -- keyed target with no live match (703-707)
                    (st, c, curFromNodeKey, true)
                else (st, c, curFromNodeKey, false)
              | none =>
                match curFromNodeKey with
                | some _ => (st, c, curFromNodeKey, true)   -- the original has a key (709-712)
                | none => (st, c, curFromNodeKey, false)
            match stepState with
            | (st1, curOid, curKey, incompat) =>
              let isCompatible := !incompat &&
                (match resolve st1 curOid with
                 | some cn => compareNodeNames cn toChild
                 | none => false)
              if isCompatible then
                -- MORPH (715-721), then advance both cursors (735-741)
                match morphElF f curOid toChild false st1 with
                | none => none
                | some st2 => some (st2, .toNext fromNextSibling)
              else
                -- no compatible match: defer keyed / remove unkeyed (749-759)
                let st2 := match curKey with
                  | some k => addKeyedRemoval st1 k
                  | none => removeNodeF st1 curOid true
                some (st2, .scanNext fromNextSibling)
          else
            if curFromNodeType = TEXT_NODE ∨ curFromNodeType = COMMENT_NODE then
              -- text/comment: always compatible, sync nodeValue (723-732)
              let st1 := if cNode.data.nodeValue ≠ toChild.data.nodeValue
                then stSetNodeValue st c toChild.data.nodeValue else st
              some (st1, .toNext fromNextSibling)
            else
              -- same node type without a branch: incompatible (657, 749-759)
              let st2 := match curFromNodeKey with
                | some k => addKeyedRemoval st k
                | none => removeNodeF st c true
              some (st2, .scanNext fromNextSibling)
        else
          -- differing node types: incompatible (749-759)
          let st2 := match curFromNodeKey with
            | some k => addKeyedRemoval st k
            | none => removeNodeF st c true
          some (st2, .scanNext fromNextSibling)
termination_by structural f => f

/-- `handleNodeAdded` (source lines 539-565), walking the freshly grafted
subtree (whose document content equals this value at this moment): keyed
descendants found in the key index are swapped for the live node and
morphed; everything else is recursed into. -/
def handleNodeAddedF : Nat → Node → St → Option St
  | 0, _, _ => none
  | f + 1, el, st =>
    -- onNodeAdded: default noop (540)
    handleAddedListF f el.children st
termination_by structural f => f

def handleAddedListF : Nat → List Node → St → Option St
  | 0, _, _ => none
  | f + 1, [], st => some st
  | f + 1, curChild :: rest, st =>
    -- `var nextSibling = curChild.nextSibling` (544): the rest of the list
    let res : Option St :=
      match getNodeKey curChild with
      | some k =>
        match lkGet st.lookup k with
        | some uOid =>
          match resolve st uOid with
          | some u =>
            if compareNodeNames curChild u then
              -- swap in the cached keyed node and morph it (551-553)
              morphElF f uOid curChild false (stReplaceChild st curChild.oid uOid)
            else handleNodeAddedF f curChild st
          | none => handleNodeAddedF f curChild st
        | none => handleNodeAddedF f curChild st
      | none => handleNodeAddedF f curChild st
    match res with
    | none => none
    | some st2 => handleAddedListF f rest st2
termination_by structural f => f

/-- `cleanupFromEl` (source lines 567-584): leftover live children are
deferred when keyed, removed (skipping keyed descendants) otherwise. -/
def cleanupFromElF : Nat → Nat → Option Nat → St → Option St
  | 0, _, _, _ => none
  | f + 1, fromElOid, cursor, st =>
    match cursor with
    | none => some st
    | some c =>
      let fromNextSibling := nextSiblingOf st c
      let st1 := match (resolve st c).bind getNodeKey with
        | some k => addKeyedRemoval st k
        | none => removeNodeF st c true
      cleanupFromElF f fromElOid fromNextSibling st1
termination_by structural f => f

end

/-! ### Pass entry point (source lines 406-867) -/

/-- End-of-pass keyed removal loop (source lines 844-851): each key in the
keyed-removal list still present in the key index has its node discarded. -/
def cleanupKeyedGo : List String → St → St
  | [], st => st
  | k :: ks, st =>
    let st1 := match lkGet st.lookup k with
      | some oid => removeNodeF st oid false
      | none => st
    cleanupKeyedGo ks st1

def cleanupKeyedF (st : St) : St := cleanupKeyedGo st.removals st

/-- Final root replacement (source lines 854-864): when the root was swapped
for a new node and the old root sits in a parent, replace it there. -/
def finishPath (morphedOid : Nat) (childrenOnly : Bool) (fromNode : Node)
    (hasParent : Bool) (st : St) : Option (St × Option Nat) :=
  if ¬ childrenOnly ∧ morphedOid ≠ fromNode.oid ∧ hasParent then
    some (stEmit st (.replaceRoot fromNode.oid morphedOid), some morphedOid)
  else some (st, some morphedOid)

/-- Lines 828-852: skip the morph when the target is the very node being
morphed; return `undefined` when the target merely reports `isSameNode`;
otherwise morph and run the keyed removal loop. -/
def mainPathF (f : Nat) (morphedOid : Nat) (toNode : Node) (childrenOnly : Bool)
    (fromNode : Node) (hasParent : Bool) (st : St) : Option (St × Option Nat) :=
  if morphedOid = toNode.oid then
    -- `morphedNode === toNode`: onNodeDiscarded(fromNode) noop; no morph, no keyed cleanup (828-831)
    finishPath morphedOid childrenOnly fromNode hasParent st
  else if toNode.data.sameNodeOf == some morphedOid then
    -- `toNode.isSameNode(morphedNode)`: return undefined (833-835)
    some (st, none)
  else
    match morphElF f morphedOid toNode childrenOnly st with
    | none => none
    | some st1 => finishPath morphedOid childrenOnly fromNode hasParent (cleanupKeyedF st1)

structure MorphOptions where
  childrenOnly : Bool
  deriving DecidableEq, Repr

/-- `morphdom(fromNode, toNode, options)` (source lines 408-867) for an
already-constructed target node, with the lifecycle hooks at their source
defaults.  String targets go through the external Fragment Parser
(`toElement`) first.  `fromHasParent` says whether the live root sits in a
parent (line 854); `freshOid` is the identity the host allocates if an
incompatible root forces `createElementNS` (line 808).  Returns the pass
state and the oid of the returned node (`none` = `undefined`). -/
def morphdomF (f : Nat) (fromNode : Node) (toNode0 : Node) (opts : MorphOptions)
    (fromHasParent : Bool) (freshOid : Nat) : Option (St × Option Nat) :=
  let toNode := if toNode0.data.nodeType = DOCUMENT_FRAGMENT_NODE
    then (toNode0.children.find? (fun c => c.data.nodeType == ELEMENT_NODE)).getD toNode0
    else toNode0
  let childrenOnly := opts.childrenOnly
  let st0 : St :=
    { doc := fromNode, limbo := [], lookup := indexTreeF fromNode [], removals := [], trace := [] }
  if ¬ childrenOnly then
    if fromNode.data.nodeType = ELEMENT_NODE then
      if toNode.data.nodeType = ELEMENT_NODE then
        if ¬ compareNodeNames fromNode toNode then
          -- incompatible roots: move the children into a fresh element (804-809)
          let newRoot : Node := .mk
            { oid := freshOid, nodeType := ELEMENT_NODE, nodeName := toNode.data.nodeName,
              nodeValue := "", nsURI := toNode.data.nsURI, attrs := [], props := Props.init,
              sameNodeOf := none } fromNode.children
          let st1 := stEmit { st0 with doc := newRoot } (.rootSwap fromNode.oid freshOid)
          mainPathF f freshOid toNode childrenOnly fromNode fromHasParent st1
        else mainPathF f fromNode.oid toNode childrenOnly fromNode fromHasParent st0
      else
        -- element to text/comment: adopt the target wholesale (810-813, 828-831, 854-864)
        if toNode.oid ≠ fromNode.oid ∧ fromHasParent then
          some (stEmit { st0 with doc := toNode } (.replaceRoot fromNode.oid toNode.oid),
                some toNode.oid)
        else some (st0, some toNode.oid)
    else if fromNode.data.nodeType = TEXT_NODE ∨ fromNode.data.nodeType = COMMENT_NODE then
      if toNode.data.nodeType = fromNode.data.nodeType then
        -- sync the root nodeValue and return immediately (815-820)
        let st1 := if fromNode.data.nodeValue ≠ toNode.data.nodeValue
          then stSetNodeValue st0 fromNode.oid toNode.data.nodeValue else st0
        some (st1, some fromNode.oid)
      else
        -- text/comment to something else: adopt the target (821-824)
        if toNode.oid ≠ fromNode.oid ∧ fromHasParent then
          some (stEmit { st0 with doc := toNode } (.replaceRoot fromNode.oid toNode.oid),
                some toNode.oid)
        else some (st0, some toNode.oid)
    else mainPathF f fromNode.oid toNode childrenOnly fromNode fromHasParent st0
  else mainPathF f fromNode.oid toNode childrenOnly fromNode fromHasParent st0


/-! ### Navigation Controller markup construction (source lines 1048-1056, 1285-1293)

The reconciler invocation wrappers of the Navigation Controller.  String
values model JavaScript string coercion and truthiness. -/

/-- Coercion of a possibly-undefined value inside string concatenation. -/
def jsStr : Option String → String
  | some s => s
  | none => "undefined"

/-- JavaScript truthiness of a string. -/
def jsTruthy (s : String) : Bool := s ≠ ""

/-- The markup argument built by `processResponse.updateDOM` (source line
1287): `'<div>' + responseData?.content || responseData + '</div>'`.
`+` binds tighter than `||`, so this is
`('<div>' + responseData?.content) || (responseData + '</div>')`.
`content` is the optional `content` field (`none` when the response is a
plain string or has no such field); `responseDataStr` is the string the
whole response value coerces to. -/
def processResponseMarkup (content : Option String) (responseDataStr : String) : String :=
  let left := "<div>" ++ jsStr content
  if jsTruthy left then left else responseDataStr ++ "</div>"

/-- The markup argument built by the popstate `updateDOM` (source line 1050):
`'<div>' + navigationState.content + '</div>'`. -/
def popstateMarkup (content : String) : String := "<div>" ++ content ++ "</div>"

/-- The markup the specification describes: a single well-formed wrapper. -/
def claimedMarkup (content : String) : String := "<div>" ++ content ++ "</div>"

/-- Both wrappers pass `{ childrenOnly: true }` (source lines 1051, 1288). -/
def navigationOptions : MorphOptions := ⟨true⟩

/-- The catch fallback of `processResponse.updateDOM` (source line 1291):
`targetElement.innerHTML = responseData?.content ? responseData.content : responseData`. -/
def processResponseFallback (content : Option String) (responseDataStr : String) : String :=
  match content with
  | some c => if jsTruthy c then c else responseDataStr
  | none => responseDataStr

/-- The catch fallback of the popstate `updateDOM` (source line 1054). -/
def popstateFallback (content : String) : String := content

/-! ### Depth-first visit order of `indexTree` -/

mutual

/-- The nodes visited by `indexTree` starting at `n`, in visit order:
the children of an element or fragment, each followed by its own visit
list (pre-order, document order). -/
def dfsVisit : Node → List Node
  | .mk d cs =>
    if d.nodeType = ELEMENT_NODE ∨ d.nodeType = DOCUMENT_FRAGMENT_NODE then dfsVisitL cs
    else []

def dfsVisitL : List Node → List Node
  | [] => []
  | c :: cs => c :: (dfsVisit c ++ dfsVisitL cs)

end


/-! ### Concrete example nodes used by counterexamples and witnesses -/

def cxAttrId (v : String) : Attr := ⟨"id", "id", none, none, v⟩

def cxAttrSelected : Attr := ⟨"selected", "selected", none, none, ""⟩

def cxDiv1 : Node := .mk ⟨1, 1, "DIV", "", none, [], Props.init, none⟩ []

def cxProxy1 : Node := .mk ⟨2, 1, "DIV", "", none, [], Props.init, some 1⟩ []

def cxDupKeyA : Node := .mk ⟨2, 1, "DIV", "", none, [cxAttrId "k"], Props.init, none⟩ []

def cxDupKeyB : Node := .mk ⟨3, 1, "DIV", "", none, [cxAttrId "k"], Props.init, none⟩ []

def cxDupParent : Node := .mk ⟨1, 1, "DIV", "", none, [], Props.init, none⟩ [cxDupKeyA, cxDupKeyB]

def cxDupTo : Node := .mk ⟨101, 1, "DIV", "", none, [cxAttrId "k"], Props.init, none⟩ []

def cxDupSt : St :=
  { doc := cxDupParent, limbo := [], lookup := indexTreeF cxDupParent [], removals := [], trace := [] }

/-! ### C9 -/

/-! ### C5 -/

/-! ### C10 -/

/-- The shared incompatible-match tail of the inner scan loop (source lines
749-757): defer the removal of a keyed node, remove an unkeyed one. -/
def deferOrRemove (st : St) (c : Nat) (ck : Option String) : St :=
  match ck with
  | some k => addKeyedRemoval st k
  | none => removeNodeF st c true

def cxUnkeyed2 : Node := .mk ⟨2, 1, "DIV", "", none, [], Props.init, none⟩ []

def cxTrigParent : Node := .mk ⟨1, 1, "DIV", "", none, [], Props.init, none⟩ [cxUnkeyed2, cxDupKeyB]

def cxTrigSt : St :=
  { doc := cxTrigParent, limbo := [], lookup := indexTreeF cxTrigParent [], removals := [],
    trace := [] }

/-! ### C6: select handler characterization -/

def isOptionNode (c : Node) : Bool := asciiUpper c.data.nodeName == "OPTION"

def isOptgroupNode (c : Node) : Bool := asciiUpper c.data.nodeName == "OPTGROUP"

/-- One-level flattening of a select's child list, as the specification
describes it: the option children, with one level of optgroup children
spliced in. -/
def flattenOptions : List Node → List Node
  | [] => []
  | c :: cs =>
    (if isOptgroupNode c then c.children.filter isOptionNode
     else if isOptionNode c then [c] else []) ++ flattenOptions cs

/-- Index of the first option carrying a `selected` attribute, counting from
`i`; `-1` when none does. -/
def firstSelectedIdx : List Node → Int → Int
  | [], _ => -1
  | c :: cs, i => if elHasAttribute c "selected" then i else firstSelectedIdx cs (i + 1)

/-- `firstSelectedIdx` with an explicit fallback, used to compose scans. -/
def firstSelectedIdxOr : List Node → Int → Int → Int
  | [], _, dflt => dflt
  | c :: cs, i, dflt => if elHasAttribute c "selected" then i else firstSelectedIdxOr cs (i + 1) dflt

def noNestedOptgroupsB : List Node → Bool
  | [] => true
  | c :: cs =>
    (if isOptgroupNode c then c.children.all (fun g => !isOptgroupNode g) else true) &&
      noNestedOptgroupsB cs

def cxTxt (oid : Nat) (s : String) : Node :=
  .mk ⟨oid, 3, "#text", s, none, [], Props.init, none⟩ []

def cxOption (oid : Nat) (v : String) (sel : Bool) (selAttr : Bool) : Node :=
  .mk ⟨oid, 1, "OPTION", "", none, (if selAttr then [cxAttrSelected] else []),
    { Props.init with selected := sel }, none⟩ [cxTxt (oid + 50) v]

/-- Live select `[A, B, C]` with `selectedIndex = 1` (B selected by the
user: property set, no attribute). -/
def cxSelFrom : Node :=
  .mk ⟨1, 1, "SELECT", "", none, [], { Props.init with selectedIndex := 1 }, none⟩
    [cxOption 2 "A" false false, cxOption 3 "B" true false, cxOption 4 "C" false false]

/-- Target markup `[A, B(selected), C, D]` as parsed. -/
def cxSelTo2 : Node :=
  .mk ⟨100, 1, "SELECT", "", none, [], Props.init, none⟩
    [cxOption 102 "A" false false, cxOption 103 "B" true true, cxOption 104 "C" false false,
     cxOption 105 "D" false false]

def cxOptSel : Node :=
  .mk ⟨4, 1, "OPTION", "", none, [cxAttrSelected], Props.init, none⟩ []

def cxOg2 : Node := .mk ⟨3, 1, "OPTGROUP", "", none, [], Props.init, none⟩ [cxOptSel]

def cxOg1 : Node := .mk ⟨2, 1, "OPTGROUP", "", none, [], Props.init, none⟩ [cxOg2]

def cxSelNested : Node := .mk ⟨1, 1, "SELECT", "", none, [], Props.init, none⟩ [cxOg1]

def cxSelToEmpty : Node := .mk ⟨100, 1, "SELECT", "", none, [], Props.init, none⟩ []

def cxSelSt : St :=
  { doc := cxSelNested, limbo := [], lookup := [], removals := [], trace := [] }

def cxSelStFrom : St :=
  { doc := cxSelFrom, limbo := [], lookup := [], removals := [], trace := [] }



/-! ### C2: attribute synchronization, spec-side views -/

/-! ### C2: specification-side descriptions of the attribute sync events -/
/-- Identity of an attribute as the DOM accessors use it: (namespace,
localName) for namespaced attributes, (none, qualified name) otherwise. -/
def attrId (a : Attr) : Option String × String :=
  match a.ns with
  | some nsv => (some nsv, a.localName)
  | none => (none, a.name)

/-- The event the first `morphAttrs` loop emits for one target attribute,
read against a fixed attribute list (the live element's original
attributes). -/
def setEventFor (fromOid : Nat) (cur : List Attr) (a : Attr) : Option Ev :=
  match a.ns with
  | some nsv =>
    let an := if a.localName ≠ "" then a.localName else a.name
    if (attrFindByNS cur nsv an).map (·.value) ≠ some a.value then
      let setName := if a.pfx = some "xmlns" then a.name else an
      some (.setAttr fromOid (some nsv) setName a.value)
    else none
  | none =>
    if (attrFindByName cur a.name).map (·.value) ≠ some a.value then
      some (.setAttr fromOid none a.name a.value)
    else none

/-- The event the second `morphAttrs` loop emits for one live attribute. -/
def removeEventFor (fromOid : Nat) (toEl : Node) (a : Attr) : Option Ev :=
  match a.ns with
  | some nsv =>
    let an := if a.localName ≠ "" then a.localName else a.name
    if ¬ elHasAttributeNS toEl nsv an then some (.removeAttr fromOid (some nsv) an)
    else none
  | none =>
    if ¬ elHasAttribute toEl a.name then some (.removeAttr fromOid none a.name)
    else none

/-- One step of the first loop as a pure transformation of the live
element's attribute list, paired with the event it emits. -/
def phase1One (fromOid : Nat) (cur : List Attr) (a : Attr) : List Attr × Option Ev :=
  match a.ns with
  | some nsv =>
    let an := if a.localName ≠ "" then a.localName else a.name
    if (attrFindByNS cur nsv an).map (·.value) ≠ some a.value then
      let setName := if a.pfx = some "xmlns" then a.name else an
      (setAttrNSList cur nsv setName a.value, some (.setAttr fromOid (some nsv) setName a.value))
    else (cur, none)
  | none =>
    if (attrFindByName cur a.name).map (·.value) ≠ some a.value then
      (setAttrList cur a.name a.value, some (.setAttr fromOid none a.name a.value))
    else (cur, none)

def phase1Sim (fromOid : Nat) : List Attr → List Attr → List Attr × List Ev
  | cur, [] => (cur, [])
  | cur, a :: rest =>
    match phase1One fromOid cur a with
    | (cur1, ev?) =>
      match phase1Sim fromOid cur1 rest with
      | (fin, evs) => (fin, ev?.toList ++ evs)

/-- One step of the second loop as a pure transformation. -/
def phase2One (fromOid : Nat) (toEl : Node) (cur : List Attr) (a : Attr) :
    List Attr × Option Ev :=
  match a.ns with
  | some nsv =>
    let an := if a.localName ≠ "" then a.localName else a.name
    if ¬ elHasAttributeNS toEl nsv an then
      if (attrFindByNS cur nsv an).isSome then
        (removeAttrNSList cur nsv an, some (.removeAttr fromOid (some nsv) an))
      else (cur, none)
    else (cur, none)
  | none =>
    if ¬ elHasAttribute toEl a.name then
      if (attrFindByName cur a.name).isSome then
        (removeAttrList cur a.name, some (.removeAttr fromOid none a.name))
      else (cur, none)
    else (cur, none)

def phase2Sim (fromOid : Nat) (toEl : Node) : List Attr → List Attr → List Attr × List Ev
  | cur, [] => (cur, [])
  | cur, a :: rest =>
    match phase2One fromOid toEl cur a with
    | (cur1, ev?) =>
      match phase2Sim fromOid toEl cur1 rest with
      | (fin, evs) => (fin, ev?.toList ++ evs)

/-- Well-formedness of a matched pair's attribute lists: what the host
guarantees for parser-produced elements.  Within each element attribute
identities are distinct; plain attribute names collide with no namespaced
attribute's qualified or local name; namespaced attributes have a proper
non-empty local name whose qualified form splits back as written. -/
def AttrsClean (fromA toA : List Attr) : Prop :=
  ((fromA.map attrId)).Nodup ∧
  ((toA.map attrId)).Nodup ∧
  (∀ a ∈ fromA ++ toA, ∀ b ∈ fromA ++ toA,
    a.ns = none → b.ns ≠ none → a.name ≠ b.name ∧ a.name ≠ b.localName) ∧
  (∀ a ∈ fromA ++ toA, a.ns ≠ none → a.localName ≠ "" ∧
    splitQualified (if a.pfx = some "xmlns" then a.name else a.localName) =
      ((if a.pfx = some "xmlns" then a.pfx else none), a.localName))

instance (fromA toA : List Attr) : Decidable (AttrsClean fromA toA) := by
  unfold AttrsClean
  infer_instance

/-! ### Membership and identity structure of the mutating operations -/
/-- Two attributes sharing every field except possibly the value. -/
def skelEq (b b0 : Attr) : Prop :=
  b.name = b0.name ∧ b.localName = b0.localName ∧ b.pfx = b0.pfx ∧ b.ns = b0.ns

/-! ### Attribute reads by identity -/
def anOf (a : Attr) : String := if a.localName ≠ "" then a.localName else a.name

def getAt (cur : List Attr) (a : Attr) : Option String :=
  match a.ns with
  | some nsv => (attrFindByNS cur nsv (anOf a)).map (fun b => b.value)
  | none => (attrFindByName cur a.name).map (fun b => b.value)

def presAt (cur : List Attr) (a : Attr) : Bool :=
  match a.ns with
  | some nsv => (attrFindByNS cur nsv (anOf a)).isSome
  | none => (attrFindByName cur a.name).isSome

def cxC2From : Node := .mk ⟨1, 1, "DIV", "", none,
  [⟨"a", "a", none, none, "1"⟩, ⟨"b", "b", none, none, "2"⟩], Props.init, none⟩ []

def cxC2To : Node := .mk ⟨100, 1, "DIV", "", none,
  [⟨"b", "b", none, none, "3"⟩, ⟨"c", "c", none, none, "4"⟩], Props.init, none⟩ []

def cxC2St : St :=
  { doc := .mk ⟨0, 1, "BODY", "", none, [], Props.init, none⟩ [cxC2From],
    limbo := [], lookup := [], removals := [], trace := [] }

/-! ### C4: childrenOnly root (concrete INPUT pair) -/

def cxC4From : Node := .mk ⟨1, 1, "INPUT", "", none, [], Props.init, none⟩ []

def cxC4To : Node := .mk ⟨100, 1, "INPUT", "", none,
  [⟨"checked", "checked", none, none, ""⟩], { Props.init with checked := true }, none⟩ []

/-! ### C8: textarea-buried keyed node (concrete trees) -/

def cxC8Keyed : Node := .mk ⟨3, 1, "DIV", "", none, [cxAttrId "k"], Props.init, none⟩ []

def cxC8From : Node := .mk ⟨1, 1, "DIV", "", none, [], Props.init, none⟩
  [.mk ⟨2, 1, "TEXTAREA", "", none, [], Props.init, none⟩ [cxC8Keyed]]

def cxC8To : Node := .mk ⟨100, 1, "DIV", "", none, [], Props.init, none⟩
  [.mk ⟨101, 1, "TEXTAREA", "", none, [], Props.init, none⟩ []]

/-! ### C3: structural equality and parse-coherence of a live tree -/

mutual

/-- Attribute-for-attribute and child-for-child equality of two trees
(everything a fragment parse of the live tree's markup reproduces). -/
def structEqB : Node → Node → Bool
  | .mk d cs, .mk d' cs' =>
    d.nodeType == d'.nodeType && d.nodeName == d'.nodeName &&
    d.nodeValue == d'.nodeValue && d.attrs == d'.attrs && structEqLB cs cs'

def structEqLB : List Node → List Node → Bool
  | [], [] => true
  | [], _ :: _ => false
  | _ :: _, [] => false
  | c :: cs, c' :: cs' => structEqB c c' && structEqLB cs cs'

end

mutual

/-- A tree on which reconciliation against an equal tree is observably
idempotent: every node is of an ordinary kind (element/text/comment), its
form-control properties agree with its attributes exactly as a fresh parse
sets them, it is no isSameNode proxy, its attribute list is clean, and it
is not a SELECT or OPTION (whose handlers rewrite selection properties
unconditionally). -/
def idemReadyB : Node → Bool
  | .mk d cs =>
    (d.nodeType == ELEMENT_NODE || d.nodeType == TEXT_NODE || d.nodeType == COMMENT_NODE) &&
    (d.props.checked == (attrFindByName d.attrs "checked").isSome) &&
    (d.props.disabled == (attrFindByName d.attrs "disabled").isSome) &&
    (d.props.selected == (attrFindByName d.attrs "selected").isSome) &&
    (d.props.value == (if d.nodeName = "TEXTAREA"
        then ((cs.head?.map (fun c => c.data.nodeValue)).getD "")
        else (((attrFindByName d.attrs "value").map (fun a => a.value)).getD ""))) &&
    (d.sameNodeOf == (none : Option Nat)) &&
    (d.nodeName != "SELECT") && (d.nodeName != "OPTION") &&
    decide (AttrsClean d.attrs d.attrs) &&
    idemReadyLB cs

def idemReadyLB : List Node → Bool
  | [] => true
  | c :: cs => idemReadyB c && idemReadyLB cs

end

/-! ### Subtree navigation under unique node identities -/

/-- `s` occurs as a subtree of `t`. -/
inductive Isub : Node → Node → Prop where
  | refl (t : Node) : Isub t t
  | child {s c t : Node} (hc : c ∈ t.children) (h : Isub s c) : Isub s t

/-- The state projections reconciliation must not disturb. -/
def stpres (st st' : St) : Prop :=
  st'.doc = st.doc ∧ st'.trace = st.trace ∧ st'.limbo = st.limbo ∧ st'.removals = st.removals

def cxC3From : Node := .mk ⟨1, 1, "DIV", "", none, [], Props.init, none⟩
  [.mk ⟨2, 1, "INPUT", "", none, [⟨"checked", "checked", none, none, ""⟩],
    Props.init, none⟩ []]

def cxC3To : Node := .mk ⟨100, 1, "DIV", "", none, [], Props.init, none⟩
  [.mk ⟨101, 1, "INPUT", "", none, [⟨"checked", "checked", none, none, ""⟩],
    { Props.init with checked := true }, none⟩ []]

def cxC3WFrom : Node := .mk ⟨1, 1, "DIV", "", none, [], Props.init, none⟩
  [.mk ⟨2, 1, "P", "", none, [], Props.init, none⟩
    [.mk ⟨3, 3, "#text", "hi", none, [], Props.init, none⟩ []]]

def cxC3WTo : Node := .mk ⟨100, 1, "DIV", "", none, [], Props.init, none⟩
  [.mk ⟨101, 1, "P", "", none, [], Props.init, none⟩
    [.mk ⟨102, 3, "#text", "hi", none, [], Props.init, none⟩ []]]


/-! ### C1: keyed identity — concrete trees -/

def cxC1FromKeyed : Node := .mk ⟨2, 1, "P", "", none, [⟨"id", "id", none, none, "k"⟩], Props.init, none⟩ []
def cxC1ToKeyed : Node := .mk ⟨101, 1, "SPAN", "", none, [⟨"id", "id", none, none, "k"⟩], Props.init, none⟩ []
def cxC1From : Node := .mk ⟨1, 1, "DIV", "", none, [], Props.init, none⟩ [cxC1FromKeyed]
def cxC1To : Node := .mk ⟨100, 1, "DIV", "", none, [], Props.init, none⟩ [cxC1ToKeyed]

def cxC1Doc : Node := .mk ⟨1, 1, "DIV", "", none, [], Props.init, none⟩
  [.mk ⟨2, 1, "P", "", none, [⟨"id", "id", none, none, "a"⟩], Props.init, none⟩ [],
   .mk ⟨3, 1, "DIV", "", none, [], Props.init, none⟩ [],
   .mk ⟨4, 1, "P", "", none, [⟨"id", "id", none, none, "k"⟩], Props.init, none⟩
     [.mk ⟨5, 3, "#text", "hello", none, [], Props.init, none⟩ []]]

def cxC1W : Node := .mk ⟨101, 1, "P", "", none, [⟨"id", "id", none, none, "k"⟩], Props.init, none⟩
  [.mk ⟨102, 3, "#text", "hello", none, [], Props.init, none⟩ []]

def cxC1St : St := ⟨cxC1Doc, [], indexTreeF cxC1Doc [], [], []⟩

def cxC1CNode : Node := .mk ⟨2, 1, "P", "", none, [⟨"id", "id", none, none, "a"⟩], Props.init, none⟩ []


/-! ## Theorems -/

theorem divPlus_ne_empty (c : String) : ("<div>" ++ c) ≠ "" := by
  intro h
  have h2 := congrArg String.length h
  have h3 : ("<div>" : String).length = 5 := rfl
  simp [String.length_append, h3] at h2

/-- C9 support -/
theorem processResponseMarkup_some (c s : String) :
    processResponseMarkup (some c) s = "<div>" ++ c := by
  simp [processResponseMarkup, jsStr, jsTruthy, divPlus_ne_empty c]

-- C5 support lemmas

theorem lkGet_lkSet (lk : List (String × Nat)) (key k : String) (v : Nat) :
    lkGet (lkSet lk key v) k = if key = k then some v else lkGet lk k := by
  by_cases h : key = k <;> simp [lkGet, lkSet, List.find?_cons, h]

theorem getLast?_append_or (l1 l2 : List α) :
    (l1 ++ l2).getLast? = l2.getLast?.or l1.getLast? := by
  cases h : l2 with
  | nil => simp
  | cons x xs =>
    rw [List.getLast?_append_of_ne_nil l1 (by simp)]
    cases h2 : (x :: xs).getLast? with
    | none => simp [List.getLast?_eq_none_iff] at h2
    | some y => simp [Option.or]

theorem Option.or_assoc3 (A B C : Option α) : (A.or B).or C = A.or (B.or C) := by
  cases A <;> rfl

theorem Option.or_absorb_some (A B : Option α) (v : α) (w : Option α) :
    ((A.or B).or (some v)).or w = A.or (B.or (some v)) := by
  cases A <;> cases B <;> rfl

theorem Option.map_or' (f : α → β) (x y : Option α) :
    (x.or y).map f = (x.map f).or (y.map f) := by
  cases x <;> simp [Option.or]

mutual

theorem lkGet_indexTreeF_gen : ∀ (t : Node) (lk : List (String × Nat)) (k : String),
    lkGet (indexTreeF t lk) k =
      ((((dfsVisit t).filter (fun n => getNodeKey n == some k)).getLast?).map Node.oid).or
        (lkGet lk k)
  | .mk d cs, lk, k => by
    rw [indexTreeF, dfsVisit]
    by_cases h : d.nodeType = ELEMENT_NODE ∨ d.nodeType = DOCUMENT_FRAGMENT_NODE
    · simp only [if_pos h]
      exact lkGet_indexTreeFL_gen cs lk k
    · simp only [if_neg h, List.filter_nil, List.getLast?_nil, Option.map_none', Option.none_or]

theorem lkGet_indexTreeFL_gen : ∀ (l : List Node) (lk : List (String × Nat)) (k : String),
    lkGet (indexTreeFL l lk) k =
      ((((dfsVisitL l).filter (fun n => getNodeKey n == some k)).getLast?).map Node.oid).or
        (lkGet lk k)
  | [], lk, k => by simp [indexTreeFL, dfsVisitL]
  | c :: cs, lk, k => by
    rw [indexTreeFL, dfsVisitL]
    rw [lkGet_indexTreeFL_gen cs _ k]
    rw [lkGet_indexTreeF_gen c _ k]
    rw [List.filter_cons, List.filter_append]
    cases hkey : getNodeKey c with
    | none =>
      have hf : ((none : Option String) == some k) = false := by simp
      simp only [hf, Bool.false_eq_true, if_false, getLast?_append_or, Option.map_or']
      exact (Option.or_assoc3 _ _ _).symm
    | some key =>
      simp only []
      rw [lkGet_lkSet]
      by_cases hkk : key = k
      · subst hkk
        have hT : (some key == some key) = true := by simp
        simp only [hT, if_true, if_pos rfl]
        rw [← List.singleton_append, getLast?_append_or, getLast?_append_or]
        simp only [Option.map_or']
        have h1 : ([c].getLast? : Option Node) = some c := rfl
        rw [h1]
        simp only [Option.map_some']
        exact (Option.or_absorb_some _ _ _ _).symm
      · have hF : (some key == some k) = false := by simp [hkk]
        simp only [hF, Bool.false_eq_true, if_false, if_neg hkk, getLast?_append_or,
          Option.map_or']
        exact (Option.or_assoc3 _ _ _).symm

end

theorem lkGet_nil (k : String) : lkGet [] k = none := rfl

/-- C9: the Navigation Controller invokes the reconciler with
`childrenOnly: true` and falls back to a verbatim overwrite on exception,
but the markup string built by `processResponse.updateDOM` is
`('<div>' + responseData?.content) || (responseData + '</div>')` — `+`
binds tighter than `||`, the left operand always starts with `<div>` and is
therefore always truthy, so the closing `</div>` is never appended (and a
plain-string response yields `<div>undefined`).  The popstate wrapper
builds the claimed well-formed string. -/
theorem C9_navigation_markup :
    (∀ c s, processResponseMarkup (some c) s = "<div>" ++ c) ∧
    processResponseMarkup (some "<p>hi</p>") "[object Object]" = "<div><p>hi</p>" ∧
    processResponseMarkup (some "<p>hi</p>") "[object Object]" ≠ claimedMarkup "<p>hi</p>" ∧
    processResponseMarkup none "hello" = "<div>undefined" ∧
    (∀ c, popstateMarkup c = claimedMarkup c) ∧
    navigationOptions.childrenOnly = true ∧
    (∀ c s, jsTruthy c = true → processResponseFallback (some c) s = c) := by
  refine ⟨fun c s => processResponseMarkup_some c s, by decide, by decide, by decide,
    fun c => rfl, rfl, fun c s h => ?_⟩
  simp [processResponseFallback, h]

/-- C5: the key index built at the start of a pass maps each key to at most
one live node (it is a map), and the entry for a key is the node encountered
last in the depth-first document-order walk of the live tree performed by
`indexTree` — last write wins. -/
theorem C5_key_index_last_write_wins (t : Node) (k : String) :
    lkGet (indexTreeF t []) k =
      (((dfsVisit t).filter (fun n => getNodeKey n == some k)).getLast?).map Node.oid := by
  rw [lkGet_indexTreeF_gen, lkGet_nil]
  cases (((dfsVisit t).filter (fun n => getNodeKey n == some k)).getLast?).map Node.oid <;>
    simp [Option.or]

/-- C10 counterexample: the claim includes passing the live node itself as
the target among the cases that return `undefined`; but when the target is
reference-identical to the morphed node (`morphedNode === toNode`, source
line 828) the pass returns that node, not `undefined` — the `isSameNode`
early return (line 833) is only reached for a distinct proxy object. -/
theorem C10_counterexample :
    isSameNodeB cxDiv1 cxDiv1 = true ∧
    (morphdomF 10 cxDiv1 cxDiv1 ⟨false⟩ false 99).map (·.2) = some (some cxDiv1.oid) ∧
    (morphdomF 10 cxDiv1 cxDiv1 ⟨false⟩ false 99).map (·.2) ≠ some none := by
  decide

/-- C10 amended: with `childrenOnly` false and a name-compatible element
target, (i) if the target is a node distinct from the one that would be
morphed but reports `isSameNode` true for it (a proxy), reconciliation
returns `undefined` and performs no mutation, no keyed-removal cleanup and
no root replacement (the state is exactly the freshly indexed initial
state); (ii) if the target is the very same node, reconciliation skips the
morph but returns that node. -/
theorem C10_amended (f : Nat) (fromNode toNode : Node) (hasParent : Bool) (freshOid : Nat)
    (h1 : fromNode.data.nodeType = ELEMENT_NODE)
    (h2 : toNode.data.nodeType = ELEMENT_NODE)
    (h3 : compareNodeNames fromNode toNode = true) :
    (toNode.oid ≠ fromNode.oid → toNode.data.sameNodeOf = some fromNode.oid →
      morphdomF f fromNode toNode ⟨false⟩ hasParent freshOid =
        some ({ doc := fromNode, limbo := [], lookup := indexTreeF fromNode [],
                removals := [], trace := [] }, none)) ∧
    (toNode.oid = fromNode.oid →
      (morphdomF f fromNode toNode ⟨false⟩ hasParent freshOid).map (·.2) =
        some (some fromNode.oid)) := by
  have h12 : toNode.data.nodeType ≠ DOCUMENT_FRAGMENT_NODE := by
    rw [h2]; decide
  have hsel : (if toNode.data.nodeType = DOCUMENT_FRAGMENT_NODE
      then (toNode.children.find? (fun c => c.data.nodeType == ELEMENT_NODE)).getD toNode
      else toNode) = toNode := if_neg h12
  constructor
  · intro hne hproxy
    rw [morphdomF]
    simp only [hsel]
    rw [if_pos h1, if_pos h2]
    rw [h3]
    simp only [Bool.true_eq_false, not_true_eq_false, not_false_eq_true, ite_true, ite_false,
      if_neg, if_pos]
    rw [mainPathF]
    have hpx : (toNode.data.sameNodeOf == some fromNode.oid) = true := by
      simp [hproxy]
    simp only [hpx, ite_true, if_pos]
    rw [if_neg (show fromNode.oid ≠ toNode.oid from fun h => hne (Eq.symm h))]
    split <;> rfl
  · intro heq
    rw [morphdomF]
    simp only [hsel]
    rw [if_pos h1, if_pos h2]
    rw [h3]
    simp only [Bool.true_eq_false, not_true_eq_false, not_false_eq_true, ite_true, ite_false,
      if_neg, if_pos]
    rw [mainPathF]
    rw [if_pos heq.symm]
    rw [finishPath]
    simp

/-- C10 witness: the amended theorem applied to a concrete proxy target. -/
theorem C10_witness :
    compareNodeNames cxDiv1 cxProxy1 = true ∧
    morphdomF 10 cxDiv1 cxProxy1 ⟨false⟩ false 99 =
      some ({ doc := cxDiv1, limbo := [], lookup := indexTreeF cxDiv1 [],
              removals := [], trace := [] }, none) :=
  ⟨by decide,
    (C10_amended 10 cxDiv1 cxProxy1 false 99 (by decide) (by decide) (by decide)).1
      (by decide) (by decide)⟩

/-- C7 counterexample: with duplicate keys in the live tree, the condition
the claim states ("the key is found in the key index and the indexed node
is exactly the next sibling of the scan position") holds — the index maps
`k` to the next sibling (oid 3) of the cursor (oid 2) — yet the pair is
matched in place (the cursor node itself has key `k`, so the index is never
consulted): the step returns `toNext`, nothing is removed or deferred, and
both live children stay in place. -/
theorem C7_counterexample :
    lkGet cxDupSt.lookup "k" = some 3 ∧
    nextSiblingOf cxDupSt 2 = some 3 ∧
    getNodeKey cxDupTo = some "k" ∧
    (innerStepF 6 1 cxDupTo 2 cxDupSt).map
        (fun r => (r.2, r.1.removals, r.1.doc.children.map Node.oid)) =
      some (.toNext (some 3), [], [2, 3]) := by
  decide

/-- C7 amended: during the element/element inner scan with a keyed target
child whose key `k` is in the key index, (a) exactly when `k` differs from
the current live child's key and the indexed node is the very next sibling
of the scan position, the pair is marked incompatible: no relocation
happens, the current child is deferred (keyed) or removed (unkeyed), and
the scan continues at the indexed node, where the match is re-discovered in
place by the next scan iteration; (b) in every other consulted-index case
the indexed node is relocated via `insertBefore` to the current scan
position and matching continues with it; (c) when the keys are equal the
index is not consulted and the pair is matched in place — even if the
indexed node is the next sibling (duplicate keys), refuting the claim's
unconditional trigger. -/
theorem C7_amended (f : Nat) (fromElOid : Nat) (toChild : Node) (c : Nat) (st : St)
    (cNode : Node) (k : String) (m : Nat)
    (hres : resolve st c = some cNode)
    (hsame : isSameNodeB toChild cNode = false)
    (hcel : cNode.data.nodeType = ELEMENT_NODE)
    (htel : toChild.data.nodeType = ELEMENT_NODE)
    (htk : getNodeKey toChild = some k)
    (hlk : lkGet st.lookup k = some m) :
    (getNodeKey cNode ≠ some k → nextSiblingOf st c = some m →
      innerStepF (f + 1) fromElOid toChild c st =
        some (deferOrRemove st c (getNodeKey cNode), .scanNext (some m))) ∧
    (getNodeKey cNode ≠ some k → nextSiblingOf st c ≠ some m →
      innerStepF (f + 1) fromElOid toChild c st =
        (let st2 := deferOrRemove (stMoveInto st fromElOid (some c) m) c (getNodeKey cNode)
         if (match resolve st2 m with
             | some mn => compareNodeNames mn toChild
             | none => false) = true then
           (match morphElF f m toChild false st2 with
            | none => none
            | some st3 => some (st3, StepRes.toNext (nextSiblingOf st c)))
         else
           some (deferOrRemove st2 m ((resolve st2 m).bind getNodeKey),
             .scanNext (nextSiblingOf st c)))) ∧
    (getNodeKey cNode = some k →
      innerStepF (f + 1) fromElOid toChild c st =
        (if compareNodeNames cNode toChild = true then
          (match morphElF f c toChild false st with
           | none => none
           | some st3 => some (st3, StepRes.toNext (nextSiblingOf st c)))
         else some (deferOrRemove st c (some k), .scanNext (nextSiblingOf st c)))) := by
  have hty : cNode.data.nodeType = toChild.data.nodeType := by rw [hcel, htel]
  refine ⟨?_, ?_, ?_⟩
  · intro hkne hnext
    rw [innerStepF]
    rw [hres]
    simp only [hsame, Bool.false_eq_true, if_false, ite_false, hty, if_pos rfl, htel,
      ELEMENT_NODE, htk, hlk]
    rw [if_pos (fun h => hkne h.symm : some k ≠ getNodeKey cNode)]
    rw [if_pos hnext]
    rw [hnext]
    rfl
  · intro hkne hnext
    rw [innerStepF]
    rw [hres]
    simp only [hsame, Bool.false_eq_true, if_false, ite_false, hty, if_pos rfl, htel,
      ELEMENT_NODE, htk, hlk]
    rw [if_pos (fun h => hkne h.symm : some k ≠ getNodeKey cNode)]
    rw [if_neg hnext]
    simp only [deferOrRemove]
    rfl
  · intro hkeq
    rw [innerStepF]
    rw [hres]
    simp only [hsame, Bool.false_eq_true, if_false, ite_false, hty, if_pos rfl, htel,
      ELEMENT_NODE, htk, hlk]
    rw [if_neg (show ¬ some k ≠ getNodeKey cNode from fun h => h hkeq.symm)]
    rw [hres]
    simp only [deferOrRemove, hkeq, Bool.not_false, Bool.true_and]
    rfl

/-- C7 witness: the amended theorem applied to a concrete trigger state (an
unkeyed live child whose next sibling is the indexed match). -/
theorem C7_witness :
    innerStepF 6 1 cxDupTo 2 cxTrigSt =
      some (deferOrRemove cxTrigSt 2 (getNodeKey cxUnkeyed2), .scanNext (some 3)) :=
  (C7_amended 5 1 cxDupTo 2 cxTrigSt cxUnkeyed2 "k" 3 (by decide) (by decide) (by decide)
    (by decide) (by decide) (by decide)).1 (by decide) (by decide)

theorem firstSelectedIdx_append (l1 l2 : List Node) (i : Int) :
    firstSelectedIdx (l1 ++ l2) i =
      firstSelectedIdxOr l1 i (firstSelectedIdx l2 (i + l1.length)) := by
  induction l1 generalizing i with
  | nil => simp [firstSelectedIdxOr]
  | cons c cs ih =>
    rw [List.cons_append, firstSelectedIdx, firstSelectedIdxOr]
    by_cases h : elHasAttribute c "selected" <;> simp only [h, ite_true, ite_false, if_pos, if_neg]
    rw [ih]
    have : i + 1 + (cs.length : Int) = i + (cs.length + 1 : Nat) := by push_cast; ring
    rw [this]
    simp

/-- Fuel above the measure makes the scan loop total; with no nested
optgroups it computes the first-selected index over the one-level
flattening (continuation case: scan the optgroup content, then resume at
the saved siblings with the option count added). -/
theorem selLoop_spec : ∀ (f : Nat) (l : List Node) (og : Option (List Node)) (i : Int),
    selMeasure l og < f →
    (match og with
     | none => noNestedOptgroupsB l = true →
         selLoop f l og i = firstSelectedIdx (flattenOptions l) i
     | some rest => l.all (fun x => !isOptgroupNode x) = true →
         noNestedOptgroupsB rest = true →
         selLoop f l og i = firstSelectedIdxOr (l.filter isOptionNode) i
           (firstSelectedIdx (flattenOptions rest) (i + (l.filter isOptionNode).length))) := by
  intro f
  induction f with
  | zero => intro l og i hm; exact absurd hm (by omega)
  | succ f ih =>
    intro l og i hm
    match l, og with
    | [], none => intro _; simp [selLoop, flattenOptions, firstSelectedIdx]
    | [], some rest =>
      intro _ hr
      have hm' : selMeasure rest none < f := by
        simp only [selMeasure, nodeListSize] at hm ⊢
        omega
      have := ih rest none i hm'
      simp only [] at this
      rw [selLoop]
      rw [this hr]
      simp [firstSelectedIdxOr, List.filter_nil, flattenOptions]
    | .mk d gcs :: cs, og =>
      rw [selLoop.eq_def]
      simp only []
      by_cases hog : asciiUpper d.nodeName = "OPTGROUP"
      · rw [if_pos hog]
        cases og with
        | none =>
          intro hn
          rw [noNestedOptgroupsB, Bool.and_eq_true] at hn
          obtain ⟨hc, hcs⟩ := hn
          have hogN : isOptgroupNode (Node.mk d gcs) = true := by
            simp [isOptgroupNode, hog]
          rw [if_pos hogN] at hc
          rw [flattenOptions]
          simp only [hogN, if_true, ite_true, Node.children_mk]
          cases gcs with
          | nil =>
            have hm' : selMeasure cs none < f := by
              simp only [selMeasure, nodeListSize, nodeSize] at hm ⊢
              omega
            have := ih cs none i hm'
            simp only [] at this
            simp only [List.filter_nil, List.nil_append]
            exact this hcs
          | cons g gs =>
            simp only []
            have hm' : selMeasure (g :: gs) (some cs) < f := by
              simp only [selMeasure, nodeListSize, nodeSize] at hm ⊢
              omega
            have hall : (g :: gs).all (fun x => !isOptgroupNode x) = true := by
              simpa [Node.children_mk] using hc
            have := ih (g :: gs) (some cs) i hm'
            simp only [] at this
            rw [this hall hcs]
            rw [firstSelectedIdx_append]
        | some rest =>
          intro hall _
          have : isOptgroupNode (Node.mk d gcs) = true := by
            simp [isOptgroupNode, hog]
          have hfalse := (List.all_eq_true.mp hall) (Node.mk d gcs) (by simp)
          rw [this] at hfalse
          simp at hfalse
      · rw [if_neg hog]
        have hogN : isOptgroupNode (Node.mk d gcs) = false := by
          simp [isOptgroupNode, hog]
        by_cases ho : asciiUpper d.nodeName = "OPTION"
        · rw [if_pos ho]
          have hoN : isOptionNode (Node.mk d gcs) = true := by
            simp [isOptionNode, ho]
          cases og with
          | none =>
            intro hn
            rw [noNestedOptgroupsB, Bool.and_eq_true] at hn
            obtain ⟨_, hcs⟩ := hn
            rw [flattenOptions]
            simp only [hogN, hoN, if_true, ite_true, if_false, ite_false, Bool.false_eq_true,
              List.singleton_append]
            rw [firstSelectedIdx]
            by_cases hs : elHasAttribute (Node.mk d gcs) "selected"
            · simp [hs]
            · rw [if_neg (by simpa using hs), if_neg (by simpa using hs)]
              have hm' : selMeasure cs none < f := by
                simp only [selMeasure, nodeListSize, nodeSize] at hm ⊢
                omega
              have := ih cs none (i + 1) hm'
              simp only [] at this
              exact this hcs
          | some rest =>
            intro hall hr
            have hallcs : cs.all (fun x => !isOptgroupNode x) = true := by
              rw [List.all_eq_true] at hall ⊢
              exact fun x hx => hall x (by simp [hx])
            rw [List.filter_cons_of_pos (by simpa using hoN)]
            rw [firstSelectedIdxOr]
            by_cases hs : elHasAttribute (Node.mk d gcs) "selected"
            · simp [hs]
            · rw [if_neg (by simpa using hs), if_neg (by simpa using hs)]
              have hm' : selMeasure cs (some rest) < f := by
                simp only [selMeasure, nodeListSize, nodeSize] at hm ⊢
                omega
              have := ih cs (some rest) (i + 1) hm'
              simp only [] at this
              rw [this hallcs hr]
              have harith : i + 1 + ((cs.filter isOptionNode).length : Int) =
                  i + (((cs.filter isOptionNode).length + 1 : Nat) : Int) := by push_cast; ring
              rw [harith]
              simp
        · rw [if_neg ho]
          have hoN : isOptionNode (Node.mk d gcs) = false := by
            simp [isOptionNode, ho]
          cases og with
          | none =>
            intro hn
            rw [noNestedOptgroupsB, Bool.and_eq_true] at hn
            obtain ⟨_, hcs⟩ := hn
            rw [flattenOptions]
            simp only [hogN, hoN, if_false, ite_false, Bool.false_eq_true, List.nil_append]
            have hm' : selMeasure cs none < f := by
              simp only [selMeasure, nodeListSize, nodeSize] at hm ⊢
              omega
            have := ih cs none i hm'
            simp only [] at this
            exact this hcs
          | some rest =>
            intro hall hr
            have hallcs : cs.all (fun x => !isOptgroupNode x) = true := by
              rw [List.all_eq_true] at hall ⊢
              exact fun x hx => hall x (by simp [hx])
            rw [List.filter_cons_of_neg (by simpa using hoN)]
            have hm' : selMeasure cs (some rest) < f := by
              simp only [selMeasure, nodeListSize, nodeSize] at hm ⊢
              omega
            have := ih cs (some rest) i hm'
            simp only [] at this
            exact this hallcs hr

/-- The fuel the SELECT handler passes is always sufficient. -/
theorem selLoop_flatten (l : List Node) (i : Int)
    (h : noNestedOptgroupsB l = true) :
    selLoop (nodeListSize l + 1) l none i = firstSelectedIdx (flattenOptions l) i := by
  have := selLoop_spec (nodeListSize l + 1) l none i (by simp [selMeasure])
  simp only [] at this
  exact this h

/-- C6 counterexample: for a select whose optgroup nests another optgroup
holding the only selected option, the handler's scan descends beyond one
level and sets `selectedIndex` to 0, while the claim's characterization
(first selected option counting one optgroup level) yields -1. -/
theorem C6_counterexample :
    (selectHandler cxSelSt 1 cxSelToEmpty).doc.data.props.selectedIndex = 0 ∧
    firstSelectedIdx (flattenOptions cxSelNested.children) 0 = -1 ∧
    (0 : Int) ≠ -1 := by
  decide

/-- C6 amended: for a target select without the `multiple` attribute, the
handler recomputes the live select's `selectedIndex` as the index of the
first option carrying a `selected` attribute in the one-level optgroup
flattening of its current children (or -1), provided no optgroup nests
another optgroup; a target with `multiple` leaves the state untouched
(note the guard reads the target's attribute, so a childrenOnly pass on a
live multi-select whose target lacks `multiple` still recomputes).  The
claim's concrete scenario holds: live options `[A, B, C]` with
`selectedIndex = 1`, reconciled against `[A, B(selected), C, D]`, end with
`selectedIndex = 1`, the same three live option instances, and a newly
inserted D. -/
theorem C6_amended (st : St) (fromOid : Nat) (toEl fe : Node)
    (hres : resolve st fromOid = some fe)
    (hng : noNestedOptgroupsB fe.children = true) :
    (elHasAttribute toEl "multiple" = false →
      selectHandler st fromOid toEl =
        stSetProps st fromOid (fun pr =>
          { pr with selectedIndex := firstSelectedIdx (flattenOptions fe.children) 0 })) ∧
    (elHasAttribute toEl "multiple" = true → selectHandler st fromOid toEl = st) ∧
    ((morphdomF 40 cxSelFrom cxSelTo2 ⟨false⟩ false 999).map (fun r =>
        ((findOid r.1.doc 1).map (fun n => (n.data.props.selectedIndex,
          n.children.map Node.oid)))) =
      some (some (1, [2, 3, 4, 105])) ∧
     containsOid cxSelFrom 105 = false) := by
  refine ⟨?_, ?_, by decide, by decide⟩
  · intro hmul
    rw [selectHandler]
    rw [if_pos (by simp [hmul])]
    rw [hres]
    simp only []
    rw [selLoop_flatten fe.children 0 hng]
  · intro hmul
    rw [selectHandler]
    rw [if_neg (by simp [hmul])]

/-- C6 witness: the amended characterization applied to a concrete plain
select (options only, no optgroups). -/
theorem C6_witness :
    selectHandler cxSelStFrom 1 cxSelToEmpty =
      stSetProps cxSelStFrom 1 (fun pr =>
        { pr with selectedIndex := firstSelectedIdx (flattenOptions cxSelFrom.children) 0 }) :=
  (C6_amended cxSelStFrom 1 cxSelToEmpty cxSelFrom (by decide) (by decide)).1 (by decide)




/-! ### C2: attribute synchronization -/

/-! ### State plumbing for attribute updates -/
theorem findOid_oid : ∀ (t : Node) (x : Nat) (n : Node), findOid t x = some n → n.data.oid = x := by
  have H : ∀ (t : Node) (x : Nat) (n : Node), (findOid t x = some n → n.data.oid = x) := by
    intro t
    induction t using Node.rec
      (motive_2 := fun l => ∀ (x : Nat) (n : Node), findOidL l x = some n → n.data.oid = x) with
    | mk d cs ih =>
      intro x n h
      rw [findOid] at h
      by_cases hx : d.oid = x
      · simp only [hx, if_pos rfl] at h
        cases h; exact hx
      · rw [if_neg hx] at h
        exact ih x n h
    | nil =>
      rename_i x n h
      rw [findOidL] at h
      exact Option.noConfusion h
    | cons c cs ihc ihcs =>
      rename_i x n h
      rw [findOidL] at h
      cases hc : findOid c x with
      | some r => rw [hc] at h; cases h; exact ihc x _ hc
      | none => rw [hc] at h; exact ihcs x n h
  exact H

theorem findOid_updDataN (x : Nat) (f : NodeData → NodeData)
    (hf : ∀ d, (f d).oid = d.oid) (t : Node) :
    findOid (updDataN t x f) x = (findOid t x).map (fun n => updDataN n x f) := by
  induction t using Node.rec
    (motive_2 := fun l => findOidL (updDataNL l x f) x = (findOidL l x).map (fun n => updDataN n x f)) with
  | mk d cs ih =>
    by_cases hx : d.oid = x
    · rw [updDataN, if_pos hx, findOid, findOid]
      have h1 : (f d).oid = x := by rw [hf]; exact hx
      rw [if_pos h1, if_pos hx, Option.map_some', updDataN, if_pos hx]
    · rw [updDataN, if_neg hx, findOid, findOid, if_neg hx, if_neg hx]
      exact ih
  | nil => simp only [updDataNL, findOidL, Option.map_none']
  | cons c cs ihc ihcs =>
    simp only [updDataNL, findOidL, ihc]
    cases hc : findOid c x with
    | some r => rw [Option.map_some']
    | none => rw [Option.map_none']; exact ihcs

theorem findOidL_updDataNL (x : Nat) (f : NodeData → NodeData)
    (hf : ∀ d, (f d).oid = d.oid) (l : List Node) :
    findOidL (updDataNL l x f) x = (findOidL l x).map (fun n => updDataN n x f) := by
  induction l with
  | nil => simp only [updDataNL, findOidL, Option.map_none']
  | cons c cs ih =>
    simp only [updDataNL, findOidL, findOid_updDataN x f hf c]
    cases hc : findOid c x with
    | some r => rw [Option.map_some']
    | none => rw [Option.map_none']; exact ih

theorem resolve_updData (st : St) (x : Nat) (f : NodeData → NodeData)
    (hf : ∀ d, (f d).oid = d.oid) :
    resolve (updData st x f) x = (resolve st x).map (fun n => updDataN n x f) := by
  rw [resolve, resolve, updData]
  simp only [findOid_updDataN x f hf st.doc]
  cases hd : findOid st.doc x with
  | some n => rw [Option.map_some']
  | none => rw [Option.map_none']; exact findOidL_updDataNL x f hf st.limbo

theorem updDataN_data_of_oid (x : Nat) (f : NodeData → NodeData) (n : Node)
    (hn : n.data.oid = x) : (updDataN n x f).data = f n.data := by
  cases n with
  | mk d cs =>
    simp only [Node.data_mk] at hn ⊢
    rw [updDataN, if_pos hn, Node.data_mk]

theorem nodeOids_updDataN (x : Nat) (f : NodeData → NodeData)
    (hf : ∀ d, (f d).oid = d.oid) (t : Node) :
    nodeOids (updDataN t x f) = nodeOids t := by
  induction t using Node.rec
    (motive_2 := fun l => nodeListOids (updDataNL l x f) = nodeListOids l) with
  | mk d cs ih =>
    rw [updDataN, nodeOids, nodeOids, ih]
    by_cases hx : d.oid = x
    · rw [if_pos hx, hf]
    · rw [if_neg hx]
  | nil => rw [updDataNL]
  | cons c cs ihc ihcs => rw [updDataNL, nodeListOids, nodeListOids, ihc, ihcs]

theorem docContains_updData (st : St) (x y : Nat) (f : NodeData → NodeData)
    (hf : ∀ d, (f d).oid = d.oid) :
    docContains (updData st x f) y = docContains st y := by
  rw [docContains, docContains, updData, containsOid, containsOid,
    nodeOids_updDataN x f hf st.doc]

theorem findOidL_oid (l : List Node) (x : Nat) (n : Node)
    (h : findOidL l x = some n) : n.data.oid = x := by
  induction l with
  | nil => rw [findOidL] at h; exact Option.noConfusion h
  | cons c cs ih =>
    rw [findOidL] at h
    cases hc : findOid c x with
    | some r => rw [hc] at h; cases h; exact findOid_oid _ _ _ hc
    | none => rw [hc] at h; exact ih h

theorem resolve_oid (st : St) (x : Nat) (n : Node) (h : resolve st x = some n) :
    n.data.oid = x := by
  rw [resolve] at h
  cases hd : findOid st.doc x with
  | some m => rw [hd] at h; cases h; exact findOid_oid _ _ _ hd
  | none => rw [hd] at h; exact findOidL_oid _ _ _ h

/-- Resolving after a data update at the resolved node. -/
theorem resolve_updData_some (st : St) (x : Nat) (f : NodeData → NodeData)
    (hf : ∀ d, (f d).oid = d.oid) (n : Node) (hres : resolve st x = some n) :
    resolve (updData st x f) x = some (updDataN n x f) := by
  rw [resolve_updData st x f hf, hres, Option.map_some']

theorem resolve_updData_attrs (st : St) (x : Nat) (f : NodeData → NodeData)
    (hf : ∀ d, (f d).oid = d.oid) (n : Node) (hres : resolve st x = some n) :
    (resolve (updData st x f) x).map (fun m => m.data.attrs) = some ((f n.data).attrs) := by
  rw [resolve_updData_some st x f hf n hres, Option.map_some',
    updDataN_data_of_oid x f n (resolve_oid st x n hres)]

/-! ### Primitive attribute operations, characterized at the state level -/
theorem stEmit_resolve (st : St) (e : Ev) (x : Nat) :
    resolve (stEmit st e) x = resolve st x := rfl

theorem stEmit_docContains (st : St) (e : Ev) (x : Nat) :
    docContains (stEmit st e) x = docContains st x := rfl

theorem stSetAttribute_step (st : St) (x : Nat) (name v : String) (n : Node)
    (hres : resolve st x = some n) (hdoc : docContains st x = true) :
    (stSetAttribute st x name v).trace = st.trace ++ [.setAttr x none name v] ∧
    (resolve (stSetAttribute st x name v) x).map (fun m => m.data.attrs) =
      some (setAttrList n.data.attrs name v) ∧
    docContains (stSetAttribute st x name v) x = true := by
  rw [stSetAttribute]
  simp only [hdoc, if_pos]
  refine ⟨rfl, ?_, ?_⟩
  · rw [stEmit_resolve]
    exact resolve_updData_attrs st x (fun d => { d with attrs := setAttrList d.attrs name v }) (fun d => rfl) n hres
  · rw [stEmit_docContains, docContains_updData st x x (fun d => { d with attrs := setAttrList d.attrs name v }) (fun d => rfl)]
    exact hdoc

theorem stSetAttributeNS_step (st : St) (x : Nat) (nsv q v : String) (n : Node)
    (hres : resolve st x = some n) (hdoc : docContains st x = true) :
    (stSetAttributeNS st x nsv q v).trace = st.trace ++ [.setAttr x (some nsv) q v] ∧
    (resolve (stSetAttributeNS st x nsv q v) x).map (fun m => m.data.attrs) =
      some (setAttrNSList n.data.attrs nsv q v) ∧
    docContains (stSetAttributeNS st x nsv q v) x = true := by
  rw [stSetAttributeNS]
  simp only [hdoc, if_pos]
  refine ⟨rfl, ?_, ?_⟩
  · rw [stEmit_resolve]
    exact resolve_updData_attrs st x (fun d => { d with attrs := setAttrNSList d.attrs nsv q v }) (fun d => rfl) n hres
  · rw [stEmit_docContains, docContains_updData st x x (fun d => { d with attrs := setAttrNSList d.attrs nsv q v }) (fun d => rfl)]
    exact hdoc

theorem stRemoveAttribute_step_has (st : St) (x : Nat) (name : String) (n : Node)
    (hres : resolve st x = some n) (hdoc : docContains st x = true)
    (hhas : elHasAttribute n name = true) :
    (stRemoveAttribute st x name).trace = st.trace ++ [.removeAttr x none name] ∧
    (resolve (stRemoveAttribute st x name) x).map (fun m => m.data.attrs) =
      some (removeAttrList n.data.attrs name) ∧
    docContains (stRemoveAttribute st x name) x = true := by
  rw [stRemoveAttribute, hres]
  simp only [hhas, if_pos, hdoc]
  refine ⟨rfl, ?_, ?_⟩
  · rw [stEmit_resolve]
    exact resolve_updData_attrs st x (fun d => { d with attrs := removeAttrList d.attrs name }) (fun d => rfl) n hres
  · rw [stEmit_docContains, docContains_updData st x x (fun d => { d with attrs := removeAttrList d.attrs name }) (fun d => rfl)]
    exact hdoc

theorem stRemoveAttribute_step_absent (st : St) (x : Nat) (name : String) (n : Node)
    (hres : resolve st x = some n) (hhas : elHasAttribute n name = false) :
    stRemoveAttribute st x name = st := by
  rw [stRemoveAttribute, hres]
  simp only [hhas]
  rfl

theorem stRemoveAttributeNS_step_has (st : St) (x : Nat) (nsv localName : String) (n : Node)
    (hres : resolve st x = some n) (hdoc : docContains st x = true)
    (hhas : elHasAttributeNS n nsv localName = true) :
    (stRemoveAttributeNS st x nsv localName).trace = st.trace ++ [.removeAttr x (some nsv) localName] ∧
    (resolve (stRemoveAttributeNS st x nsv localName) x).map (fun m => m.data.attrs) =
      some (removeAttrNSList n.data.attrs nsv localName) ∧
    docContains (stRemoveAttributeNS st x nsv localName) x = true := by
  rw [stRemoveAttributeNS, hres]
  simp only [hhas, if_pos, hdoc]
  refine ⟨rfl, ?_, ?_⟩
  · rw [stEmit_resolve]
    exact resolve_updData_attrs st x (fun d => { d with attrs := removeAttrNSList d.attrs nsv localName }) (fun d => rfl) n hres
  · rw [stEmit_docContains, docContains_updData st x x (fun d => { d with attrs := removeAttrNSList d.attrs nsv localName }) (fun d => rfl)]
    exact hdoc

theorem stRemoveAttributeNS_step_absent (st : St) (x : Nat) (nsv localName : String) (n : Node)
    (hres : resolve st x = some n) (hhas : elHasAttributeNS n nsv localName = false) :
    stRemoveAttributeNS st x nsv localName = st := by
  rw [stRemoveAttributeNS, hres]
  simp only [hhas]
  rfl

/-! ### The two morphAttrs loops against their pure simulations -/
theorem morphAttrsSet_sim (x : Nat) :
    ∀ (l : List Attr) (st : St) (n : Node),
      resolve st x = some n → docContains st x = true →
      (morphAttrsSet st x l).trace = st.trace ++ (phase1Sim x n.data.attrs l).2 ∧
      (resolve (morphAttrsSet st x l) x).map (fun m => m.data.attrs) =
        some (phase1Sim x n.data.attrs l).1 ∧
      docContains (morphAttrsSet st x l) x = true := by
  intro l
  induction l with
  | nil =>
    intro st n hres hdoc
    rw [morphAttrsSet, phase1Sim]
    exact ⟨(List.append_nil _).symm, by rw [hres, Option.map_some'], hdoc⟩
  | cons a rest ih =>
    intro st n hres hdoc
    rw [morphAttrsSet, phase1Sim, phase1One]
    cases ha : a.ns with
    | some nsv =>
      simp only [hres, Option.some_bind, elGetAttributeNS]
      by_cases hcond :
          (attrFindByNS n.data.attrs nsv (if a.localName ≠ "" then a.localName else a.name)).map
            (fun a => a.value) ≠ some a.value
      · rw [if_pos hcond, if_pos hcond]
        obtain ⟨ht, hr, hd⟩ := stSetAttributeNS_step st x nsv
          (if a.pfx = some "xmlns" then a.name else
            if a.localName ≠ "" then a.localName else a.name) a.value n hres hdoc
        obtain ⟨n1, hn1, hn1a⟩ := Option.map_eq_some'.mp hr
        obtain ⟨ht2, hr2, hd2⟩ := ih _ n1 hn1 hd
        refine ⟨?_, ?_, hd2⟩
        · rw [ht2, ht, hn1a, List.append_assoc]
          rfl
        · rw [hr2, hn1a]
      · rw [if_neg hcond, if_neg hcond]
        obtain ⟨ht2, hr2, hd2⟩ := ih st n hres hdoc
        exact ⟨ht2, hr2, hd2⟩
    | none =>
      simp only [hres, Option.some_bind, elGetAttribute]
      by_cases hcond : (attrFindByName n.data.attrs a.name).map (fun a => a.value) ≠ some a.value
      · rw [if_pos hcond, if_pos hcond]
        obtain ⟨ht, hr, hd⟩ := stSetAttribute_step st x a.name a.value n hres hdoc
        obtain ⟨n1, hn1, hn1a⟩ := Option.map_eq_some'.mp hr
        obtain ⟨ht2, hr2, hd2⟩ := ih _ n1 hn1 hd
        refine ⟨?_, ?_, hd2⟩
        · rw [ht2, ht, hn1a, List.append_assoc]
          rfl
        · rw [hr2, hn1a]
      · rw [if_neg hcond, if_neg hcond]
        obtain ⟨ht2, hr2, hd2⟩ := ih st n hres hdoc
        exact ⟨ht2, hr2, hd2⟩

theorem morphAttrsRemove_sim (x : Nat) (toEl : Node) :
    ∀ (l : List Attr) (st : St) (n : Node),
      resolve st x = some n → docContains st x = true →
      (morphAttrsRemove st x toEl l).trace = st.trace ++ (phase2Sim x toEl n.data.attrs l).2 ∧
      (resolve (morphAttrsRemove st x toEl l) x).map (fun m => m.data.attrs) =
        some (phase2Sim x toEl n.data.attrs l).1 ∧
      docContains (morphAttrsRemove st x toEl l) x = true := by
  intro l
  induction l with
  | nil =>
    intro st n hres hdoc
    rw [morphAttrsRemove, phase2Sim]
    exact ⟨(List.append_nil _).symm, by rw [hres, Option.map_some'], hdoc⟩
  | cons a rest ih =>
    intro st n hres hdoc
    rw [morphAttrsRemove, phase2Sim, phase2One]
    cases ha : a.ns with
    | some nsv =>
      simp only []
      by_cases h1 : ¬ elHasAttributeNS toEl nsv (if a.localName ≠ "" then a.localName else a.name)
      · rw [if_pos h1, if_pos h1]
        cases h2 : elHasAttributeNS n nsv (if a.localName ≠ "" then a.localName else a.name) with
        | true =>
          have h2' : (attrFindByNS n.data.attrs nsv
              (if a.localName ≠ "" then a.localName else a.name)).isSome = true := h2
          rw [h2', if_pos rfl]
          obtain ⟨ht, hr, hd⟩ := stRemoveAttributeNS_step_has st x nsv
            (if a.localName ≠ "" then a.localName else a.name) n hres hdoc h2
          obtain ⟨n1, hn1, hn1a⟩ := Option.map_eq_some'.mp hr
          obtain ⟨ht2, hr2, hd2⟩ := ih _ n1 hn1 hd
          refine ⟨?_, ?_, hd2⟩
          · rw [ht2, ht, hn1a, List.append_assoc]
            rfl
          · rw [hr2, hn1a]
        | false =>
          have h2' : (attrFindByNS n.data.attrs nsv
              (if a.localName ≠ "" then a.localName else a.name)).isSome = false := h2
          rw [h2', stRemoveAttributeNS_step_absent st x nsv
            (if a.localName ≠ "" then a.localName else a.name) n hres h2]
          simp only [Bool.false_eq_true, if_false]
          exact ih st n hres hdoc
      · rw [if_neg h1, if_neg h1]
        exact ih st n hres hdoc
    | none =>
      simp only []
      by_cases h1 : ¬ elHasAttribute toEl a.name
      · rw [if_pos h1, if_pos h1]
        cases h2 : elHasAttribute n a.name with
        | true =>
          have h2' : (attrFindByName n.data.attrs a.name).isSome = true := h2
          rw [h2', if_pos rfl]
          obtain ⟨ht, hr, hd⟩ := stRemoveAttribute_step_has st x a.name n hres hdoc h2
          obtain ⟨n1, hn1, hn1a⟩ := Option.map_eq_some'.mp hr
          obtain ⟨ht2, hr2, hd2⟩ := ih _ n1 hn1 hd
          refine ⟨?_, ?_, hd2⟩
          · rw [ht2, ht, hn1a, List.append_assoc]
            rfl
          · rw [hr2, hn1a]
        | false =>
          have h2' : (attrFindByName n.data.attrs a.name).isSome = false := h2
          rw [h2', stRemoveAttribute_step_absent st x a.name n hres h2]
          simp only [Bool.false_eq_true, if_false]
          exact ih st n hres hdoc
      · rw [if_neg h1, if_neg h1]
        exact ih st n hres hdoc

/-! ### List-level stability of the attribute accessors -/
theorem attrFindByName_setAttrList_ne (n v m : String) (h : m ≠ n) :
    ∀ cur : List Attr, attrFindByName (setAttrList cur n v) m = attrFindByName cur m := by
  intro cur
  induction cur with
  | nil =>
    rw [setAttrList]
    simp only [attrFindByName, List.find?_cons, List.find?_nil]
    have : ((⟨n, n, none, none, v⟩ : Attr).name == m) = false := by
      simp only [beq_eq_false_iff_ne]
      exact fun hh => h hh.symm
    rw [this]
  | cons a as ih =>
    rw [setAttrList]
    by_cases han : a.name = n
    · rw [if_pos han]
      simp only [attrFindByName, List.find?_cons]
      have h1 : (({ a with value := v } : Attr).name == m) = (a.name == m) := rfl
      rw [h1]
      cases hm : (a.name == m) with
      | true =>
        have hm' : a.name = m := by simpa using hm
        exact absurd (hm'.symm.trans han) h
      | false => rfl
    · rw [if_neg han]
      simp only [attrFindByName, List.find?_cons]
      cases hm : (a.name == m) with
      | true => rfl
      | false => exact ih

theorem attrFindByNS_setAttrList (n v nsv l2 : String) :
    ∀ cur : List Attr, (∀ c ∈ cur, c.ns ≠ none → c.name ≠ n) →
      attrFindByNS (setAttrList cur n v) nsv l2 = attrFindByNS cur nsv l2 := by
  intro cur
  induction cur with
  | nil =>
    intro _
    rw [setAttrList]
    simp only [attrFindByNS, List.find?_cons, List.find?_nil]
    rfl
  | cons a as ih =>
    intro hns
    rw [setAttrList]
    by_cases han : a.name = n
    · rw [if_pos han]
      simp only [attrFindByNS, List.find?_cons]
      have h1 : (({ a with value := v } : Attr).ns == some nsv &&
          ({ a with value := v } : Attr).localName == l2) = (a.ns == some nsv && a.localName == l2) := rfl
      rw [h1]
      cases hp : (a.ns == some nsv && a.localName == l2) with
      | true =>
        have hns' : a.ns = some nsv ∧ a.localName = l2 := by
          simpa [Bool.and_eq_true] using hp
        exact absurd han (hns a (List.mem_cons_self a as) (by rw [hns'.1]; exact Option.noConfusion))
      | false => rfl
    · rw [if_neg han]
      simp only [attrFindByNS, List.find?_cons]
      cases hp : (a.ns == some nsv && a.localName == l2) with
      | true => rfl
      | false => exact ih (fun c hc => hns c (List.mem_cons_of_mem a hc))

theorem attrFindByNS_setAttrNSGo (nsv' q v : String) (pl : Option String × String)
    (nsv l2 : String) (hid : ¬(nsv' = nsv ∧ pl.2 = l2)) :
    ∀ cur : List Attr,
      attrFindByNS (setAttrNSGo nsv' q v pl cur) nsv l2 = attrFindByNS cur nsv l2 := by
  intro cur
  induction cur with
  | nil =>
    rw [setAttrNSGo]
    simp only [attrFindByNS, List.find?_cons, List.find?_nil]
    have : ((⟨q, pl.2, pl.1, some nsv', v⟩ : Attr).ns == some nsv &&
        (⟨q, pl.2, pl.1, some nsv', v⟩ : Attr).localName == l2) = false := by
      cases hp : ((⟨q, pl.2, pl.1, some nsv', v⟩ : Attr).ns == some nsv &&
          (⟨q, pl.2, pl.1, some nsv', v⟩ : Attr).localName == l2) with
      | true =>
        have h2 : nsv' = nsv ∧ pl.2 = l2 := by simpa [Bool.and_eq_true] using hp
        exact absurd h2 hid
      | false => rfl
    rw [this]
  | cons a as ih =>
    rw [setAttrNSGo]
    by_cases hpa : a.ns = some nsv' ∧ a.localName = pl.2
    · rw [if_pos hpa]
      simp only [attrFindByNS, List.find?_cons]
      have h1 : (({ a with value := v } : Attr).ns == some nsv &&
          ({ a with value := v } : Attr).localName == l2) = (a.ns == some nsv && a.localName == l2) := rfl
      rw [h1]
      cases hp : (a.ns == some nsv && a.localName == l2) with
      | true =>
        have hp' : a.ns = some nsv ∧ a.localName = l2 := by
          simpa [Bool.and_eq_true] using hp
        exact absurd ⟨Option.some.inj (hpa.1 ▸ hp'.1), hpa.2 ▸ hp'.2⟩ hid
      | false => rfl
    · rw [if_neg hpa]
      simp only [attrFindByNS, List.find?_cons]
      cases hp : (a.ns == some nsv && a.localName == l2) with
      | true => rfl
      | false => exact ih

theorem attrFindByName_setAttrNSGo (nsv' q v : String) (pl : Option String × String)
    (m : String) (hq : m ≠ q) :
    ∀ cur : List Attr, (∀ c ∈ cur, c.ns = some nsv' ∧ c.localName = pl.2 → c.name ≠ m) →
      attrFindByName (setAttrNSGo nsv' q v pl cur) m = attrFindByName cur m := by
  intro cur
  induction cur with
  | nil =>
    intro _
    rw [setAttrNSGo]
    simp only [attrFindByName, List.find?_cons, List.find?_nil]
    have : ((⟨q, pl.2, pl.1, some nsv', v⟩ : Attr).name == m) = false := by
      simp only [beq_eq_false_iff_ne]
      exact fun hh => hq hh.symm
    rw [this]
  | cons a as ih =>
    intro hcur
    rw [setAttrNSGo]
    by_cases hpa : a.ns = some nsv' ∧ a.localName = pl.2
    · rw [if_pos hpa]
      simp only [attrFindByName, List.find?_cons]
      have h1 : (({ a with value := v } : Attr).name == m) = (a.name == m) := rfl
      rw [h1]
      cases hp : (a.name == m) with
      | true =>
        have hp' : a.name = m := by simpa using hp
        exact absurd hp' (hcur a (List.mem_cons_self a as) hpa)
      | false => rfl
    · rw [if_neg hpa]
      simp only [attrFindByName, List.find?_cons]
      cases hp : (a.name == m) with
      | true => rfl
      | false => exact ih (fun c hc => hcur c (List.mem_cons_of_mem a hc))

theorem attrFindByName_removeAttrList (n m : String) (h : m ≠ n) :
    ∀ cur : List Attr, attrFindByName (removeAttrList cur n) m = attrFindByName cur m := by
  intro cur
  induction cur with
  | nil => rw [removeAttrList]
  | cons a as ih =>
    rw [removeAttrList]
    by_cases han : a.name = n
    · rw [if_pos han]
      simp only [attrFindByName, List.find?_cons]
      have : (a.name == m) = false := by
        simp only [beq_eq_false_iff_ne]
        exact fun hh => h ((hh.symm.trans han).symm ▸ rfl)
      rw [this]
    · rw [if_neg han]
      simp only [attrFindByName, List.find?_cons]
      cases hm : (a.name == m) with
      | true => rfl
      | false => exact ih

theorem attrFindByNS_removeAttrList (n nsv l2 : String) :
    ∀ cur : List Attr, (∀ c ∈ cur, c.ns ≠ none → c.name ≠ n) →
      attrFindByNS (removeAttrList cur n) nsv l2 = attrFindByNS cur nsv l2 := by
  intro cur
  induction cur with
  | nil => intro _; rw [removeAttrList]
  | cons a as ih =>
    intro hns
    rw [removeAttrList]
    by_cases han : a.name = n
    · rw [if_pos han]
      simp only [attrFindByNS, List.find?_cons]
      cases hp : (a.ns == some nsv && a.localName == l2) with
      | true =>
        have hp' : a.ns = some nsv ∧ a.localName = l2 := by
          simpa [Bool.and_eq_true] using hp
        exact absurd han (hns a (List.mem_cons_self a as) (by rw [hp'.1]; exact Option.noConfusion))
      | false => rfl
    · rw [if_neg han]
      simp only [attrFindByNS, List.find?_cons]
      cases hp : (a.ns == some nsv && a.localName == l2) with
      | true => rfl
      | false => exact ih (fun c hc => hns c (List.mem_cons_of_mem a hc))

theorem attrFindByNS_removeAttrNSList (nsv' l'' nsv l2 : String)
    (hid : ¬(nsv' = nsv ∧ l'' = l2)) :
    ∀ cur : List Attr,
      attrFindByNS (removeAttrNSList cur nsv' l'') nsv l2 = attrFindByNS cur nsv l2 := by
  intro cur
  induction cur with
  | nil => rw [removeAttrNSList]
  | cons a as ih =>
    rw [removeAttrNSList]
    by_cases hpa : a.ns = some nsv' ∧ a.localName = l''
    · rw [if_pos hpa]
      simp only [attrFindByNS, List.find?_cons]
      cases hp : (a.ns == some nsv && a.localName == l2) with
      | true =>
        have hp' : a.ns = some nsv ∧ a.localName = l2 := by
          simpa [Bool.and_eq_true] using hp
        have h2 : nsv' = nsv := Option.some.inj ((hpa.1.symm.trans hp'.1))
        exact absurd ⟨h2, hpa.2.symm.trans hp'.2⟩ hid
      | false => rfl
    · rw [if_neg hpa]
      simp only [attrFindByNS, List.find?_cons]
      cases hp : (a.ns == some nsv && a.localName == l2) with
      | true => rfl
      | false => exact ih

theorem attrFindByName_removeAttrNSList (nsv' l'' m : String) :
    ∀ cur : List Attr, (∀ c ∈ cur, c.ns = some nsv' ∧ c.localName = l'' → c.name ≠ m) →
      attrFindByName (removeAttrNSList cur nsv' l'') m = attrFindByName cur m := by
  intro cur
  induction cur with
  | nil => intro _; rw [removeAttrNSList]
  | cons a as ih =>
    intro hcur
    rw [removeAttrNSList]
    by_cases hpa : a.ns = some nsv' ∧ a.localName = l''
    · rw [if_pos hpa]
      simp only [attrFindByName, List.find?_cons]
      have : (a.name == m) = false := by
        simp only [beq_eq_false_iff_ne]
        exact hcur a (List.mem_cons_self a as) hpa
      rw [this]
    · rw [if_neg hpa]
      simp only [attrFindByName, List.find?_cons]
      cases hm : (a.name == m) with
      | true => rfl
      | false => exact ih (fun c hc => hcur c (List.mem_cons_of_mem a hc))

theorem skelEq_refl (b : Attr) : skelEq b b := ⟨rfl, rfl, rfl, rfl⟩

theorem skelEq_value (a : Attr) (v : String) : skelEq { a with value := v } a :=
  ⟨rfl, rfl, rfl, rfl⟩

theorem mem_setAttrList (n v : String) :
    ∀ cur : List Attr, ∀ b ∈ setAttrList cur n v,
      (∃ b0 ∈ cur, skelEq b b0) ∨ b = ⟨n, n, none, none, v⟩ := by
  intro cur
  induction cur with
  | nil =>
    intro b hb
    rw [setAttrList] at hb
    rcases List.mem_singleton.mp hb with rfl
    exact Or.inr rfl
  | cons a as ih =>
    intro b hb
    rw [setAttrList] at hb
    by_cases han : a.name = n
    · rw [if_pos han] at hb
      rcases List.mem_cons.mp hb with rfl | hb'
      · exact Or.inl ⟨a, List.mem_cons_self a as, skelEq_value a v⟩
      · exact Or.inl ⟨b, List.mem_cons_of_mem a hb', skelEq_refl b⟩
    · rw [if_neg han] at hb
      rcases List.mem_cons.mp hb with rfl | hb'
      · exact Or.inl ⟨b, List.mem_cons_self b as, skelEq_refl b⟩
      · rcases ih b hb' with ⟨b0, hb0, hsk⟩ | rfl
        · exact Or.inl ⟨b0, List.mem_cons_of_mem a hb0, hsk⟩
        · exact Or.inr rfl

theorem mem_setAttrNSGo (nsv q v : String) (pl : Option String × String) :
    ∀ cur : List Attr, ∀ b ∈ setAttrNSGo nsv q v pl cur,
      (∃ b0 ∈ cur, skelEq b b0) ∨ b = ⟨q, pl.2, pl.1, some nsv, v⟩ := by
  intro cur
  induction cur with
  | nil =>
    intro b hb
    rw [setAttrNSGo] at hb
    rcases List.mem_singleton.mp hb with rfl
    exact Or.inr rfl
  | cons a as ih =>
    intro b hb
    rw [setAttrNSGo] at hb
    by_cases hpa : a.ns = some nsv ∧ a.localName = pl.2
    · rw [if_pos hpa] at hb
      rcases List.mem_cons.mp hb with rfl | hb'
      · exact Or.inl ⟨a, List.mem_cons_self a as, skelEq_value a v⟩
      · exact Or.inl ⟨b, List.mem_cons_of_mem a hb', skelEq_refl b⟩
    · rw [if_neg hpa] at hb
      rcases List.mem_cons.mp hb with rfl | hb'
      · exact Or.inl ⟨b, List.mem_cons_self b as, skelEq_refl b⟩
      · rcases ih b hb' with ⟨b0, hb0, hsk⟩ | rfl
        · exact Or.inl ⟨b0, List.mem_cons_of_mem a hb0, hsk⟩
        · exact Or.inr rfl

theorem mem_removeAttrList (n : String) :
    ∀ cur : List Attr, ∀ b ∈ removeAttrList cur n, b ∈ cur := by
  intro cur
  induction cur with
  | nil => intro b hb; rw [removeAttrList] at hb; exact hb
  | cons a as ih =>
    intro b hb
    rw [removeAttrList] at hb
    by_cases han : a.name = n
    · rw [if_pos han] at hb
      exact List.mem_cons_of_mem a hb
    · rw [if_neg han] at hb
      rcases List.mem_cons.mp hb with rfl | hb'
      · exact List.mem_cons_self b as
      · exact List.mem_cons_of_mem a (ih b hb')

theorem mem_removeAttrNSList (nsv l'' : String) :
    ∀ cur : List Attr, ∀ b ∈ removeAttrNSList cur nsv l'', b ∈ cur := by
  intro cur
  induction cur with
  | nil => intro b hb; rw [removeAttrNSList] at hb; exact hb
  | cons a as ih =>
    intro b hb
    rw [removeAttrNSList] at hb
    by_cases hpa : a.ns = some nsv ∧ a.localName = l''
    · rw [if_pos hpa] at hb
      exact List.mem_cons_of_mem a hb
    · rw [if_neg hpa] at hb
      rcases List.mem_cons.mp hb with rfl | hb'
      · exact List.mem_cons_self b as
      · exact List.mem_cons_of_mem a (ih b hb')

theorem attrId_skelEq {b b0 : Attr} (h : skelEq b b0) : attrId b = attrId b0 := by
  rcases h with ⟨hn, hl, _, hns⟩
  rw [attrId, attrId, hns, hn, hl]

theorem attrId_value (a : Attr) (v : String) : attrId { a with value := v } = attrId a := rfl

theorem nodup_append_singleton {α : Type} (l : List α) (x : α)
    (h : l.Nodup) (hx : x ∉ l) : (l ++ [x]).Nodup := by
  induction l with
  | nil => exact List.nodup_singleton x
  | cons a as ih =>
    rw [List.cons_append]
    refine List.Nodup.cons ?_ (ih (List.Nodup.of_cons h) (fun hm => hx (List.mem_cons_of_mem a hm)))
    intro hmem
    rcases List.mem_append.mp hmem with h1 | h2
    · exact (List.nodup_cons.mp h).1 h1
    · rcases List.mem_singleton.mp h2 with rfl
      exact hx (List.mem_cons_self a as)

theorem ids_setAttrList_found (n v : String) :
    ∀ cur : List Attr, (attrFindByName cur n).isSome = true →
      (setAttrList cur n v).map attrId = cur.map attrId := by
  intro cur
  induction cur with
  | nil => intro h; exact absurd h (by rw [attrFindByName, List.find?_nil]; exact Bool.noConfusion)
  | cons a as ih =>
    intro h
    rw [setAttrList]
    by_cases han : a.name = n
    · rw [if_pos han, List.map_cons, List.map_cons, attrId_value]
    · rw [if_neg han, List.map_cons, List.map_cons, ih]
      rw [attrFindByName, List.find?_cons] at h
      have hpa : (a.name == n) = false := by
        simp only [beq_eq_false_iff_ne]; exact han
      rw [hpa] at h
      exact h

theorem ids_setAttrList_none (n v : String) :
    ∀ cur : List Attr, attrFindByName cur n = none →
      (setAttrList cur n v).map attrId = cur.map attrId ++ [(none, n)] := by
  intro cur
  induction cur with
  | nil => intro _; rfl
  | cons a as ih =>
    intro h
    rw [attrFindByName, List.find?_cons] at h
    cases hpa : (a.name == n) with
    | true => rw [hpa] at h; exact Option.noConfusion h
    | false =>
      rw [hpa] at h
      have han : ¬ a.name = n := by simpa using hpa
      rw [setAttrList, if_neg han, List.map_cons, List.map_cons, ih h, List.cons_append]

theorem ids_setAttrNSGo_found (nsv q v : String) (pl : Option String × String) :
    ∀ cur : List Attr, (attrFindByNS cur nsv pl.2).isSome = true →
      (setAttrNSGo nsv q v pl cur).map attrId = cur.map attrId := by
  intro cur
  induction cur with
  | nil => intro h; exact absurd h (by rw [attrFindByNS, List.find?_nil]; exact Bool.noConfusion)
  | cons a as ih =>
    intro h
    rw [setAttrNSGo]
    by_cases hpa : a.ns = some nsv ∧ a.localName = pl.2
    · rw [if_pos hpa, List.map_cons, List.map_cons, attrId_value]
    · rw [if_neg hpa, List.map_cons, List.map_cons, ih]
      rw [attrFindByNS, List.find?_cons] at h
      have hb : (a.ns == some nsv && a.localName == pl.2) = false := by
        cases hb2 : (a.ns == some nsv && a.localName == pl.2) with
        | true =>
          have : a.ns = some nsv ∧ a.localName = pl.2 := by
            simpa [Bool.and_eq_true] using hb2
          exact absurd this hpa
        | false => rfl
      rw [hb] at h
      exact h

theorem ids_setAttrNSGo_none (nsv q v : String) (pl : Option String × String) :
    ∀ cur : List Attr, attrFindByNS cur nsv pl.2 = none →
      (setAttrNSGo nsv q v pl cur).map attrId = cur.map attrId ++ [(some nsv, pl.2)] := by
  intro cur
  induction cur with
  | nil => intro _; rfl
  | cons a as ih =>
    intro h
    rw [attrFindByNS, List.find?_cons] at h
    cases hb : (a.ns == some nsv && a.localName == pl.2) with
    | true => rw [hb] at h; exact Option.noConfusion h
    | false =>
      rw [hb] at h
      have hpa : ¬ (a.ns = some nsv ∧ a.localName = pl.2) := by
        intro hc
        have : (a.ns == some nsv && a.localName == pl.2) = true := by
          simp [Bool.and_eq_true, hc.1, hc.2]
        rw [this] at hb
        exact Bool.noConfusion hb
      rw [setAttrNSGo, if_neg hpa, List.map_cons, List.map_cons, ih h, List.cons_append]

theorem id_not_mem_of_find_name_none (n : String) (cur : List Attr)
    (h : attrFindByName cur n = none) : (none, n) ∉ cur.map attrId := by
  intro hmem
  obtain ⟨a, ha, haid⟩ := List.mem_map.mp hmem
  cases has : a.ns with
  | some s => rw [attrId, has] at haid; exact Option.noConfusion (Prod.mk.injEq _ _ _ _ ▸ haid).1
  | none =>
    rw [attrId, has] at haid
    have hn : a.name = n := (Prod.mk.injEq _ _ _ _ ▸ haid).2
    have := List.find?_eq_none.mp h a ha
    exact this (by simpa using hn)

theorem id_not_mem_of_find_ns_none (nsv l2 : String) (cur : List Attr)
    (h : attrFindByNS cur nsv l2 = none) : (some nsv, l2) ∉ cur.map attrId := by
  intro hmem
  obtain ⟨a, ha, haid⟩ := List.mem_map.mp hmem
  cases has : a.ns with
  | none => rw [attrId, has] at haid; exact Option.noConfusion (Prod.mk.injEq _ _ _ _ ▸ haid).1
  | some s =>
    rw [attrId, has] at haid
    have h1 : s = nsv := Option.some.inj (Prod.mk.injEq _ _ _ _ ▸ haid).1
    have h2 : a.localName = l2 := (Prod.mk.injEq _ _ _ _ ▸ haid).2
    have := List.find?_eq_none.mp h a ha
    exact this (by simp [Bool.and_eq_true, has, h1, h2])

/-! ### The removal-event view is blind to phase-1 writes -/
theorem removeEventFor_skelEq (fromOid : Nat) (toEl : Node) {b b0 : Attr}
    (h : skelEq b b0) : removeEventFor fromOid toEl b = removeEventFor fromOid toEl b0 := by
  rcases h with ⟨hn, hl, _, hns⟩
  rw [removeEventFor, removeEventFor, hns, hn, hl]

theorem filterMap_removeEventFor_setAttrList (fromOid : Nat) (toEl : Node) (n v : String)
    (hnew : removeEventFor fromOid toEl ⟨n, n, none, none, v⟩ = none) :
    ∀ cur : List Attr,
      (setAttrList cur n v).reverse.filterMap (removeEventFor fromOid toEl) =
        cur.reverse.filterMap (removeEventFor fromOid toEl) := by
  intro cur
  induction cur with
  | nil =>
    rw [setAttrList]
    simp only [List.reverse_cons, List.reverse_nil, List.nil_append, List.filterMap_cons,
      List.filterMap_nil, hnew]
  | cons a as ih =>
    rw [setAttrList]
    by_cases han : a.name = n
    · rw [if_pos han]
      rw [List.reverse_cons, List.reverse_cons, List.filterMap_append, List.filterMap_append]
      rw [List.filterMap_cons, List.filterMap_cons,
        removeEventFor_skelEq fromOid toEl (skelEq_value a v)]
    · rw [if_neg han]
      rw [List.reverse_cons, List.reverse_cons, List.filterMap_append, List.filterMap_append, ih]

theorem filterMap_removeEventFor_setAttrNSGo (fromOid : Nat) (toEl : Node)
    (nsv q v : String) (pl : Option String × String)
    (hnew : removeEventFor fromOid toEl ⟨q, pl.2, pl.1, some nsv, v⟩ = none) :
    ∀ cur : List Attr,
      (setAttrNSGo nsv q v pl cur).reverse.filterMap (removeEventFor fromOid toEl) =
        cur.reverse.filterMap (removeEventFor fromOid toEl) := by
  intro cur
  induction cur with
  | nil =>
    rw [setAttrNSGo]
    simp only [List.reverse_cons, List.reverse_nil, List.nil_append, List.filterMap_cons,
      List.filterMap_nil, hnew]
  | cons a as ih =>
    rw [setAttrNSGo]
    by_cases hpa : a.ns = some nsv ∧ a.localName = pl.2
    · rw [if_pos hpa]
      rw [List.reverse_cons, List.reverse_cons, List.filterMap_append, List.filterMap_append]
      rw [List.filterMap_cons, List.filterMap_cons,
        removeEventFor_skelEq fromOid toEl (skelEq_value a v)]
    · rw [if_neg hpa]
      rw [List.reverse_cons, List.reverse_cons, List.filterMap_append, List.filterMap_append, ih]

theorem isSome_attrFindByNS_of_mem (l : List Attr) (a : Attr) (nsv : String)
    (ha : a ∈ l) (hns : a.ns = some nsv) :
    (attrFindByNS l nsv a.localName).isSome = true := by
  rw [attrFindByNS]
  cases hf : l.find? (fun b => b.ns == some nsv && b.localName == a.localName) with
  | some r => rfl
  | none =>
    exact absurd (by simp [Bool.and_eq_true, hns] : (a.ns == some nsv && a.localName == a.localName) = true)
      (List.find?_eq_none.mp hf a ha)

theorem isSome_attrFindByName_of_mem (l : List Attr) (a : Attr)
    (ha : a ∈ l) : (attrFindByName l a.name).isSome = true := by
  rw [attrFindByName]
  cases hf : l.find? (fun b => b.name == a.name) with
  | some r => rfl
  | none =>
    exact absurd (by simp : (a.name == a.name) = true) (List.find?_eq_none.mp hf a ha)

/-! ### Invariant transfer across one phase-1 write -/
theorem setAttrNSGo_inv (S : List Attr) (a : Attr) (nsv setName : String)
    (p' : Option String) (v : String) (cur cur1 : List Attr)
    (hc1 : cur1 = setAttrNSGo nsv setName v (p', a.localName) cur)
    (haS : a ∈ S) (hans : a.ns = some nsv) (hlne : a.localName ≠ "")
    (hsn : setName = a.name ∨ setName = a.localName)
    (hW1 : ∀ b ∈ cur, b.ns = none → ∀ c ∈ S, c.ns ≠ none → b.name ≠ c.name ∧ b.name ≠ c.localName)
    (hW2 : ∀ b ∈ cur, b.ns ≠ none → ∃ c, c ∈ S ∧ c.ns ≠ none ∧ (b.name = c.name ∨ b.name = c.localName))
    (hW3 : ∀ b ∈ cur, b.ns ≠ none → b.localName ≠ "")
    (hnd : (cur.map attrId).Nodup) :
    (∀ b ∈ cur1, b.ns = none → ∀ c ∈ S, c.ns ≠ none → b.name ≠ c.name ∧ b.name ≠ c.localName) ∧
    (∀ b ∈ cur1, b.ns ≠ none → ∃ c, c ∈ S ∧ c.ns ≠ none ∧ (b.name = c.name ∨ b.name = c.localName)) ∧
    (∀ b ∈ cur1, b.ns ≠ none → b.localName ≠ "") ∧
    ((cur1.map attrId)).Nodup := by
  subst hc1
  have hansnn : a.ns ≠ none := by rw [hans]; exact fun h => Option.noConfusion h
  refine ⟨?_, ?_, ?_, ?_⟩
  · intro b hb hbn
    rcases mem_setAttrNSGo nsv setName v (p', a.localName) cur b hb with ⟨b0, hb0, hsk⟩ | rfl
    · intro c hc hcn
      rw [hsk.1]
      exact hW1 b0 hb0 (hsk.2.2.2 ▸ hbn) c hc hcn
    · exact absurd hbn (by exact fun h => Option.noConfusion h)
  · intro b hb hbn
    rcases mem_setAttrNSGo nsv setName v (p', a.localName) cur b hb with ⟨b0, hb0, hsk⟩ | rfl
    · obtain ⟨c, hc, hcn, hor⟩ := hW2 b0 hb0 (hsk.2.2.2 ▸ hbn)
      exact ⟨c, hc, hcn, hsk.1 ▸ hor⟩
    · exact ⟨a, haS, hansnn, hsn⟩
  · intro b hb hbn
    rcases mem_setAttrNSGo nsv setName v (p', a.localName) cur b hb with ⟨b0, hb0, hsk⟩ | rfl
    · rw [hsk.2.1]
      exact hW3 b0 hb0 (hsk.2.2.2 ▸ hbn)
    · exact hlne
  · cases hf : (attrFindByNS cur nsv a.localName).isSome with
    | true =>
      rw [ids_setAttrNSGo_found nsv setName v (p', a.localName) cur hf]
      exact hnd
    | false =>
      have hf' : attrFindByNS cur nsv a.localName = none := by
        cases hf2 : attrFindByNS cur nsv a.localName with
        | none => rfl
        | some r => rw [hf2] at hf; exact Bool.noConfusion hf
      rw [ids_setAttrNSGo_none nsv setName v (p', a.localName) cur hf']
      exact nodup_append_singleton _ _ hnd (id_not_mem_of_find_ns_none nsv a.localName cur hf')

theorem setAttrList_inv (S : List Attr) (a : Attr) (v : String) (cur cur1 : List Attr)
    (hc1 : cur1 = setAttrList cur a.name v)
    (haS : a ∈ S) (hans : a.ns = none)
    (hcross : ∀ x ∈ S, ∀ y ∈ S, x.ns = none → y.ns ≠ none → x.name ≠ y.name ∧ x.name ≠ y.localName)
    (hW1 : ∀ b ∈ cur, b.ns = none → ∀ c ∈ S, c.ns ≠ none → b.name ≠ c.name ∧ b.name ≠ c.localName)
    (hW2 : ∀ b ∈ cur, b.ns ≠ none → ∃ c, c ∈ S ∧ c.ns ≠ none ∧ (b.name = c.name ∨ b.name = c.localName))
    (hW3 : ∀ b ∈ cur, b.ns ≠ none → b.localName ≠ "")
    (hnd : (cur.map attrId).Nodup) :
    (∀ b ∈ cur1, b.ns = none → ∀ c ∈ S, c.ns ≠ none → b.name ≠ c.name ∧ b.name ≠ c.localName) ∧
    (∀ b ∈ cur1, b.ns ≠ none → ∃ c, c ∈ S ∧ c.ns ≠ none ∧ (b.name = c.name ∨ b.name = c.localName)) ∧
    (∀ b ∈ cur1, b.ns ≠ none → b.localName ≠ "") ∧
    ((cur1.map attrId)).Nodup := by
  subst hc1
  refine ⟨?_, ?_, ?_, ?_⟩
  · intro b hb hbn
    rcases mem_setAttrList a.name v cur b hb with ⟨b0, hb0, hsk⟩ | rfl
    · intro c hc hcn
      rw [hsk.1]
      exact hW1 b0 hb0 (hsk.2.2.2 ▸ hbn) c hc hcn
    · intro c hc hcn
      exact hcross a haS c hc hans hcn
  · intro b hb hbn
    rcases mem_setAttrList a.name v cur b hb with ⟨b0, hb0, hsk⟩ | rfl
    · obtain ⟨c, hc, hcn, hor⟩ := hW2 b0 hb0 (hsk.2.2.2 ▸ hbn)
      exact ⟨c, hc, hcn, hsk.1 ▸ hor⟩
    · exact absurd rfl hbn
  · intro b hb hbn
    rcases mem_setAttrList a.name v cur b hb with ⟨b0, hb0, hsk⟩ | rfl
    · rw [hsk.2.1]
      exact hW3 b0 hb0 (hsk.2.2.2 ▸ hbn)
    · exact absurd rfl hbn
  · cases hf : (attrFindByName cur a.name).isSome with
    | true =>
      rw [ids_setAttrList_found a.name v cur hf]
      exact hnd
    | false =>
      have hf' : attrFindByName cur a.name = none := by
        cases hf2 : attrFindByName cur a.name with
        | none => rfl
        | some r => rw [hf2] at hf; exact Bool.noConfusion hf
      rw [ids_setAttrList_none a.name v cur hf']
      exact nodup_append_singleton _ _ hnd (id_not_mem_of_find_name_none a.name cur hf')

/-! ### Reads at other identities are unaffected by a phase-1 write -/
theorem getAt_setAttrNSGo_other (S : List Attr) (a b : Attr) (nsv setName : String)
    (p' : Option String) (v : String) (cur : List Attr)
    (haS : a ∈ S) (hbS : b ∈ S) (hans : a.ns = some nsv)
    (hblne : b.ns ≠ none → b.localName ≠ "")
    (hsn : setName = a.name ∨ setName = a.localName)
    (hids : attrId b ≠ attrId a)
    (hcross : ∀ x ∈ S, ∀ y ∈ S, x.ns = none → y.ns ≠ none → x.name ≠ y.name ∧ x.name ≠ y.localName)
    (hW2 : ∀ c ∈ cur, c.ns ≠ none → ∃ c', c' ∈ S ∧ c'.ns ≠ none ∧ (c.name = c'.name ∨ c.name = c'.localName)) :
    getAt (setAttrNSGo nsv setName v (p', a.localName) cur) b = getAt cur b := by
  have hansnn : a.ns ≠ none := by rw [hans]; exact fun h => Option.noConfusion h
  cases hbn : b.ns with
  | some nsb =>
    have hbl : b.localName ≠ "" := hblne (by rw [hbn]; exact fun h => Option.noConfusion h)
    have hid : ¬(nsv = nsb ∧ (p', a.localName).2 = anOf b) := by
      rintro ⟨h1, h2⟩
      apply hids
      have h2' : a.localName = b.localName := by
        have : anOf b = b.localName := by rw [anOf, if_pos hbl]
        exact h2.trans this
      rw [attrId, attrId, hbn, hans]
      simp only []
      rw [h1, h2']
    rw [getAt, getAt, hbn]
    simp only []
    rw [attrFindByNS_setAttrNSGo nsv setName v (p', a.localName) nsb (anOf b) hid cur]
  | none =>
    have hq : b.name ≠ setName := by
      have hba := hcross b hbS a haS hbn hansnn
      rcases hsn with rfl | rfl
      · exact hba.1
      · exact hba.2
    have hcur : ∀ c ∈ cur, c.ns = some nsv ∧ c.localName = (p', a.localName).2 → c.name ≠ b.name := by
      intro c hc hcp
      obtain ⟨c', hc', hc'n, hor⟩ := hW2 c hc (by rw [hcp.1]; exact fun h => Option.noConfusion h)
      have hbc' := hcross b hbS c' hc' hbn hc'n
      rcases hor with h | h
      · rw [h]; exact fun hh => hbc'.1 hh.symm
      · rw [h]; exact fun hh => hbc'.2 hh.symm
    rw [getAt, getAt, hbn]
    simp only []
    rw [attrFindByName_setAttrNSGo nsv setName v (p', a.localName) b.name hq cur hcur]

theorem getAt_setAttrList_other (S : List Attr) (a b : Attr) (v : String) (cur : List Attr)
    (haS : a ∈ S) (hbS : b ∈ S) (hans : a.ns = none)
    (hids : attrId b ≠ attrId a)
    (hcross : ∀ x ∈ S, ∀ y ∈ S, x.ns = none → y.ns ≠ none → x.name ≠ y.name ∧ x.name ≠ y.localName)
    (hW2 : ∀ c ∈ cur, c.ns ≠ none → ∃ c', c' ∈ S ∧ c'.ns ≠ none ∧ (c.name = c'.name ∨ c.name = c'.localName)) :
    getAt (setAttrList cur a.name v) b = getAt cur b := by
  cases hbn : b.ns with
  | some nsb =>
    have hns : ∀ c ∈ cur, c.ns ≠ none → c.name ≠ a.name := by
      intro c hc hcn
      obtain ⟨c', hc', hc'n, hor⟩ := hW2 c hc hcn
      have hac' := hcross a haS c' hc' hans hc'n
      rcases hor with h | h
      · rw [h]; exact fun hh => hac'.1 hh.symm
      · rw [h]; exact fun hh => hac'.2 hh.symm
    rw [getAt, getAt, hbn]
    simp only []
    rw [attrFindByNS_setAttrList a.name v nsb (anOf b) cur hns]
  | none =>
    have hq : b.name ≠ a.name := by
      intro hh
      apply hids
      rw [attrId, attrId, hbn, hans]
      simp only []
      rw [hh]
    rw [getAt, getAt, hbn]
    simp only []
    rw [attrFindByName_setAttrList_ne a.name v b.name hq cur]

theorem getAt_ns (cur : List Attr) (a : Attr) (nsv : String)
    (h : a.ns = some nsv) (hlne : a.localName ≠ "") :
    getAt cur a = (attrFindByNS cur nsv a.localName).map (fun b => b.value) := by
  rw [getAt, h]
  simp only []
  rw [anOf, if_pos hlne]

theorem getAt_plain (cur : List Attr) (a : Attr) (h : a.ns = none) :
    getAt cur a = (attrFindByName cur a.name).map (fun b => b.value) := by
  rw [getAt, h]

/-! ### Phase 1: events and invariants, relative to the original attributes -/
theorem phase1_pure (fromOid : Nat) (toEl : Node) (S feA : List Attr)
    (hSto : ∀ a ∈ toEl.data.attrs, a ∈ S)
    (hcross : ∀ x ∈ S, ∀ y ∈ S, x.ns = none → y.ns ≠ none → x.name ≠ y.name ∧ x.name ≠ y.localName)
    (hwf : ∀ x ∈ S, x.ns ≠ none → x.localName ≠ "" ∧
      splitQualified (if x.pfx = some "xmlns" then x.name else x.localName) =
        ((if x.pfx = some "xmlns" then x.pfx else none), x.localName)) :
    ∀ (l cur : List Attr),
      (∀ a ∈ l, a ∈ toEl.data.attrs) →
      ((l.map attrId)).Nodup →
      (∀ a ∈ l, getAt cur a = getAt feA a) →
      (∀ b ∈ cur, b.ns = none → ∀ c ∈ S, c.ns ≠ none → b.name ≠ c.name ∧ b.name ≠ c.localName) →
      (∀ b ∈ cur, b.ns ≠ none → ∃ c, c ∈ S ∧ c.ns ≠ none ∧ (b.name = c.name ∨ b.name = c.localName)) →
      (∀ b ∈ cur, b.ns ≠ none → b.localName ≠ "") →
      ((cur.map attrId)).Nodup →
      (phase1Sim fromOid cur l).2 = l.filterMap (setEventFor fromOid feA) ∧
      (∀ b ∈ (phase1Sim fromOid cur l).1, b.ns = none →
        ∀ c ∈ S, c.ns ≠ none → b.name ≠ c.name ∧ b.name ≠ c.localName) ∧
      (∀ b ∈ (phase1Sim fromOid cur l).1, b.ns ≠ none →
        ∃ c, c ∈ S ∧ c.ns ≠ none ∧ (b.name = c.name ∨ b.name = c.localName)) ∧
      (∀ b ∈ (phase1Sim fromOid cur l).1, b.ns ≠ none → b.localName ≠ "") ∧
      (((phase1Sim fromOid cur l).1.map attrId)).Nodup ∧
      (phase1Sim fromOid cur l).1.reverse.filterMap (removeEventFor fromOid toEl) =
        cur.reverse.filterMap (removeEventFor fromOid toEl) := by
  intro l
  induction l with
  | nil =>
    intro cur _ _ _ hW1 hW2 hW3 hnd
    rw [phase1Sim]
    exact ⟨rfl, hW1, hW2, hW3, hnd, rfl⟩
  | cons a rest ih =>
    intro cur hl hids hagree hW1 hW2 hW3 hnd
    have haTo : a ∈ toEl.data.attrs := hl a (List.mem_cons_self a rest)
    have haS : a ∈ S := hSto a haTo
    have hresto : ∀ b ∈ rest, b ∈ toEl.data.attrs := fun b hb => hl b (List.mem_cons_of_mem a hb)
    have hids' : (rest.map attrId).Nodup := (List.nodup_cons.mp hids).2
    have hanotin : attrId a ∉ rest.map attrId := (List.nodup_cons.mp hids).1
    have hbne : ∀ b ∈ rest, attrId b ≠ attrId a :=
      fun b hb he => hanotin (he ▸ List.mem_map_of_mem attrId hb)
    rw [phase1Sim, phase1One]
    cases ha : a.ns with
    | some nsv =>
      have hann : a.ns ≠ none := by rw [ha]; exact fun h => Option.noConfusion h
      obtain ⟨hlne, hsplit⟩ := hwf a haS hann
      rw [if_pos hlne]
      simp only [setAttrNSList]
      rw [hsplit]
      have hsn : (if a.pfx = some "xmlns" then a.name else a.localName) = a.name ∨
          (if a.pfx = some "xmlns" then a.name else a.localName) = a.localName := by
        by_cases hx : a.pfx = some "xmlns"
        · rw [if_pos hx]; exact Or.inl rfl
        · rw [if_neg hx]; exact Or.inr rfl
      by_cases hcond : (attrFindByNS cur nsv a.localName).map (fun b => b.value) ≠ some a.value
      · rw [if_pos hcond]
        have hfe : (attrFindByNS feA nsv a.localName).map (fun b => b.value) ≠ some a.value := by
          rw [← getAt_ns feA a nsv ha hlne, ← hagree a (List.mem_cons_self a rest),
            getAt_ns cur a nsv ha hlne]
          exact hcond
        have hev : setEventFor fromOid feA a =
            some (.setAttr fromOid (some nsv)
              (if a.pfx = some "xmlns" then a.name else a.localName) a.value) := by
          rw [setEventFor, ha]
          simp only []
          rw [if_pos hlne, if_pos hfe]
        obtain ⟨inv1, inv2, inv3, inv4⟩ := setAttrNSGo_inv S a nsv
          (if a.pfx = some "xmlns" then a.name else a.localName)
          (if a.pfx = some "xmlns" then a.pfx else none) a.value cur _ rfl haS ha hlne hsn
          hW1 hW2 hW3 hnd
        have hagree' : ∀ b ∈ rest,
            getAt (setAttrNSGo nsv (if a.pfx = some "xmlns" then a.name else a.localName) a.value
              ((if a.pfx = some "xmlns" then a.pfx else none), a.localName) cur) b = getAt feA b := by
          intro b hb
          rw [getAt_setAttrNSGo_other S a b nsv
            (if a.pfx = some "xmlns" then a.name else a.localName)
            (if a.pfx = some "xmlns" then a.pfx else none) a.value cur haS
            (hSto b (hresto b hb)) ha (fun h => (hwf b (hSto b (hresto b hb)) h).1) hsn
            (hbne b hb) hcross hW2]
          exact hagree b (List.mem_cons_of_mem a hb)
        obtain ⟨c1, c2, c3, c4, c5, c6⟩ := ih _ hresto hids' hagree' inv1 inv2 inv3 inv4
        have hnew : removeEventFor fromOid toEl
            ⟨(if a.pfx = some "xmlns" then a.name else a.localName),
              ((if a.pfx = some "xmlns" then a.pfx else none), a.localName).2,
              ((if a.pfx = some "xmlns" then a.pfx else none), a.localName).1,
              some nsv, a.value⟩ = none := by
          rw [removeEventFor]
          simp only []
          rw [if_pos hlne]
          have hhas : elHasAttributeNS toEl nsv a.localName = true :=
            isSome_attrFindByNS_of_mem toEl.data.attrs a nsv haTo ha
          simp [hhas]
        refine ⟨?_, c2, c3, c4, c5, ?_⟩
        · rw [List.filterMap_cons, hev]
          simp only []
          rw [c1]
          rfl
        · rw [c6]
          exact filterMap_removeEventFor_setAttrNSGo fromOid toEl nsv
            (if a.pfx = some "xmlns" then a.name else a.localName) a.value
            ((if a.pfx = some "xmlns" then a.pfx else none), a.localName) hnew cur
      · rw [if_neg hcond]
        have hfe : ¬ ((attrFindByNS feA nsv a.localName).map (fun b => b.value) ≠ some a.value) := by
          rw [← getAt_ns feA a nsv ha hlne, ← hagree a (List.mem_cons_self a rest),
            getAt_ns cur a nsv ha hlne]
          exact hcond
        have hev : setEventFor fromOid feA a = none := by
          rw [setEventFor, ha]
          simp only []
          rw [if_pos hlne, if_neg hfe]
        have hagree' : ∀ b ∈ rest, getAt cur b = getAt feA b :=
          fun b hb => hagree b (List.mem_cons_of_mem a hb)
        obtain ⟨c1, c2, c3, c4, c5, c6⟩ := ih cur hresto hids' hagree' hW1 hW2 hW3 hnd
        refine ⟨?_, c2, c3, c4, c5, c6⟩
        rw [List.filterMap_cons, hev]
        simp only []
        exact c1
    | none =>
      by_cases hcond : (attrFindByName cur a.name).map (fun b => b.value) ≠ some a.value
      · rw [if_pos hcond]
        have hfe : (attrFindByName feA a.name).map (fun b => b.value) ≠ some a.value := by
          rw [← getAt_plain feA a ha, ← hagree a (List.mem_cons_self a rest), getAt_plain cur a ha]
          exact hcond
        have hev : setEventFor fromOid feA a = some (.setAttr fromOid none a.name a.value) := by
          rw [setEventFor, ha]
          simp only []
          rw [if_pos hfe]
        obtain ⟨inv1, inv2, inv3, inv4⟩ := setAttrList_inv S a a.value cur _ rfl haS ha hcross
          hW1 hW2 hW3 hnd
        have hagree' : ∀ b ∈ rest, getAt (setAttrList cur a.name a.value) b = getAt feA b := by
          intro b hb
          rw [getAt_setAttrList_other S a b a.value cur haS (hSto b (hresto b hb)) ha
            (hbne b hb) hcross hW2]
          exact hagree b (List.mem_cons_of_mem a hb)
        obtain ⟨c1, c2, c3, c4, c5, c6⟩ := ih _ hresto hids' hagree' inv1 inv2 inv3 inv4
        have hnew : removeEventFor fromOid toEl ⟨a.name, a.name, none, none, a.value⟩ = none := by
          rw [removeEventFor]
          simp only []
          have hhas : elHasAttribute toEl a.name = true :=
            isSome_attrFindByName_of_mem toEl.data.attrs a haTo
          simp [hhas]
        refine ⟨?_, c2, c3, c4, c5, ?_⟩
        · rw [List.filterMap_cons, hev]
          simp only []
          rw [c1]
          rfl
        · rw [c6]
          exact filterMap_removeEventFor_setAttrList fromOid toEl a.name a.value hnew cur
      · rw [if_neg hcond]
        have hfe : ¬ ((attrFindByName feA a.name).map (fun b => b.value) ≠ some a.value) := by
          rw [← getAt_plain feA a ha, ← hagree a (List.mem_cons_self a rest), getAt_plain cur a ha]
          exact hcond
        have hev : setEventFor fromOid feA a = none := by
          rw [setEventFor, ha]
          simp only []
          rw [if_neg hfe]
        have hagree' : ∀ b ∈ rest, getAt cur b = getAt feA b :=
          fun b hb => hagree b (List.mem_cons_of_mem a hb)
        obtain ⟨c1, c2, c3, c4, c5, c6⟩ := ih cur hresto hids' hagree' hW1 hW2 hW3 hnd
        refine ⟨?_, c2, c3, c4, c5, c6⟩
        rw [List.filterMap_cons, hev]
        simp only []
        exact c1

/-! ### Phase 2: removal events from the snapshot of live attributes -/
theorem phase2_pure (fromOid : Nat) (toEl : Node) (p : List Attr)
    (hp1 : ∀ x ∈ p, x.ns = none → ∀ y ∈ p, y.ns ≠ none → x.name ≠ y.name)
    (hpwf : ∀ x ∈ p, x.ns ≠ none → x.localName ≠ "") :
    ∀ (l cur : List Attr),
      (∀ a ∈ l, a ∈ p) →
      (∀ b ∈ cur, b ∈ p) →
      ((l.map attrId)).Nodup →
      (∀ a ∈ l, presAt cur a = true) →
      (phase2Sim fromOid toEl cur l).2 = l.filterMap (removeEventFor fromOid toEl) := by
  intro l
  induction l with
  | nil => intro cur _ _ _ _; rw [phase2Sim, List.filterMap_nil]
  | cons a rest ih =>
    intro cur hlp hcur hids hpres
    have hap : a ∈ p := hlp a (List.mem_cons_self a rest)
    have hrestp : ∀ b ∈ rest, b ∈ p := fun b hb => hlp b (List.mem_cons_of_mem a hb)
    have hids' : (rest.map attrId).Nodup := (List.nodup_cons.mp hids).2
    have hanotin : attrId a ∉ rest.map attrId := (List.nodup_cons.mp hids).1
    have hbne : ∀ b ∈ rest, attrId b ≠ attrId a :=
      fun b hb he => hanotin (he ▸ List.mem_map_of_mem attrId hb)
    rw [phase2Sim, phase2One]
    cases ha : a.ns with
    | some nsv =>
      have hann : a.ns ≠ none := by rw [ha]; exact fun h => Option.noConfusion h
      have hlne : a.localName ≠ "" := hpwf a hap hann
      simp only []
      rw [if_pos hlne]
      by_cases h1 : ¬ elHasAttributeNS toEl nsv a.localName
      · rw [if_pos h1]
        have hpr : (attrFindByNS cur nsv a.localName).isSome = true := by
          have := hpres a (List.mem_cons_self a rest)
          rw [presAt, ha] at this
          simp only [] at this
          rw [anOf, if_pos hlne] at this
          exact this
        rw [hpr, if_pos rfl]
        have hev : removeEventFor fromOid toEl a = some (.removeAttr fromOid (some nsv) a.localName) := by
          rw [removeEventFor, ha]
          simp only []
          rw [if_pos hlne, if_pos h1]
        have hcur' : ∀ b ∈ removeAttrNSList cur nsv a.localName, b ∈ p :=
          fun b hb => hcur b (mem_removeAttrNSList nsv a.localName cur b hb)
        have hpres' : ∀ b ∈ rest, presAt (removeAttrNSList cur nsv a.localName) b = true := by
          intro b hb
          have hbp : b ∈ p := hrestp b hb
          cases hbn : b.ns with
          | some nsb =>
            have hbnn : b.ns ≠ none := by rw [hbn]; exact fun h => Option.noConfusion h
            have hblne : b.localName ≠ "" := hpwf b hbp hbnn
            have hid : ¬(nsv = nsb ∧ a.localName = b.localName) := by
              rintro ⟨e1, e2⟩
              apply hbne b hb
              rw [attrId, attrId, hbn, ha, e1, e2]
            rw [presAt, hbn]
            simp only []
            rw [anOf, if_pos hblne,
              attrFindByNS_removeAttrNSList nsv a.localName nsb b.localName hid cur]
            have := hpres b (List.mem_cons_of_mem a hb)
            rw [presAt, hbn] at this
            simp only [] at this
            rw [anOf, if_pos hblne] at this
            exact this
          | none =>
            have hcc : ∀ c ∈ cur, c.ns = some nsv ∧ c.localName = a.localName → c.name ≠ b.name := by
              intro c hc hcp
              have hcn : c.ns ≠ none := by rw [hcp.1]; exact fun h => Option.noConfusion h
              exact fun hh => hp1 b hbp hbn c (hcur c hc) hcn hh.symm
            rw [presAt, hbn]
            simp only []
            rw [attrFindByName_removeAttrNSList nsv a.localName b.name cur hcc]
            have := hpres b (List.mem_cons_of_mem a hb)
            rw [presAt, hbn] at this
            simp only [] at this
            exact this
        rw [List.filterMap_cons, hev]
        simp only []
        rw [ih _ hrestp hcur' hids' hpres']
        rfl
      · rw [if_neg h1]
        have hev : removeEventFor fromOid toEl a = none := by
          rw [removeEventFor, ha]
          simp only []
          rw [if_pos hlne, if_neg h1]
        rw [List.filterMap_cons, hev]
        simp only []
        exact ih cur hrestp hcur hids' (fun b hb => hpres b (List.mem_cons_of_mem a hb))
    | none =>
      simp only []
      by_cases h1 : ¬ elHasAttribute toEl a.name
      · rw [if_pos h1]
        have hpr : (attrFindByName cur a.name).isSome = true := by
          have := hpres a (List.mem_cons_self a rest)
          rw [presAt, ha] at this
          simp only [] at this
          exact this
        rw [hpr, if_pos rfl]
        have hev : removeEventFor fromOid toEl a = some (.removeAttr fromOid none a.name) := by
          rw [removeEventFor, ha]
          simp only []
          rw [if_pos h1]
        have hcur' : ∀ b ∈ removeAttrList cur a.name, b ∈ p :=
          fun b hb => hcur b (mem_removeAttrList a.name cur b hb)
        have hpres' : ∀ b ∈ rest, presAt (removeAttrList cur a.name) b = true := by
          intro b hb
          have hbp : b ∈ p := hrestp b hb
          cases hbn : b.ns with
          | some nsb =>
            have hbnn : b.ns ≠ none := by rw [hbn]; exact fun h => Option.noConfusion h
            have hblne : b.localName ≠ "" := hpwf b hbp hbnn
            have hns : ∀ c ∈ cur, c.ns ≠ none → c.name ≠ a.name := by
              intro c hc hcn hh
              exact hp1 a hap ha c (hcur c hc) hcn hh.symm
            rw [presAt, hbn]
            simp only []
            rw [attrFindByNS_removeAttrList a.name nsb (anOf b) cur hns]
            have := hpres b (List.mem_cons_of_mem a hb)
            rw [presAt, hbn] at this
            simp only [] at this
            exact this
          | none =>
            have hq : b.name ≠ a.name := by
              intro hh
              apply hbne b hb
              rw [attrId, attrId, hbn, ha, hh]
            rw [presAt, hbn]
            simp only []
            rw [attrFindByName_removeAttrList a.name b.name hq cur]
            have := hpres b (List.mem_cons_of_mem a hb)
            rw [presAt, hbn] at this
            simp only [] at this
            exact this
        rw [List.filterMap_cons, hev]
        simp only []
        rw [ih _ hrestp hcur' hids' hpres']
        rfl
      · rw [if_neg h1]
        have hev : removeEventFor fromOid toEl a = none := by
          rw [removeEventFor, ha]
          simp only []
          rw [if_neg h1]
        rw [List.filterMap_cons, hev]
        simp only []
        exact ih cur hrestp hcur hids' (fun b hb => hpres b (List.mem_cons_of_mem a hb))

/-! ### Permutation-insensitivity helpers -/
theorem find?_eq_some_unique {α : Type} (p : α → Bool) (l : List α) (a : α)
    (ha : a ∈ l) (hpa : p a = true) (hu : ∀ b ∈ l, p b = true → b = a) :
    l.find? p = some a := by
  induction l with
  | nil => exact absurd ha (List.not_mem_nil a)
  | cons c cs ih =>
    rw [List.find?_cons]
    cases hpc : p c with
    | true => rw [hu c (List.mem_cons_self c cs) hpc]
    | false =>
      rcases List.mem_cons.mp ha with rfl | ha'
      · rw [hpa] at hpc; exact Bool.noConfusion hpc
      · exact ih ha' (fun b hb hpb => hu b (List.mem_cons_of_mem c hb) hpb)

/-- Reading an attribute's identity on a clean list containing it returns its
own value. -/
theorem getAt_self (S l : List Attr) (a : Attr)
    (hlS : ∀ b ∈ l, b ∈ S) (haS : a ∈ S) (ha : a ∈ l)
    (hnd : ((l.map attrId)).Nodup)
    (hcross : ∀ x ∈ S, ∀ y ∈ S, x.ns = none → y.ns ≠ none → x.name ≠ y.name ∧ x.name ≠ y.localName)
    (hwfa : a.ns ≠ none → a.localName ≠ "") :
    getAt l a = some a.value := by
  cases han : a.ns with
  | some nsv =>
    have hlne : a.localName ≠ "" := hwfa (by rw [han]; exact fun h => Option.noConfusion h)
    rw [getAt_ns l a nsv han hlne]
    rw [attrFindByNS, find?_eq_some_unique _ l a ha (by simp [Bool.and_eq_true, han]) ?_,
      Option.map_some']
    intro b hb hpb
    have hpb' : b.ns = some nsv ∧ b.localName = a.localName := by
      simpa [Bool.and_eq_true] using hpb
    refine List.inj_on_of_nodup_map hnd hb ha ?_
    rw [attrId, attrId, hpb'.1, han, hpb'.2]
  | none =>
    rw [getAt_plain l a han]
    rw [attrFindByName, find?_eq_some_unique _ l a ha (by simp) ?_, Option.map_some']
    intro b hb hpb
    have hpb' : b.name = a.name := by simpa using hpb
    have hbn : b.ns = none := by
      cases hbn2 : b.ns with
      | none => rfl
      | some s =>
        have := hcross a haS b (hlS b hb) han (by rw [hbn2]; exact fun h => Option.noConfusion h)
        exact absurd hpb'.symm this.1
    refine List.inj_on_of_nodup_map hnd hb ha ?_
    rw [attrId, attrId, hbn, han, hpb']

/-! ### The full morphAttrs trace for a clean matched pair -/
theorem morphAttrsF_trace_clean (st : St) (fromOid : Nat) (toEl fe : Node)
    (hres : resolve st fromOid = some fe)
    (hdoc : docContains st fromOid = true)
    (hfrag : ¬ (toEl.data.nodeType = DOCUMENT_FRAGMENT_NODE ∨
      fe.data.nodeType = DOCUMENT_FRAGMENT_NODE))
    (hclean : AttrsClean fe.data.attrs toEl.data.attrs) :
    (morphAttrsF st fromOid toEl).trace =
      st.trace
        ++ toEl.data.attrs.reverse.filterMap (setEventFor fromOid fe.data.attrs)
        ++ fe.data.attrs.reverse.filterMap (removeEventFor fromOid toEl) := by
  obtain ⟨hnd1, hnd2, hcross, hwf⟩ := hclean
  rw [morphAttrsF, hres]
  simp only []
  rw [if_neg hfrag]
  obtain ⟨ht1, hr1, hd1⟩ := morphAttrsSet_sim fromOid toEl.data.attrs.reverse st fe hres hdoc
  obtain ⟨e1, w1, w2, w3, nd', rem'⟩ :=
    phase1_pure fromOid toEl (fe.data.attrs ++ toEl.data.attrs) fe.data.attrs
      (fun a hato => List.mem_append.mpr (Or.inr hato))
      hcross hwf
      toEl.data.attrs.reverse fe.data.attrs
      (fun a hha => List.mem_reverse.mp hha)
      (by rw [List.map_reverse]; exact List.nodup_reverse.mpr hnd2)
      (fun a _ => rfl)
      (fun b hb hbn c hc hcn => hcross b (List.mem_append.mpr (Or.inl hb)) c hc hbn hcn)
      (fun b hb hbn => ⟨b, List.mem_append.mpr (Or.inl hb), hbn, Or.inl rfl⟩)
      (fun b hb hbn => (hwf b (List.mem_append.mpr (Or.inl hb)) hbn).1)
      hnd1
  obtain ⟨n1, hn1, hn1a⟩ := Option.map_eq_some'.mp hr1
  rw [hn1]
  simp only []
  obtain ⟨ht2, hr2, hd2⟩ :=
    morphAttrsRemove_sim fromOid toEl n1.data.attrs.reverse
      (morphAttrsSet st fromOid toEl.data.attrs.reverse) n1 hn1 hd1
  have hp1 : ∀ x ∈ (phase1Sim fromOid fe.data.attrs toEl.data.attrs.reverse).1, x.ns = none →
      ∀ y ∈ (phase1Sim fromOid fe.data.attrs toEl.data.attrs.reverse).1, y.ns ≠ none →
        x.name ≠ y.name := by
    intro x hx hxn y hy hyn
    obtain ⟨c, hcS, hcn, hor⟩ := w2 y hy hyn
    have h := w1 x hx hxn c hcS hcn
    rcases hor with h2 | h2
    · rw [h2]; exact h.1
    · rw [h2]; exact h.2
  have e2 :=
    phase2_pure fromOid toEl (phase1Sim fromOid fe.data.attrs toEl.data.attrs.reverse).1 hp1 w3
      (phase1Sim fromOid fe.data.attrs toEl.data.attrs.reverse).1.reverse
      (phase1Sim fromOid fe.data.attrs toEl.data.attrs.reverse).1
      (fun a hha => List.mem_reverse.mp hha)
      (fun b hb => hb)
      (by rw [List.map_reverse]; exact List.nodup_reverse.mpr nd')
      (by
        intro a hha
        have hap : a ∈ (phase1Sim fromOid fe.data.attrs toEl.data.attrs.reverse).1 :=
          List.mem_reverse.mp hha
        cases han : a.ns with
        | some nsv =>
          have hann : a.ns ≠ none := by rw [han]; exact fun h => Option.noConfusion h
          rw [presAt, han]
          simp only []
          rw [anOf, if_pos (w3 a hap hann)]
          exact isSome_attrFindByNS_of_mem _ a nsv hap han
        | none =>
          rw [presAt, han]
          simp only []
          exact isSome_attrFindByName_of_mem _ a hap)
  rw [ht2, ht1, e1, hn1a, e2, rem', List.append_assoc]

theorem setEventFor_none_of_self (fromOid : Nat) (feA : List Attr) (a : Attr)
    (hget : getAt feA a = some a.value) (hwfa : a.ns ≠ none → a.localName ≠ "") :
    setEventFor fromOid feA a = none := by
  cases han : a.ns with
  | some nsv =>
    have hlne : a.localName ≠ "" := hwfa (by rw [han]; exact fun h => Option.noConfusion h)
    rw [getAt_ns feA a nsv han hlne] at hget
    rw [setEventFor, han]
    simp only []
    rw [if_pos hlne, if_neg (fun hc => hc hget)]
  | none =>
    rw [getAt_plain feA a han] at hget
    rw [setEventFor, han]
    simp only []
    rw [if_neg (fun hc => hc hget)]

theorem removeEventFor_none_of_onTo (fromOid : Nat) (toEl : Node) (a : Attr)
    (hato : a ∈ toEl.data.attrs) (hwfa : a.ns ≠ none → a.localName ≠ "") :
    removeEventFor fromOid toEl a = none := by
  cases han : a.ns with
  | some nsv =>
    have hlne : a.localName ≠ "" := hwfa (by rw [han]; exact fun h => Option.noConfusion h)
    have hhas : elHasAttributeNS toEl nsv a.localName = true :=
      isSome_attrFindByNS_of_mem toEl.data.attrs a nsv hato han
    rw [removeEventFor, han]
    simp only []
    rw [if_pos hlne]
    simp [hhas]
  | none =>
    have hhas : elHasAttribute toEl a.name = true :=
      isSome_attrFindByName_of_mem toEl.data.attrs a hato
    rw [removeEventFor, han]
    simp only []
    simp [hhas]

/-- **C2** (confirmed): on a matched element pair whose attribute lists are
clean (distinct identities, no plain/namespaced name collisions, well-formed
namespaced names), `morphAttrs` emits exactly one `setAttribute` record for
each target attribute whose value differs on the live element (iterated last
to first), followed by exactly one `removeAttribute` record for each live
attribute absent from the target (iterated last to first), and nothing else;
consequently, if the two attribute lists are permutations of each other, no
attribute mutation is produced at all. -/
theorem C2_attr_sync_exact (st : St) (fromOid : Nat) (toEl fe : Node)
    (hres : resolve st fromOid = some fe)
    (hdoc : docContains st fromOid = true)
    (hfrag : ¬ (toEl.data.nodeType = DOCUMENT_FRAGMENT_NODE ∨
      fe.data.nodeType = DOCUMENT_FRAGMENT_NODE))
    (hclean : AttrsClean fe.data.attrs toEl.data.attrs) :
    (morphAttrsF st fromOid toEl).trace =
      st.trace
        ++ toEl.data.attrs.reverse.filterMap (setEventFor fromOid fe.data.attrs)
        ++ fe.data.attrs.reverse.filterMap (removeEventFor fromOid toEl) ∧
    (fe.data.attrs.Perm toEl.data.attrs → (morphAttrsF st fromOid toEl).trace = st.trace) := by
  have hmain := morphAttrsF_trace_clean st fromOid toEl fe hres hdoc hfrag hclean
  refine ⟨hmain, fun hperm => ?_⟩
  obtain ⟨hnd1, hnd2, hcross, hwf⟩ := hclean
  have hset : toEl.data.attrs.reverse.filterMap (setEventFor fromOid fe.data.attrs) = [] := by
    rw [List.filterMap_eq_nil_iff]
    intro a hha
    have hato : a ∈ toEl.data.attrs := List.mem_reverse.mp hha
    have hafe : a ∈ fe.data.attrs := hperm.mem_iff.mpr hato
    have haS : a ∈ fe.data.attrs ++ toEl.data.attrs := List.mem_append.mpr (Or.inl hafe)
    exact setEventFor_none_of_self fromOid fe.data.attrs a
      (getAt_self (fe.data.attrs ++ toEl.data.attrs) fe.data.attrs a
        (fun b hb => List.mem_append.mpr (Or.inl hb)) haS hafe hnd1 hcross
        (fun hn => (hwf a haS hn).1))
      (fun hn => (hwf a haS hn).1)
  have hrem : fe.data.attrs.reverse.filterMap (removeEventFor fromOid toEl) = [] := by
    rw [List.filterMap_eq_nil_iff]
    intro a hha
    have hafe : a ∈ fe.data.attrs := List.mem_reverse.mp hha
    have hato : a ∈ toEl.data.attrs := hperm.mem_iff.mp hafe
    have haS : a ∈ fe.data.attrs ++ toEl.data.attrs := List.mem_append.mpr (Or.inl hafe)
    exact removeEventFor_none_of_onTo fromOid toEl a hato (fun hn => (hwf a haS hn).1)
  rw [hmain, hset, hrem, List.append_nil, List.append_nil]

/-- Witness for C2 at a concrete pair: `from` carries a=1, b=2 and `to`
carries b=3, c=4; the pass emits set(c), set(b), remove(a), in this order. -/
theorem C2_witness :
    resolve cxC2St 1 = some cxC2From ∧
    docContains cxC2St 1 = true ∧
    (¬ (cxC2To.data.nodeType = DOCUMENT_FRAGMENT_NODE ∨
      cxC2From.data.nodeType = DOCUMENT_FRAGMENT_NODE)) ∧
    AttrsClean cxC2From.data.attrs cxC2To.data.attrs ∧
    (morphAttrsF cxC2St 1 cxC2To).trace =
      [.setAttr 1 none "c" "4", .setAttr 1 none "b" "3", .removeAttr 1 none "a"] := by
  refine ⟨by decide, by decide, by decide, by decide, ?_⟩
  have h := C2_attr_sync_exact cxC2St 1 cxC2To cxC2From (by decide) (by decide) (by decide)
    (by decide)
  exact h.1.trans (by decide)


/-! ### C4: childrenOnly root contract -/

/-- C4 counterexample: a `childrenOnly: true` pass over an INPUT container
whose target carries `checked` writes the `checked` attribute and property
onto the container itself (the special INPUT handler runs on the root), so
the root's own attributes are not left untouched. -/
theorem C4_counterexample :
    cxC4From.data.attrs = [] ∧
    cxC4From.data.props.checked = false ∧
    (morphdomF 10 cxC4From cxC4To ⟨true⟩ false 999).map (fun r =>
        (r.1.trace, (findOid r.1.doc 1).map (fun n => (n.data.attrs, n.data.props.checked)), r.2)) =
      some ([.setAttr 1 none "checked" ""],
        some ([⟨"checked", "checked", none, none, ""⟩], true), some 1) := by
  decide

/-- C4 amended: a `childrenOnly: true` invocation never touches the root's
position or identity — the tag-incompatibility root swap and the final
parent replacement are unreachable, the returned node is the container
itself (or `undefined` for an isSameNode proxy), and root attribute
synchronization (`morphAttrs`) is skipped — but the pass still ends by
running the special element handler on the container (see the
counterexample), so the root is not untouched.  Conjunct 1 characterizes
the whole pass; conjunct 2 shows the element morph under `childrenOnly`
never invokes attribute synchronization; conjunct 3: any returned node is
the container. -/
theorem C4_amended (f : Nat) (fromNode toNode0 : Node) (hasParent : Bool) (freshOid : Nat)
    (htn : toNode0.data.nodeType ≠ DOCUMENT_FRAGMENT_NODE) :
    (morphdomF f fromNode toNode0 ⟨true⟩ hasParent freshOid =
      (let st0 : St := ⟨fromNode, [], indexTreeF fromNode [], [], []⟩
       if fromNode.oid = toNode0.oid then some (st0, some fromNode.oid)
       else if toNode0.data.sameNodeOf == some fromNode.oid then some (st0, none)
       else
         match morphElF f fromNode.oid toNode0 true st0 with
         | none => none
         | some st1 => some (cleanupKeyedF st1, some fromNode.oid))) ∧
    (∀ (g : Nat) (fromOid : Nat) (toEl : Node) (st : St),
      morphElF (g + 1) fromOid toEl true st =
        (let st1 := match getNodeKey toEl with
          | some k => { st with lookup := lkDel st.lookup k }
          | none => st
         match resolve st1 fromOid with
         | none => some st1
         | some fe =>
           if fe.data.nodeName ≠ "TEXTAREA" then morphChildrenF g fromOid toEl st1
           else some (textareaHandler st1 fromOid toEl))) ∧
    (∀ st' res, morphdomF f fromNode toNode0 ⟨true⟩ hasParent freshOid = some (st', res) →
      res = some fromNode.oid ∨ res = none) := by
  have h1 : morphdomF f fromNode toNode0 ⟨true⟩ hasParent freshOid =
      (let st0 : St := ⟨fromNode, [], indexTreeF fromNode [], [], []⟩
       if fromNode.oid = toNode0.oid then some (st0, some fromNode.oid)
       else if toNode0.data.sameNodeOf == some fromNode.oid then some (st0, none)
       else
         match morphElF f fromNode.oid toNode0 true st0 with
         | none => none
         | some st1 => some (cleanupKeyedF st1, some fromNode.oid)) := by
    rw [morphdomF]
    simp only [if_neg htn]
    rw [if_neg (fun h => h trivial)]
    rw [mainPathF]
    by_cases he : fromNode.oid = toNode0.oid
    · rw [if_pos he, if_pos he, finishPath]
      rw [if_neg (fun hc => hc.1 rfl)]
    · rw [if_neg he, if_neg he]
      by_cases hs : (toNode0.data.sameNodeOf == some fromNode.oid) = true
      · rw [if_pos hs, if_pos hs]
      · rw [if_neg hs, if_neg hs]
        cases hm : morphElF f fromNode.oid toNode0 true
            ⟨fromNode, [], indexTreeF fromNode [], [], []⟩ with
        | none => rfl
        | some st1 =>
          simp only []
          rw [finishPath]
          rw [if_neg (fun hc => hc.1 rfl)]
  refine ⟨h1, ?_, ?_⟩
  · intro g fromOid toEl st
    rw [morphElF]
    rw [if_neg (fun hc => hc rfl)]
  · intro st' res hr
    rw [h1] at hr
    simp only [] at hr
    by_cases he : fromNode.oid = toNode0.oid
    · rw [if_pos he] at hr
      cases hr
      exact Or.inl rfl
    · rw [if_neg he] at hr
      by_cases hs : (toNode0.data.sameNodeOf == some fromNode.oid) = true
      · rw [if_pos hs] at hr
        cases hr
        exact Or.inr rfl
      · rw [if_neg hs] at hr
        cases hm : morphElF f fromNode.oid toNode0 true
            ⟨fromNode, [], indexTreeF fromNode [], [], []⟩ with
        | none => rw [hm] at hr; exact Option.noConfusion hr
        | some st1 =>
          rw [hm] at hr
          cases hr
          exact Or.inl rfl

/-- C4 witness: the amended characterization applied to the INPUT pair. -/
theorem C4_witness :
    morphdomF 10 cxC4From cxC4To ⟨true⟩ false 999 =
      (match morphElF 10 1 cxC4To true
          ⟨cxC4From, [], indexTreeF cxC4From [], [], []⟩ with
        | none => none
        | some st1 => some (cleanupKeyedF st1, some 1)) := by
  have h := (C4_amended 10 cxC4From cxC4To false 999 (by decide)).1
  rw [h]
  decide


/-! ### C8: pass-end keyed cleanup -/

/-! ### C8: pass-end keyed cleanup -/

theorem walkDiscardedKeys_false (t : Node) : walkDiscardedKeys t false = [] := by
  induction t using Node.rec
    (motive_2 := fun l => walkDiscardedKeysL l false = []) with
  | mk d cs ih =>
    rw [walkDiscardedKeys]
    by_cases h : d.nodeType = ELEMENT_NODE
    · rw [if_pos h]; exact ih
    · rw [if_neg h]
  | nil => rw [walkDiscardedKeysL]
  | cons c cs ihc ihcs =>
    rw [walkDiscardedKeysL]
    simp only [Bool.false_eq_true, if_false, ihcs, List.append_nil]
    by_cases h : c.children.isEmpty = true
    · simp only [h, if_true]
    · simp only [h, Bool.false_eq_true, if_false, ihc]

theorem detachOid_sound (t : Node) :
    ∀ x p n, (detachOid t x).2 = some (p, n) → n.data.oid = x := by
  induction t using Node.rec
    (motive_2 := fun l => ∀ p x q n, (detachOidL l p x).2 = some (q, n) → n.data.oid = x) with
  | mk d cs ih =>
    intro x p n h
    rw [detachOid] at h
    cases hd : detachOidL cs d.oid x with
    | mk cs' r =>
      rw [hd] at h
      exact ih d.oid x p n (by rw [hd]; exact h)
  | nil =>
    rename_i p x q n h
    rw [detachOidL] at h
    exact Option.noConfusion h
  | cons c cs ihc ihcs =>
    rename_i p x q n h
    rw [detachOidL] at h
    by_cases hcx : c.oid = x
    · rw [if_pos hcx] at h
      cases hd : detachOidL cs p x with
      | mk cs' r =>
        rw [hd] at h
        cases r with
        | some r2 =>
          simp only [] at h
          cases h
          exact ihcs p x q n (by rw [hd])
        | none =>
          simp only [] at h
          cases h
          exact hcx
    · rw [if_neg hcx] at h
      cases hd1 : detachOid c x with
      | mk c' r =>
        rw [hd1] at h
        cases hd2 : detachOidL cs p x with
        | mk cs' r2 =>
          rw [hd2] at h
          cases r with
          | some r1 =>
            simp only [] at h
            cases h
            exact ihc x q n (by rw [hd1])
          | none =>
            simp only [] at h
            exact ihcs p x q n (by rw [hd2, h])

theorem detachOid_complete (t : Node) :
    ∀ x, t.data.oid ≠ x → x ∈ nodeOids t → ((detachOid t x).2).isSome = true := by
  induction t using Node.rec
    (motive_2 := fun l => ∀ p x, x ∈ nodeListOids l → ((detachOidL l p x).2).isSome = true) with
  | mk d cs ih =>
    intro x hne hmem
    rw [nodeOids] at hmem
    rcases List.mem_cons.mp hmem with rfl | hmem'
    · exact absurd rfl hne
    · rw [detachOid]
      cases hd : detachOidL cs d.oid x with
      | mk cs' r =>
        have := ih d.oid x hmem'
        rw [hd] at this
        exact this
  | nil =>
    rename_i p x hmem
    rw [nodeListOids] at hmem
    exact absurd hmem (List.not_mem_nil x)
  | cons c cs ihc ihcs =>
    rename_i p x hmem
    rw [nodeListOids] at hmem
    rw [detachOidL]
    by_cases hcx : c.oid = x
    · rw [if_pos hcx]
      cases hd : detachOidL cs p x with
      | mk cs' r =>
        cases r with
        | some r2 => rfl
        | none => rfl
    · rw [if_neg hcx]
      cases hd1 : detachOid c x with
      | mk c' r =>
        cases hd2 : detachOidL cs p x with
        | mk cs' r2 =>
          cases r with
          | some r1 => rfl
          | none =>
            simp only []
            rcases List.mem_append.mp hmem with h1 | h2
            · have := ihc x hcx h1
              rw [hd1] at this
              exact absurd this (by simp)
            · have := ihcs p x h2
              rw [hd2] at this
              exact this

theorem detachOid_found (x : Nat) (t : Node) (hne : t.data.oid ≠ x)
    (hc : containsOid t x = true) :
    ∃ p n, (detachOid t x).2 = some (p, n) ∧ n.data.oid = x := by
  have hmem : x ∈ nodeOids t := by
    simpa [containsOid] using hc
  have hs := detachOid_complete t x hne hmem
  cases hr : (detachOid t x).2 with
  | none => rw [hr] at hs; exact Bool.noConfusion hs
  | some pr =>
    obtain ⟨p, n⟩ := pr
    refine ⟨p, n, rfl, ?_⟩
    exact detachOid_sound t x p n hr



theorem detachOid_removes (t : Node) :
    ∀ x, t.data.oid ≠ x → x ∉ nodeOids (detachOid t x).1 := by
  induction t using Node.rec
    (motive_2 := fun l => ∀ p x, x ∉ nodeListOids (detachOidL l p x).1) with
  | mk d cs ih =>
    intro x hne hmem
    rw [detachOid] at hmem
    cases hd : detachOidL cs d.oid x with
    | mk cs' r =>
      rw [hd] at hmem
      rw [nodeOids] at hmem
      rcases List.mem_cons.mp hmem with he | hm
      · exact hne he.symm
      · exact ih d.oid x (by rw [hd]; exact hm)
  | nil =>
    rename_i p x
    intro hmem
    rw [detachOidL, nodeListOids] at hmem
    exact List.not_mem_nil x hmem
  | cons c cs ihc ihcs =>
    rename_i p x
    intro hmem
    rw [detachOidL] at hmem
    by_cases hcx : c.oid = x
    · rw [if_pos hcx] at hmem
      cases hd : detachOidL cs p x with
      | mk cs' r =>
        rw [hd] at hmem
        exact ihcs p x (by rw [hd]; exact hmem)
    · rw [if_neg hcx] at hmem
      cases hd1 : detachOid c x with
      | mk c' r =>
        rw [hd1] at hmem
        cases hd2 : detachOidL cs p x with
        | mk cs' r2 =>
          rw [hd2] at hmem
          rw [nodeListOids] at hmem
          rcases List.mem_append.mp hmem with h1 | h2
          · exact ihc x hcx (by rw [hd1]; exact h1)
          · exact ihcs p x (by rw [hd2]; exact h2)

theorem removeNodeF_removes (st : St) (oid : Nat)
    (hne : st.doc.oid ≠ oid) (hc : docContains st oid = true) :
    docContains (removeNodeF st oid false) oid = false ∧
    (removeNodeF st oid false).lookup = st.lookup ∧
    (removeNodeF st oid false).removals = st.removals ∧
    ∃ p n, (removeNodeF st oid false).trace = st.trace ++ [.remNode p oid] ∧
      (removeNodeF st oid false).limbo = st.limbo ++ [n] ∧ n.data.oid = oid := by
  obtain ⟨p, n, hr, hn⟩ := detachOid_found oid st.doc hne hc
  rw [removeNodeF, stDetach, if_neg hne]
  cases hd : detachOid st.doc oid with
  | mk doc' r =>
    rw [hd] at hr
    simp only [] at hr
    subst hr
    simp only []
    rw [walkDiscardedKeys_false n, List.append_nil]
    refine ⟨?_, rfl, rfl, p, n, rfl, rfl, hn⟩
    have hnm : oid ∉ nodeOids doc' := by
      have := detachOid_removes st.doc oid hne
      rw [hd] at this
      exact this
    simp [docContains, containsOid, stEmit, hnm]

theorem stDetach_fst_lookup (st : St) (x : Nat) : (stDetach st x).1.lookup = st.lookup := by
  rw [stDetach]
  split
  · rfl
  · split
    · rfl
    · split
      · rfl
      · split
        · rfl
        · rfl

theorem removeNodeF_lookup (st : St) (x : Nat) (b : Bool) :
    (removeNodeF st x b).lookup = st.lookup := by
  rw [removeNodeF]
  cases hd : stDetach st x with
  | mk st' r =>
    have h := stDetach_fst_lookup st x
    rw [hd] at h
    cases r with
    | some n => exact h
    | none => exact h

theorem cleanupKeyedGo_lookup : ∀ (ks : List String) (st : St),
    (cleanupKeyedGo ks st).lookup = st.lookup := by
  intro ks
  induction ks with
  | nil => intro st; rw [cleanupKeyedGo]
  | cons k ks ih =>
    intro st
    rw [cleanupKeyedGo]
    cases hl : lkGet st.lookup k with
    | some oid =>
      simp only []
      rw [ih (removeNodeF st oid false), removeNodeF_lookup]
    | none =>
      simp only []
      exact ih st

/-- C8 counterexample: a keyed node buried under a live TEXTAREA (whose
subtree the morph never reconciles) has a key that appears nowhere in the
target tree, yet by pass end it is still in the document, the removal list
is empty and the key index still maps its key — refuting the claim's
"consequently every keyed live node whose key does not appear anywhere in
the target tree is removed from the DOM by pass end". -/
theorem C8_counterexample :
    getNodeKey cxC8Keyed = some "k" ∧
    lkGet (indexTreeF cxC8To []) "k" = none ∧
    (morphdomF 20 cxC8From cxC8To ⟨false⟩ false 999).map (fun r =>
        (containsOid r.1.doc 3, r.1.removals, lkGet r.1.lookup "k")) =
      some (true, [], some 3) := by
  decide

/-- C8 amended: the pass-end cleanup looks each deferred key up in the key
index (which the cleanup itself never modifies), skips a key whose entry
was deleted by a successful match, and for a key whose entry is still
present detaches the indexed node from the document (emitting a childList
removal record, touching neither the index nor the removal list, and
keeping the detached subtree reachable); but a keyed node is removed this
way only if its key entered the removal list, so a keyed node whose
subtree the pass never walks (e.g. under a TEXTAREA) survives even when
its key is absent from the target tree. -/
theorem C8_amended (st : St) (k : String) (ks : List String) (oid : Nat)
    (hne : st.doc.oid ≠ oid) (hc : docContains st oid = true) :
    ((cleanupKeyedGo ks st).lookup = st.lookup) ∧
    (lkGet st.lookup k = some oid →
      cleanupKeyedGo (k :: ks) st = cleanupKeyedGo ks (removeNodeF st oid false)) ∧
    (docContains (removeNodeF st oid false) oid = false ∧
      (removeNodeF st oid false).lookup = st.lookup ∧
      (removeNodeF st oid false).removals = st.removals ∧
      ∃ p n, (removeNodeF st oid false).trace = st.trace ++ [.remNode p oid] ∧
        (removeNodeF st oid false).limbo = st.limbo ++ [n] ∧ n.data.oid = oid) ∧
    (lkGet st.lookup k = none → cleanupKeyedGo (k :: ks) st = cleanupKeyedGo ks st) := by
  refine ⟨cleanupKeyedGo_lookup ks st, ?_, removeNodeF_removes st oid hne hc, ?_⟩
  · intro hlk
    rw [cleanupKeyedGo, hlk]
  · intro hlk
    rw [cleanupKeyedGo, hlk]

/-- C8 witness: the amended cleanup characterization at the concrete
textarea document, key "k" indexed at node 3. -/
theorem C8_witness :
    docContains (removeNodeF
      ⟨cxC8From, [], indexTreeF cxC8From [], [], []⟩ 3 false) 3 = false ∧
    cleanupKeyedGo ["k"] ⟨cxC8From, [], indexTreeF cxC8From [], [], []⟩ =
      cleanupKeyedGo [] (removeNodeF ⟨cxC8From, [], indexTreeF cxC8From [], [], []⟩ 3 false) := by
  have h := C8_amended ⟨cxC8From, [], indexTreeF cxC8From [], [], []⟩ "k" [] 3
    (by decide) (by decide)
  exact ⟨h.2.2.1.1, h.2.1 (by decide)⟩

theorem nodeOids_child_sublist {c : Node} :
    ∀ {cs : List Node}, c ∈ cs → (nodeOids c).Sublist (nodeListOids cs) := by
  intro cs
  induction cs with
  | nil => intro h; exact absurd h (List.not_mem_nil c)
  | cons c' cs' ih =>
    intro h
    rw [nodeListOids]
    rcases List.mem_cons.mp h with rfl | h'
    · exact List.sublist_append_left _ _
    · exact (ih h').trans (List.sublist_append_right _ _)

theorem Isub_oid_mem {s t : Node} (h : Isub s t) : s.data.oid ∈ nodeOids t := by
  induction h with
  | refl =>
    cases s with
    | mk d cs => rw [nodeOids]; exact List.mem_cons_self _ _
  | child hc h ih =>
    rename_i c t
    cases t with
    | mk d cs =>
      rw [nodeOids]
      exact List.mem_cons_of_mem _ ((nodeOids_child_sublist hc).mem ih)

theorem Isub_trans {a b c : Node} (h1 : Isub a b) (h2 : Isub b c) : Isub a c := by
  induction h2 with
  | refl => exact h1
  | child hc h ih => exact Isub.child hc ih

theorem Isub_of_child {c t : Node} (hc : c ∈ t.children) : Isub c t :=
  Isub.child hc (Isub.refl c)

theorem findOid_not_mem (t : Node) : ∀ x, x ∉ nodeOids t → findOid t x = none := by
  induction t using Node.rec
    (motive_2 := fun l => ∀ x, x ∉ nodeListOids l → findOidL l x = none) with
  | mk d cs ih =>
    intro x hx
    rw [nodeOids] at hx
    rw [findOid, if_neg (fun he => hx (List.mem_cons.mpr (Or.inl he.symm)))]
    exact ih x (fun hm => hx (List.mem_cons_of_mem _ hm))
  | nil =>
    rename_i x hx
    rw [findOidL]
  | cons c cs ihc ihcs =>
    rename_i x hx
    rw [nodeListOids] at hx
    rw [findOidL, ihc x (fun hm => hx (List.mem_append.mpr (Or.inl hm)))]
    exact ihcs x (fun hm => hx (List.mem_append.mpr (Or.inr hm)))

theorem findOid_mem_isSome (t : Node) :
    ∀ x, x ∈ nodeOids t → (findOid t x).isSome = true := by
  induction t using Node.rec
    (motive_2 := fun l => ∀ x, x ∈ nodeListOids l → (findOidL l x).isSome = true) with
  | mk d cs ih =>
    intro x hx
    rw [findOid]
    by_cases he : d.oid = x
    · rw [if_pos he]; rfl
    · rw [if_neg he]
      rw [nodeOids] at hx
      rcases List.mem_cons.mp hx with h1 | h2
      · exact absurd h1.symm he
      · exact ih x h2
  | nil =>
    rename_i x hx
    rw [nodeListOids] at hx
    exact absurd hx (List.not_mem_nil x)
  | cons c cs ihc ihcs =>
    rename_i x hx
    rw [nodeListOids] at hx
    rw [findOidL]
    cases hf : findOid c x with
    | some r => rfl
    | none =>
      rcases List.mem_append.mp hx with h1 | h2
      · have := ihc x h1
        rw [hf] at this
        exact Bool.noConfusion this
      · exact ihcs x h2

theorem nodup_nodeOids_child {t c : Node} (hnd : (nodeOids t).Nodup)
    (hc : c ∈ t.children) : (nodeOids c).Nodup := by
  cases t with
  | mk d cs =>
    rw [nodeOids] at hnd
    exact ((List.nodup_cons.mp hnd).2).sublist (nodeOids_child_sublist hc)

theorem findOidL_of_child :
    ∀ (cs : List Node), (nodeListOids cs).Nodup → ∀ c ∈ cs, ∀ x, x ∈ nodeOids c →
      findOidL cs x = findOid c x := by
  intro cs
  induction cs with
  | nil => intro _ c hc; exact absurd hc (List.not_mem_nil c)
  | cons c' cs' ih =>
    intro hnd c hc x hx
    rw [nodeListOids] at hnd
    rw [findOidL]
    rcases List.mem_cons.mp hc with rfl | hc'
    · cases hf : findOid c x with
      | some r => rfl
      | none =>
        have := findOid_mem_isSome c x hx
        rw [hf] at this
        exact Bool.noConfusion this
    · have hdisj : x ∉ nodeOids c' := by
        intro hx'
        have hmem2 : x ∈ nodeListOids cs' := (nodeOids_child_sublist hc').mem hx
        exact (List.disjoint_of_nodup_append hnd) hx' hmem2
      rw [findOid_not_mem c' x hdisj]
      exact ih (hnd.sublist (List.sublist_append_right _ _)) c hc' x hx

theorem findOid_Isub {s t : Node} (hnd : (nodeOids t).Nodup) (h : Isub s t) :
    findOid t s.data.oid = some s := by
  induction h with
  | refl =>
    cases s with
    | mk d cs =>
      rw [findOid]
      simp only [Node.data_mk]
      rw [if_pos trivial]
  | child hc h ih =>
    rename_i c t
    cases t with
    | mk d cs =>
      rw [nodeOids] at hnd
      have hx : s.data.oid ∈ nodeOids c := Isub_oid_mem h
      have hxl : s.data.oid ∈ nodeListOids cs := (nodeOids_child_sublist hc).mem hx
      rw [findOid, if_neg (fun he => (List.nodup_cons.mp hnd).1 (by rw [he]; exact hxl))]
      rw [findOidL_of_child cs (List.nodup_cons.mp hnd).2 c hc _ hx]
      exact ih ((List.nodup_cons.mp hnd).2.sublist (nodeOids_child_sublist hc))

theorem resolve_Isub {s : Node} (st : St) (hnd : (nodeOids st.doc).Nodup)
    (h : Isub s st.doc) : resolve st s.data.oid = some s := by
  rw [resolve, findOid_Isub hnd h]

theorem nextSibOid_not_mem (t : Node) :
    ∀ x, x ∉ nodeOids t → nextSibOid t x = none := by
  induction t using Node.rec
    (motive_2 := fun l => ∀ x, x ∉ nodeListOids l → nextSibOidL l x = none) with
  | mk d cs ih =>
    intro x hx
    rw [nextSibOid]
    rw [nodeOids] at hx
    exact ih x (fun hm => hx (List.mem_cons_of_mem _ hm))
  | nil =>
    rename_i x hx
    rw [nextSibOidL]
  | cons c cs ihc ihcs =>
    rename_i x hx
    rw [nodeListOids] at hx
    have hxc : x ∉ nodeOids c := fun hm => hx (List.mem_append.mpr (Or.inl hm))
    have hcoid : c.oid ≠ x := by
      intro he
      apply hxc
      rw [← he]
      cases c with
      | mk d cs2 => rw [nodeOids]; exact List.mem_cons_self _ _
    rw [nextSibOidL, if_neg hcoid, ihc x hxc]
    exact ihcs x (fun hm => hx (List.mem_append.mpr (Or.inr hm)))

theorem nextSibOidL_split (l1 : List Node) (c : Node) (l2 : List Node)
    (hnd : (nodeListOids (l1 ++ c :: l2)).Nodup) :
    nextSibOidL (l1 ++ c :: l2) c.data.oid = some (l2.head?.map Node.oid) := by
  induction l1 with
  | nil =>
    rw [List.nil_append, nextSibOidL]
    have : c.oid = c.data.oid := rfl
    rw [if_pos this]
  | cons a l1' ih =>
    rw [List.cons_append, nextSibOidL]
    rw [List.cons_append, nodeListOids] at hnd
    have hcm : c ∈ l1' ++ c :: l2 := List.mem_append.mpr (Or.inr (List.mem_cons_self c l2))
    have hcoid : c.data.oid ∈ nodeOids c := by
      cases c with
      | mk d cs2 => rw [nodeOids]; exact List.mem_cons_self _ _
    have hxm : c.data.oid ∈ nodeListOids (l1' ++ c :: l2) :=
      (nodeOids_child_sublist hcm).mem hcoid
    have hxa : c.data.oid ∉ nodeOids a :=
      fun hm => (List.disjoint_of_nodup_append hnd) hm hxm
    have haoid : a.oid ≠ c.data.oid := by
      intro he
      apply hxa
      rw [← he]
      cases a with
      | mk d cs2 => rw [nodeOids]; exact List.mem_cons_self _ _
    rw [if_neg haoid, nextSibOid_not_mem a _ hxa]
    exact ih (hnd.sublist (List.sublist_append_right _ _))

theorem nextSibOidL_of_child :
    ∀ (cs : List Node), (nodeListOids cs).Nodup → ∀ c' ∈ cs, ∀ x r,
      x ∈ nodeOids c' → c'.data.oid ≠ x → nextSibOid c' x = some r →
      nextSibOidL cs x = some r := by
  intro cs
  induction cs with
  | nil => intro _ c' hc'; exact absurd hc' (List.not_mem_nil c')
  | cons a cs' ih =>
    intro hnd c' hc' x r hx hne hs
    rw [nodeListOids] at hnd
    rw [nextSibOidL]
    rcases List.mem_cons.mp hc' with rfl | hc''
    · rw [if_neg (show ¬ (c'.oid = x) from fun he => hne he), hs]
    · have hxm : x ∈ nodeListOids cs' := (nodeOids_child_sublist hc'').mem hx
      have hxa : x ∉ nodeOids a :=
        fun hm => (List.disjoint_of_nodup_append hnd) hm hxm
      have haoid : a.oid ≠ x := by
        intro he
        apply hxa
        rw [← he]
        cases a with
        | mk d cs2 => rw [nodeOids]; exact List.mem_cons_self _ _
      rw [if_neg haoid, nextSibOid_not_mem a _ hxa]
      exact ih (hnd.sublist (List.sublist_append_right _ _)) c' hc'' x r hx hne hs

theorem Isub_strictOids {fe t c : Node} (h : Isub fe t) (hc : c ∈ fe.children) :
    c.data.oid ∈ nodeListOids t.children := by
  induction h with
  | refl =>
    refine (nodeOids_child_sublist hc).mem ?_
    cases c with
    | mk d cs2 => rw [nodeOids]; exact List.mem_cons_self _ _
  | child hcc h ih =>
    rename_i cc t
    refine (nodeOids_child_sublist hcc).mem ?_
    cases cc with
    | mk d cs2 =>
      rw [nodeOids]
      refine List.mem_cons_of_mem _ ?_
      simpa using ih

theorem nextSibOid_Isub {fe t : Node} (hnd : (nodeOids t).Nodup) (h : Isub fe t)
    (l1 : List Node) (c : Node) (l2 : List Node) (hsplit : fe.children = l1 ++ c :: l2) :
    nextSibOid t c.data.oid = some (l2.head?.map Node.oid) := by
  induction h with
  | refl =>
    cases fe with
    | mk d cs =>
      simp only [Node.children_mk] at hsplit
      subst hsplit
      rw [nextSibOid]
      rw [nodeOids] at hnd
      exact nextSibOidL_split l1 c l2 (List.nodup_cons.mp hnd).2
  | child hcc h ih =>
    rename_i cc t
    cases t with
    | mk d cs =>
      rw [nextSibOid]
      rw [nodeOids] at hnd
      have hndc : (nodeOids cc).Nodup :=
        (List.nodup_cons.mp hnd).2.sublist (nodeOids_child_sublist (by simpa using hcc))
      have hx : c.data.oid ∈ nodeOids cc := by
        have : Isub c cc := Isub_trans (Isub_of_child (hsplit ▸ List.mem_append.mpr
          (Or.inr (List.mem_cons_self c l2)))) h
        exact Isub_oid_mem this
      have hne : cc.data.oid ≠ c.data.oid := by
        have hstrict : c.data.oid ∈ nodeListOids cc.children := Isub_strictOids h
          (hsplit ▸ List.mem_append.mpr (Or.inr (List.mem_cons_self c l2)))
        cases cc with
        | mk dd ccs =>
          rw [nodeOids] at hndc
          simp only [Node.children_mk] at hstrict
          simp only [Node.data_mk]
          exact fun he => (List.nodup_cons.mp hndc).1 (he ▸ hstrict)
      exact nextSibOidL_of_child cs (List.nodup_cons.mp hnd).2 cc (by simpa using hcc)
        c.data.oid _ hx hne (ih hndc)

theorem nextSiblingOf_Isub {fe : Node} (st : St) (hnd : (nodeOids st.doc).Nodup)
    (h : Isub fe st.doc) (l1 : List Node) (c : Node) (l2 : List Node)
    (hsplit : fe.children = l1 ++ c :: l2) :
    nextSiblingOf st c.data.oid = l2.head?.map Node.oid := by
  rw [nextSiblingOf, nextSibOid_Isub hnd h l1 c l2 hsplit]

/-! ### Projections of structural equality and idempotence-readiness -/

theorem structEqB_parts {a b : Node} (h : structEqB a b = true) :
    a.data.nodeType = b.data.nodeType ∧ a.data.nodeName = b.data.nodeName ∧
    a.data.nodeValue = b.data.nodeValue ∧ a.data.attrs = b.data.attrs ∧
    structEqLB a.children b.children = true := by
  cases a with
  | mk d cs =>
    cases b with
    | mk d' cs' =>
      rw [structEqB] at h
      simp only [Bool.and_eq_true, beq_iff_eq] at h
      simp only [Node.data_mk, Node.children_mk]
      exact ⟨h.1.1.1.1, h.1.1.1.2, h.1.1.2, h.1.2, h.2⟩

theorem structEqLB_nil_right {l : List Node} (h : structEqLB l [] = true) : l = [] := by
  cases l with
  | nil => rfl
  | cons c cs => rw [structEqLB] at h; exact Bool.noConfusion h

theorem structEqLB_cons_right {l : List Node} {c' : Node} {cs' : List Node}
    (h : structEqLB l (c' :: cs') = true) :
    ∃ c cs, l = c :: cs ∧ structEqB c c' = true ∧ structEqLB cs cs' = true := by
  cases l with
  | nil => rw [structEqLB] at h; exact Bool.noConfusion h
  | cons c cs =>
    rw [structEqLB] at h
    simp only [Bool.and_eq_true] at h
    exact ⟨c, cs, rfl, h.1, h.2⟩

theorem idemReadyB_parts {a : Node} (h : idemReadyB a = true) :
    (a.data.nodeType = ELEMENT_NODE ∨ a.data.nodeType = TEXT_NODE ∨
      a.data.nodeType = COMMENT_NODE) ∧
    a.data.props.checked = (attrFindByName a.data.attrs "checked").isSome ∧
    a.data.props.disabled = (attrFindByName a.data.attrs "disabled").isSome ∧
    a.data.props.selected = (attrFindByName a.data.attrs "selected").isSome ∧
    a.data.props.value = (if a.data.nodeName = "TEXTAREA"
        then ((a.children.head?.map (fun c => c.data.nodeValue)).getD "")
        else (((attrFindByName a.data.attrs "value").map (fun x => x.value)).getD "")) ∧
    a.data.sameNodeOf = none ∧
    a.data.nodeName ≠ "SELECT" ∧ a.data.nodeName ≠ "OPTION" ∧
    AttrsClean a.data.attrs a.data.attrs ∧
    idemReadyLB a.children = true := by
  cases a with
  | mk d cs =>
    rw [idemReadyB] at h
    simp only [Bool.and_eq_true, Bool.or_eq_true, beq_iff_eq, bne_iff_ne,
      decide_eq_true_eq] at h
    simp only [Node.data_mk, Node.children_mk]
    exact ⟨or_assoc.mp h.1.1.1.1.1.1.1.1.1, h.1.1.1.1.1.1.1.1.2, h.1.1.1.1.1.1.1.2,
      h.1.1.1.1.1.1.2, h.1.1.1.1.1.2, h.1.1.1.1.2, h.1.1.1.2, h.1.1.2, h.1.2, h.2⟩

theorem idemReadyLB_mem {l : List Node} (h : idemReadyLB l = true) :
    ∀ c ∈ l, idemReadyB c = true := by
  induction l with
  | nil => intro c hc; exact absurd hc (List.not_mem_nil c)
  | cons a as ih =>
    rw [idemReadyLB, Bool.and_eq_true] at h
    intro c hc
    rcases List.mem_cons.mp hc with rfl | hc'
    · exact h.1
    · exact ih h.2 c hc'

theorem idemReadyLB_tail {a : Node} {l : List Node} (h : idemReadyLB (a :: l) = true) :
    idemReadyLB l = true := by
  rw [idemReadyLB, Bool.and_eq_true] at h
  exact h.2

/-! ### No-op lemmas: equal inputs leave the state untouched -/

theorem morphAttrsSet_noop (fromOid : Nat) (fe : Node) :
    ∀ (l : List Attr) (st : St), resolve st fromOid = some fe →
      (∀ a ∈ l, getAt fe.data.attrs a = some a.value) →
      morphAttrsSet st fromOid l = st := by
  intro l
  induction l with
  | nil => intro st _ _; rw [morphAttrsSet]
  | cons a rest ih =>
    intro st hres hg
    have hga := hg a (List.mem_cons_self a rest)
    rw [morphAttrsSet]
    cases ha : a.ns with
    | some nsv =>
      rw [getAt, ha] at hga
      simp only [] at hga
      rw [anOf] at hga
      simp only [hres, Option.some_bind, elGetAttributeNS]
      rw [if_neg (fun hc => hc hga)]
      exact ih st hres (fun b hb => hg b (List.mem_cons_of_mem a hb))
    | none =>
      rw [getAt, ha] at hga
      simp only [] at hga
      simp only [hres, Option.some_bind, elGetAttribute]
      rw [if_neg (fun hc => hc hga)]
      exact ih st hres (fun b hb => hg b (List.mem_cons_of_mem a hb))

theorem morphAttrsRemove_noop (fromOid : Nat) (toEl : Node) :
    ∀ (l : List Attr) (st : St),
      (∀ a ∈ l, (match a.ns with
        | some nsv => elHasAttributeNS toEl nsv (if a.localName ≠ "" then a.localName else a.name)
        | none => elHasAttribute toEl a.name) = true) →
      morphAttrsRemove st fromOid toEl l = st := by
  intro l
  induction l with
  | nil => intro st _; rw [morphAttrsRemove]
  | cons a rest ih =>
    intro st hg
    have hga := hg a (List.mem_cons_self a rest)
    rw [morphAttrsRemove]
    cases ha : a.ns with
    | some nsv =>
      rw [ha] at hga
      simp only [] at hga
      simp only []
      rw [if_neg (fun hc => hc hga)]
      exact ih st (fun b hb => hg b (List.mem_cons_of_mem a hb))
    | none =>
      rw [ha] at hga
      simp only [] at hga
      simp only []
      rw [if_neg (fun hc => hc hga)]
      exact ih st (fun b hb => hg b (List.mem_cons_of_mem a hb))

theorem morphAttrsF_noop (st : St) (fromOid : Nat) (toEl fe : Node)
    (hres : resolve st fromOid = some fe)
    (hattrs : fe.data.attrs = toEl.data.attrs)
    (hclean : AttrsClean fe.data.attrs fe.data.attrs) :
    morphAttrsF st fromOid toEl = st := by
  obtain ⟨hnd, _, hcross, hwf⟩ := hclean
  rw [morphAttrsF, hres]
  simp only []
  by_cases hfr : toEl.data.nodeType = DOCUMENT_FRAGMENT_NODE ∨
      fe.data.nodeType = DOCUMENT_FRAGMENT_NODE
  · rw [if_pos hfr]
  · rw [if_neg hfr]
    have hS : ∀ b ∈ fe.data.attrs, b ∈ fe.data.attrs ++ fe.data.attrs :=
      fun b hb => List.mem_append.mpr (Or.inl hb)
    have h1 : morphAttrsSet st fromOid toEl.data.attrs.reverse = st := by
      refine morphAttrsSet_noop fromOid fe toEl.data.attrs.reverse st hres ?_
      intro a hha
      have hafe : a ∈ fe.data.attrs := hattrs ▸ List.mem_reverse.mp hha
      exact getAt_self (fe.data.attrs ++ fe.data.attrs) fe.data.attrs a hS
        (hS a hafe) hafe hnd hcross (fun hn => (hwf a (hS a hafe) hn).1)
    rw [h1, hres]
    simp only []
    refine morphAttrsRemove_noop fromOid toEl fe.data.attrs.reverse st ?_
    intro a hha
    have hafe : a ∈ fe.data.attrs := List.mem_reverse.mp hha
    have hato : a ∈ toEl.data.attrs := hattrs ▸ hafe
    cases ha : a.ns with
    | some nsv =>
      simp only []
      have hlne : a.localName ≠ "" := (hwf a (hS a hafe) (by
        rw [ha]; exact fun h => Option.noConfusion h)).1
      rw [if_pos hlne]
      exact isSome_attrFindByNS_of_mem toEl.data.attrs a nsv hato ha
    | none =>
      simp only []
      exact isSome_attrFindByName_of_mem toEl.data.attrs a hato

theorem syncBooleanAttrProp_noop (st : St) (fromOid : Nat) (toEl fe : Node)
    (get : Props → Bool) (set : Bool → Props → Props) (name : String)
    (hres : resolve st fromOid = some fe)
    (heq : get fe.data.props = get toEl.data.props) :
    syncBooleanAttrProp st fromOid toEl get set name = st := by
  rw [syncBooleanAttrProp, hres]
  simp only []
  rw [if_neg (fun hc => hc heq)]

theorem inputHandler_noop (st : St) (fromOid : Nat) (toEl fe : Node)
    (hres : resolve st fromOid = some fe)
    (hattrs : fe.data.attrs = toEl.data.attrs)
    (hname : fe.data.nodeName ≠ "TEXTAREA") (hname2 : toEl.data.nodeName ≠ "TEXTAREA")
    (hfe : idemReadyB fe = true) (hto : idemReadyB toEl = true) :
    inputHandler st fromOid toEl = st := by
  obtain ⟨_, hc1, hd1, _, hv1, _, _, _, _, _⟩ := idemReadyB_parts hfe
  obtain ⟨_, hc2, hd2, _, hv2, _, _, _, _, _⟩ := idemReadyB_parts hto
  rw [inputHandler]
  rw [syncBooleanAttrProp_noop st fromOid toEl fe _ _ _ hres (by rw [hc1, hc2, hattrs])]
  rw [syncBooleanAttrProp_noop st fromOid toEl fe _ _ _ hres (by rw [hd1, hd2, hattrs])]
  rw [hres]
  simp only []
  have hveq : fe.data.props.value = toEl.data.props.value := by
    rw [hv1, hv2, if_neg hname, if_neg hname2, hattrs]
  rw [if_neg (show ¬(fe.data.props.value ≠ toEl.data.props.value) from fun hc => hc hveq)]
  by_cases hhas : elHasAttribute toEl "value" = true
  · rw [if_neg (show ¬¬(elHasAttribute toEl "value" = true) from fun hc => hc hhas)]
  · have hnot : elHasAttribute fe "value" = false := by
      rw [elHasAttribute, hattrs]
      cases h2 : (attrFindByName toEl.data.attrs "value").isSome with
      | false => rfl
      | true => exact absurd h2 hhas
    rw [if_pos hhas]
    exact stRemoveAttribute_step_absent st fromOid "value" fe hres hnot

theorem textareaHandler_noop (st : St) (fromOid : Nat) (toEl fe : Node)
    (hres : resolve st fromOid = some fe)
    (hname : fe.data.nodeName = "TEXTAREA") (hname2 : toEl.data.nodeName = "TEXTAREA")
    (hheads : (fe.children.head?.map (fun c => c.data.nodeValue)) =
      (toEl.children.head?.map (fun c => c.data.nodeValue)))
    (hfe : idemReadyB fe = true) (hto : idemReadyB toEl = true) :
    textareaHandler st fromOid toEl = st := by
  obtain ⟨_, _, _, _, hv1, _, _, _, _, _⟩ := idemReadyB_parts hfe
  obtain ⟨_, _, _, _, hv2, _, _, _, _, _⟩ := idemReadyB_parts hto
  have hveq : fe.data.props.value = toEl.data.props.value := by
    rw [hv1, hv2, if_pos hname, if_pos hname2, hheads]
  rw [textareaHandler, hres]
  simp only []
  rw [if_neg (fun hc => hc hveq)]
  rw [hres]
  simp only [Option.some_bind]
  cases hh : fe.children.head? with
  | none => rfl
  | some fc =>
    simp only []
    have hold : fc.data.nodeValue = toEl.data.props.value := by
      rw [hv2, if_pos hname2, ← hheads, hh]
      rfl
    rw [if_pos (Or.inl hold)]

theorem applySpecialHandler_noop (st : St) (fromOid : Nat) (toEl fe : Node)
    (hres : resolve st fromOid = some fe)
    (hattrs : fe.data.attrs = toEl.data.attrs)
    (hnameEq : fe.data.nodeName = toEl.data.nodeName)
    (hheads : (fe.children.head?.map (fun c => c.data.nodeValue)) =
      (toEl.children.head?.map (fun c => c.data.nodeValue)))
    (hfe : idemReadyB fe = true) (hto : idemReadyB toEl = true) :
    applySpecialHandler st fromOid toEl = st := by
  obtain ⟨_, _, _, _, _, _, hs1, ho1, _, _⟩ := idemReadyB_parts hfe
  rw [applySpecialHandler, hres]
  simp only []
  rw [if_neg ho1]
  by_cases hin : fe.data.nodeName = "INPUT"
  · rw [if_pos hin]
    exact inputHandler_noop st fromOid toEl fe hres hattrs
      (by rw [hin]; decide)
      (by rw [← hnameEq, hin]; decide) hfe hto
  · rw [if_neg hin]
    by_cases hta : fe.data.nodeName = "TEXTAREA"
    · rw [if_pos hta]
      exact textareaHandler_noop st fromOid toEl fe hres hta (hnameEq ▸ hta) hheads hfe hto
    · rw [if_neg hta, if_neg hs1]

theorem structEqLB_heads {cs cs' : List Node} (h : structEqLB cs cs' = true) :
    cs.head?.map (fun c => c.data.nodeValue) = cs'.head?.map (fun c => c.data.nodeValue) := by
  cases cs with
  | nil =>
    cases cs' with
    | nil => rfl
    | cons c' l' => rw [structEqLB] at h; exact Bool.noConfusion h
  | cons c l =>
    cases cs' with
    | nil => rw [structEqLB] at h; exact Bool.noConfusion h
    | cons c' l' =>
      rw [structEqLB, Bool.and_eq_true] at h
      simp only [List.head?_cons, Option.map_some']
      rw [(structEqB_parts h.1).2.2.1]

theorem getNodeKey_structEq {a b : Node} (h : structEqB a b = true) :
    getNodeKey b = getNodeKey a := by
  obtain ⟨hty, _, _, hattrs, _⟩ := structEqB_parts h
  rw [getNodeKey, getNodeKey, hty, elGetAttribute, elGetAttribute, hattrs]

theorem compareNodeNames_structEq {a b : Node} (h : structEqB a b = true) :
    compareNodeNames a b = true := by
  obtain ⟨_, hnm, _, _, _⟩ := structEqB_parts h
  rw [compareNodeNames]
  simp only [hnm, if_pos]

theorem stpres_refl (st : St) : stpres st st := ⟨rfl, rfl, rfl, rfl⟩

theorem stpres_trans {s1 s2 s3 : St} (h1 : stpres s1 s2) (h2 : stpres s2 s3) : stpres s1 s3 :=
  ⟨h2.1.trans h1.1, h2.2.1.trans h1.2.1, h2.2.2.1.trans h1.2.2.1, h2.2.2.2.trans h1.2.2.2⟩

theorem resolve_of_stpres {s1 s2 : St} (h : stpres s1 s2) (x : Nat) :
    resolve s2 x = resolve s1 x := by
  rw [resolve, resolve, h.1, h.2.2.1]

theorem nodeListOids_children_mem {t : Node} {x : Nat}
    (h : x ∈ nodeListOids t.children) : x ∈ nodeOids t := by
  cases t with
  | mk d cs =>
    rw [nodeOids]
    simp only [Node.children_mk] at h
    exact List.mem_cons_of_mem _ h

/-- The reconciliation pass leaves the document, the mutation trace, limbo
and the removal list untouched when the target equals the live tree, on
idempotence-ready trees.  One statement per walk function, by fuel. -/
theorem idem_main : ∀ f : Nat,
    (∀ (fromOid : Nat) (toEl : Node) (st : St) (fe : Node) (st' : St),
      (nodeOids st.doc).Nodup → Isub fe st.doc → fe.data.oid = fromOid →
      structEqB fe toEl = true → idemReadyB fe = true → idemReadyB toEl = true →
      (∀ o ∈ nodeOids toEl, o ∉ nodeOids st.doc) →
      morphElF f fromOid toEl false st = some st' → stpres st st') ∧
    (∀ (fromOid : Nat) (toEl : Node) (st : St) (fe : Node) (st' : St),
      (nodeOids st.doc).Nodup → Isub fe st.doc → fe.data.oid = fromOid →
      structEqB fe toEl = true → idemReadyB fe = true → idemReadyB toEl = true →
      (∀ o ∈ nodeOids toEl, o ∉ nodeOids st.doc) →
      morphChildrenF f fromOid toEl st = some st' → stpres st st') ∧
    (∀ (fromElOid : Nat) (fe : Node) (toList pre fcs : List Node) (st st' : St)
        (cur' : Option Nat),
      (nodeOids st.doc).Nodup → Isub fe st.doc → fe.data.oid = fromElOid →
      fe.children = pre ++ fcs →
      structEqLB fcs toList = true → idemReadyLB fcs = true → idemReadyLB toList = true →
      (∀ o ∈ nodeListOids toList, o ∉ nodeOids st.doc) →
      outerF f fromElOid toList (fcs.head?.map Node.oid) st = some (st', cur') →
      stpres st st' ∧ cur' = none) ∧
    (∀ (fromElOid : Nat) (fe toChild : Node) (pre : List Node) (c : Node)
        (rest : List Node) (st st' : St) (res : Option Nat),
      (nodeOids st.doc).Nodup → Isub fe st.doc → fe.data.oid = fromElOid →
      fe.children = pre ++ c :: rest →
      structEqB c toChild = true → idemReadyB c = true → idemReadyB toChild = true →
      (∀ o ∈ nodeOids toChild, o ∉ nodeOids st.doc) →
      innerScanF f fromElOid toChild (some c.data.oid) st = some (st', res) →
      stpres st st' ∧ res = rest.head?.map Node.oid) ∧
    (∀ (fromElOid : Nat) (fe toChild : Node) (pre : List Node) (c : Node)
        (rest : List Node) (st st' : St) (stepres : StepRes),
      (nodeOids st.doc).Nodup → Isub fe st.doc → fe.data.oid = fromElOid →
      fe.children = pre ++ c :: rest →
      structEqB c toChild = true → idemReadyB c = true → idemReadyB toChild = true →
      (∀ o ∈ nodeOids toChild, o ∉ nodeOids st.doc) →
      innerStepF f fromElOid toChild c.data.oid st = some (st', stepres) →
      stpres st st' ∧ stepres = .toNext (rest.head?.map Node.oid)) ∧
    (∀ (fromElOid : Nat) (st st' : St),
      cleanupFromElF f fromElOid none st = some st' → st' = st) := by
  intro f
  induction f with
  | zero =>
    refine ⟨?_, ?_, ?_, ?_, ?_, ?_⟩
    · intro _ _ _ _ _ _ _ _ _ _ _ _ hm; rw [morphElF] at hm; exact Option.noConfusion hm
    · intro _ _ _ _ _ _ _ _ _ _ _ _ hm; rw [morphChildrenF] at hm; exact Option.noConfusion hm
    · intro _ _ _ _ _ _ _ _ _ _ _ _ _ _ _ _ hm
      rw [outerF.eq_def] at hm
      simp only [] at hm
      exact Option.noConfusion hm
    · intro _ _ _ _ _ _ _ _ _ _ _ _ _ _ _ _ _ hm
      rw [innerScanF.eq_def] at hm
      simp only [] at hm
      exact Option.noConfusion hm
    · intro _ _ _ _ _ _ _ _ _ _ _ _ _ _ _ _ _ hm
      rw [innerStepF.eq_def] at hm
      simp only [] at hm
      exact Option.noConfusion hm
    · intro _ _ _ hm; rw [cleanupFromElF] at hm; exact Option.noConfusion hm
  | succ f ih =>
    obtain ⟨ihEl, ihCh, ihOut, ihScan, ihStep, ihCl⟩ := ih
    have hcl1 : ∀ (fromElOid : Nat) (st st' : St),
        cleanupFromElF (f + 1) fromElOid none st = some st' → st' = st := by
      intro fromElOid st st' hm
      rw [cleanupFromElF] at hm
      cases hm
      rfl
    refine ⟨?_, ?_, ?_, ?_, ?_, hcl1⟩
    -- morphElF
    · intro fromOid toEl st fe st' hnd hsub hoid hst hif hit hdisj hm
      have hres : resolve st fromOid = some fe := by
        rw [← hoid]
        exact resolve_Isub st hnd hsub
      obtain ⟨hty, hnm, hnv, hattrs, hch⟩ := structEqB_parts hst
      have hclean := (idemReadyB_parts hif).2.2.2.2.2.2.2.2.1
      rw [morphElF] at hm
      rw [if_pos (show ¬ (false = true) from fun h => Bool.noConfusion h)] at hm
      cases hk : getNodeKey toEl with
      | some k =>
        rw [hk] at hm
        simp only [] at hm
        have hkpres : stpres st (⟨st.doc, st.limbo, lkDel st.lookup k, st.removals,
          st.trace⟩ : St) := ⟨rfl, rfl, rfl, rfl⟩
        rw [morphAttrsF_noop (⟨st.doc, st.limbo, lkDel st.lookup k, st.removals,
          st.trace⟩ : St) fromOid toEl fe hres hattrs hclean] at hm
        rw [show resolve (⟨st.doc, st.limbo, lkDel st.lookup k, st.removals,
          st.trace⟩ : St) fromOid = some fe from hres] at hm
        simp only [] at hm
        by_cases hta : fe.data.nodeName = "TEXTAREA"
        · rw [if_neg (show ¬ (fe.data.nodeName ≠ "TEXTAREA") from fun h => h hta)] at hm
          rw [textareaHandler_noop (⟨st.doc, st.limbo, lkDel st.lookup k, st.removals,
            st.trace⟩ : St) fromOid toEl fe hres hta (hnm ▸ hta)
            (structEqLB_heads hch) hif hit] at hm
          cases hm
          exact hkpres
        · rw [if_pos hta] at hm
          exact stpres_trans hkpres
            (ihCh fromOid toEl _ fe st' hnd hsub hoid hst hif hit hdisj hm)
      | none =>
        rw [hk] at hm
        simp only [] at hm
        rw [morphAttrsF_noop st fromOid toEl fe hres hattrs hclean] at hm
        rw [hres] at hm
        simp only [] at hm
        by_cases hta : fe.data.nodeName = "TEXTAREA"
        · rw [if_neg (show ¬ (fe.data.nodeName ≠ "TEXTAREA") from fun h => h hta)] at hm
          rw [textareaHandler_noop st fromOid toEl fe hres hta (hnm ▸ hta)
            (structEqLB_heads hch) hif hit] at hm
          cases hm
          exact stpres_refl st
        · rw [if_pos hta] at hm
          exact ihCh fromOid toEl st fe st' hnd hsub hoid hst hif hit hdisj hm
    -- morphChildrenF
    · intro fromOid toEl st fe st' hnd hsub hoid hst hif hit hdisj hm
      have hres : resolve st fromOid = some fe := by
        rw [← hoid]
        exact resolve_Isub st hnd hsub
      obtain ⟨hty, hnm, hnv, hattrs, hch⟩ := structEqB_parts hst
      rw [morphChildrenF] at hm
      have hfc : firstChildOidOf st fromOid = fe.children.head?.map Node.oid := by
        rw [firstChildOidOf, hres]
        rfl
      rw [hfc] at hm
      cases ho : outerF f fromOid toEl.children (fe.children.head?.map Node.oid) st with
      | none => rw [ho] at hm; exact Option.noConfusion hm
      | some pr =>
        obtain ⟨st1, cur1⟩ := pr
        rw [ho] at hm
        simp only [] at hm
        obtain ⟨hp1, hc1⟩ := ihOut fromOid fe toEl.children [] fe.children st st1 cur1
          hnd hsub hoid (List.nil_append fe.children).symm hch
          (idemReadyB_parts hif).2.2.2.2.2.2.2.2.2
          (idemReadyB_parts hit).2.2.2.2.2.2.2.2.2
          (fun o hmem => hdisj o (nodeListOids_children_mem hmem)) ho
        subst hc1
        cases hcl : cleanupFromElF f fromOid none st1 with
        | none => rw [hcl] at hm; exact Option.noConfusion hm
        | some st2 =>
          rw [hcl] at hm
          simp only [] at hm
          have h2 : st2 = st1 := ihCl fromOid st1 st2 hcl
          subst h2
          cases hm
          refine stpres_trans hp1 ?_
          rw [applySpecialHandler_noop st2 fromOid toEl fe
            ((resolve_of_stpres hp1 fromOid).trans hres) hattrs hnm
            (structEqLB_heads hch) hif hit]
          exact stpres_refl st2
    -- outerF
    · intro fromElOid fe toList pre fcs st st' cur' hnd hsub hoid hsplit hstl hifl hitl
        hdisj hm
      rw [outerF.eq_def] at hm
      simp only [] at hm
      cases toList with
      | nil =>
        have hfcs : fcs = [] := structEqLB_nil_right hstl
        subst hfcs
        simp only [] at hm
        cases hm
        exact ⟨stpres_refl st, rfl⟩
      | cons toChild restTo =>
        obtain ⟨c, fcs', hfcs, hstc, hstl'⟩ := structEqLB_cons_right hstl
        subst hfcs
        simp only [List.head?_cons, Option.map_some'] at hm
        cases hscan : innerScanF f fromElOid toChild (some c.oid) st with
        | none => rw [hscan] at hm; exact Option.noConfusion hm
        | some pr =>
          obtain ⟨st1, cur1⟩ := pr
          rw [hscan] at hm
          simp only [] at hm
          have hdisjc : ∀ o ∈ nodeOids toChild, o ∉ nodeOids st.doc := by
            intro o ho
            refine hdisj o ?_
            rw [nodeListOids]
            exact List.mem_append.mpr (Or.inl ho)
          obtain ⟨hp1, hc1⟩ := ihScan fromElOid fe toChild pre c fcs' st st1 cur1
            hnd hsub hoid hsplit hstc
            (by rw [idemReadyLB, Bool.and_eq_true] at hifl; exact hifl.1)
            (by rw [idemReadyLB, Bool.and_eq_true] at hitl; exact hitl.1)
            hdisjc hscan
          subst hc1
          have hnd1 : (nodeOids st1.doc).Nodup := by rw [hp1.1]; exact hnd
          have hsub1 : Isub fe st1.doc := by rw [hp1.1]; exact hsub
          have hdisj1 : ∀ o ∈ nodeListOids restTo, o ∉ nodeOids st1.doc := by
            rw [hp1.1]
            intro o ho
            refine hdisj o ?_
            rw [nodeListOids]
            exact List.mem_append.mpr (Or.inr ho)
          obtain ⟨hp2, hc2⟩ := ihOut fromElOid fe restTo (pre ++ [c]) fcs' st1 st' cur'
            hnd1 hsub1 hoid (by rw [hsplit, List.append_assoc]; rfl) hstl'
            (idemReadyLB_tail hifl) (idemReadyLB_tail hitl) hdisj1 hm
          exact ⟨stpres_trans hp1 hp2, hc2⟩
    -- innerScanF
    · intro fromElOid fe toChild pre c rest st st' res hnd hsub hoid hsplit hstc hic hitc
        hdisj hm
      rw [innerScanF.eq_def] at hm
      simp only [] at hm
      cases hstep : innerStepF f fromElOid toChild c.data.oid st with
      | none => rw [hstep] at hm; exact Option.noConfusion hm
      | some pr =>
        obtain ⟨st1, sres⟩ := pr
        rw [hstep] at hm
        obtain ⟨hp1, hs1⟩ := ihStep fromElOid fe toChild pre c rest st st1 sres
          hnd hsub hoid hsplit hstc hic hitc hdisj hstep
        subst hs1
        simp only [] at hm
        cases hm
        exact ⟨hp1, rfl⟩
    -- innerStepF
    · intro fromElOid fe toChild pre c rest st st' stepres hnd hsub hoid hsplit hstc hic
        hitc hdisj hm
      have hsubc : Isub c st.doc :=
        Isub_trans (Isub_of_child (hsplit ▸ List.mem_append.mpr
          (Or.inr (List.mem_cons_self c rest)))) hsub
      have hresc : resolve st c.data.oid = some c := resolve_Isub st hnd hsubc
      have hnext : nextSiblingOf st c.data.oid = rest.head?.map Node.oid :=
        nextSiblingOf_Isub st hnd hsub pre c rest hsplit
      obtain ⟨htyc, hnmc, hnvc, hattrsc, hchc⟩ := structEqB_parts hstc
      obtain ⟨hkinds, _, _, _, _, _, _, _, _, _⟩ := idemReadyB_parts hic
      obtain ⟨_, _, _, _, _, hsno, _, _, _, _⟩ := idemReadyB_parts hitc
      have hsame : isSameNodeB toChild c = false := by
        rw [isSameNodeB]
        have h1 : (toChild.oid == c.oid) = false := by
          refine beq_eq_false_iff_ne.mpr ?_
          intro he
          refine hdisj toChild.data.oid ?_
            (by rw [show toChild.data.oid = c.data.oid from he]; exact Isub_oid_mem hsubc)
          cases toChild with
          | mk d cs => rw [nodeOids]; exact List.mem_cons_self _ _
        have h2 : (toChild.data.sameNodeOf == some c.oid) = false := by
          rw [hsno]
          rfl
        rw [h1, h2]
        rfl
      rw [innerStepF.eq_def] at hm
      simp only [] at hm
      rw [hresc] at hm
      simp only [] at hm
      rw [hsame] at hm
      simp only [Bool.false_eq_true, if_false] at hm
      rw [if_pos htyc] at hm
      rcases hkinds with hel | htx | hcm
      · -- element/element
        rw [if_pos (htyc ▸ hel)] at hm
        have hkeys : getNodeKey toChild = getNodeKey c := getNodeKey_structEq hstc
        have hcmp : compareNodeNames c toChild = true := compareNodeNames_structEq hstc
        cases hk : getNodeKey toChild with
        | some tk =>
          rw [hk] at hm
          simp only [] at hm
          rw [if_neg (show ¬ (some tk ≠ getNodeKey c) from
            fun h => h (hk.symm.trans hkeys))] at hm
          simp only [] at hm
          rw [hresc] at hm
          simp only [hcmp, Bool.not_false, Bool.true_and] at hm
          rw [if_pos trivial] at hm
          cases hmor : morphElF f c.data.oid toChild false st with
          | none => rw [hmor] at hm; exact Option.noConfusion hm
          | some st2 =>
            rw [hmor] at hm
            simp only [] at hm
            cases hm
            refine ⟨ihEl c.data.oid toChild st c st' hnd hsubc rfl hstc hic hitc hdisj hmor,
              by rw [hnext]⟩
        | none =>
          rw [hk] at hm
          have hknone : getNodeKey c = none := hkeys.symm.trans hk
          simp only [] at hm
          rw [hknone] at hm
          simp only [] at hm
          rw [hresc] at hm
          simp only [hcmp, Bool.not_false, Bool.true_and] at hm
          rw [if_pos trivial] at hm
          cases hmor : morphElF f c.data.oid toChild false st with
          | none => rw [hmor] at hm; exact Option.noConfusion hm
          | some st2 =>
            rw [hmor] at hm
            simp only [] at hm
            cases hm
            refine ⟨ihEl c.data.oid toChild st c st' hnd hsubc rfl hstc hic hitc hdisj hmor,
              by rw [hnext]⟩
      · -- text/text
        rw [if_neg (by rw [htx]; decide)] at hm
        rw [if_pos (Or.inl htx)] at hm
        rw [if_neg (show ¬ (c.data.nodeValue ≠ toChild.data.nodeValue) from
          fun h => h hnvc)] at hm
        cases hm
        exact ⟨stpres_refl st, by rw [hnext]⟩
      · -- comment/comment
        rw [if_neg (by rw [hcm]; decide)] at hm
        rw [if_pos (Or.inr hcm)] at hm
        rw [if_neg (show ¬ (c.data.nodeValue ≠ toChild.data.nodeValue) from
          fun h => h hnvc)] at hm
        cases hm
        exact ⟨stpres_refl st, by rw [hnext]⟩

/-- C3 counterexample: a live checkbox whose `checked` property has diverged
from its `checked` attribute (the user toggled it), reconciled against a
target that is attribute-for-attribute and child-for-child equal — the pass
still emits an attribute write (the INPUT special handler syncs the
differing property and mirrors it into the attribute), refuting
unconditional observational idempotence. -/
theorem C3_counterexample :
    structEqB cxC3From cxC3To = true ∧
    (morphdomF 20 cxC3From cxC3To ⟨false⟩ false 999).map (fun r => r.1.trace) =
      some [.setAttr 2 none "checked" ""] := by
  decide

/-- C3 amended: reconciliation is observationally idempotent on live trees
whose form-control properties agree with their attributes exactly as a
fresh parse sets them (no user-diverged checkbox/input state), with
element/text/comment nodes only, unique node identities, no isSameNode
proxies, clean attribute lists, and no SELECT/OPTION elements (whose
handlers rewrite selection properties unconditionally): against a
structurally equal target with fresh identities, a completed pass emits no
mutation record at all, leaves the document tree exactly as it was, moves
nothing to limbo, defers no keyed removal, and returns the live root. -/
theorem C3_amended (f : Nat) (fromNode toNode : Node) (hasParent : Bool) (freshOid : Nat)
    (hel : fromNode.data.nodeType = ELEMENT_NODE)
    (hst : structEqB fromNode toNode = true)
    (hif : idemReadyB fromNode = true) (hit : idemReadyB toNode = true)
    (hnd : (nodeOids fromNode).Nodup)
    (hdisj : ∀ o ∈ nodeOids toNode, o ∉ nodeOids fromNode) :
    ∀ st' res, morphdomF f fromNode toNode ⟨false⟩ hasParent freshOid = some (st', res) →
      st'.trace = [] ∧ st'.doc = fromNode ∧ st'.limbo = [] ∧ st'.removals = [] ∧
      res = some fromNode.data.oid := by
  intro st' res hm
  obtain ⟨hty, hnm, _, _, _⟩ := structEqB_parts hst
  rw [morphdomF] at hm
  rw [if_neg (show ¬ (toNode.data.nodeType = DOCUMENT_FRAGMENT_NODE) by
    rw [← hty, hel]; decide)] at hm
  rw [if_pos (show ¬ (false = true) from fun h => Bool.noConfusion h)] at hm
  rw [if_pos hel] at hm
  rw [if_pos (hty ▸ hel)] at hm
  rw [if_neg (show ¬ ¬ (compareNodeNames fromNode toNode = true) from
    fun h => h (compareNodeNames_structEq hst))] at hm
  rw [mainPathF] at hm
  have hToOid : toNode.data.oid ∈ nodeOids toNode := by
    cases toNode with
    | mk d cs => rw [nodeOids]; exact List.mem_cons_self _ _
  have hFromOid : fromNode.data.oid ∈ nodeOids fromNode := by
    cases fromNode with
    | mk d cs => rw [nodeOids]; exact List.mem_cons_self _ _
  rw [if_neg (show ¬ (fromNode.oid = toNode.oid) from
    fun he => hdisj toNode.data.oid hToOid (by
      rw [show toNode.data.oid = fromNode.data.oid from he.symm]; exact hFromOid))] at hm
  rw [if_neg (show ¬ ((toNode.data.sameNodeOf == some fromNode.oid) = true) by
    rw [(idemReadyB_parts hit).2.2.2.2.2.1]; exact fun h => Bool.noConfusion h)] at hm
  cases hmor : morphElF f fromNode.oid toNode false
      ⟨fromNode, [], indexTreeF fromNode [], [], []⟩ with
  | none => rw [hmor] at hm; exact Option.noConfusion hm
  | some st1 =>
    rw [hmor] at hm
    simp only [] at hm
    have hp : stpres (⟨fromNode, [], indexTreeF fromNode [], [], []⟩ : St) st1 :=
      (idem_main f).1 fromNode.oid toNode
        (⟨fromNode, [], indexTreeF fromNode [], [], []⟩ : St) fromNode st1
        hnd (Isub.refl fromNode) rfl hst hif hit hdisj hmor
    rw [finishPath] at hm
    rw [if_neg (show ¬ (¬ (false = true) ∧ fromNode.oid ≠ fromNode.oid ∧ hasParent = true)
      from fun hc => hc.2.1 rfl)] at hm
    rw [show cleanupKeyedF st1 = st1 by
      rw [cleanupKeyedF, show st1.removals = [] from hp.2.2.2]
      rfl] at hm
    cases hm
    exact ⟨hp.2.1, hp.1, hp.2.2.1, hp.2.2.2, rfl⟩

/-- C3 witness: the amended idempotence applied to a concrete two-level
tree (a paragraph of text inside a container): the completed pass emits
nothing and returns the untouched live root. -/
theorem C3_witness :
    (morphdomF 20 cxC3WFrom cxC3WTo ⟨false⟩ false 999).map (fun r =>
      (r.1.trace, r.1.doc, r.1.limbo, r.1.removals, r.2)) =
      some ([], cxC3WFrom, [], [], some 1) := by
  cases hrun : morphdomF 20 cxC3WFrom cxC3WTo ⟨false⟩ false 999 with
  | none => exact absurd hrun (by decide)
  | some pr =>
    obtain ⟨st1, res⟩ := pr
    obtain ⟨h1, h2, h3, h4, h5⟩ := C3_amended 20 cxC3WFrom cxC3WTo false 999
      (by decide) (by decide) (by decide) (by decide) (by decide) (by decide) st1 res hrun
    rw [Option.map_some', h1, h2, h3, h4, h5]
    rfl


/-! ### C1: keyed identity preservation -/

theorem findOidL_not_mem : ∀ (l : List Node) (x : Nat), x ∉ nodeListOids l → findOidL l x = none
  | [], _, _ => by rw [findOidL]
  | c :: cs, x, hx => by
    rw [nodeListOids] at hx
    rw [findOidL, findOid_not_mem c x (fun hm => hx (List.mem_append.mpr (Or.inl hm)))]
    exact findOidL_not_mem cs x (fun hm => hx (List.mem_append.mpr (Or.inr hm)))

theorem findOidL_mem_of_some {l : List Node} {x : Nat} {n : Node}
    (h : findOidL l x = some n) : x ∈ nodeListOids l := by
  by_cases hm : x ∈ nodeListOids l
  · exact hm
  · rw [findOidL_not_mem l x hm] at h
    exact Option.noConfusion h

theorem oid_mem_nodeOids (t : Node) : t.data.oid ∈ nodeOids t := by
  cases t with
  | mk d cs =>
    rw [nodeOids]
    exact List.mem_cons_self _ _

/-- The subtree detached by `detachOid` is exactly the one `findOid` sees,
when node identities are unique. -/
theorem detachOid_find (t : Node) :
    (nodeOids t).Nodup → ∀ x p n, (detachOid t x).2 = some (p, n) → findOid t x = some n := by
  induction t using Node.rec
    (motive_2 := fun l => (nodeListOids l).Nodup →
      ∀ pa x p n, (detachOidL l pa x).2 = some (p, n) → findOidL l x = some n) with
  | mk d cs ih =>
    intro hnd x p n hm
    rw [nodeOids] at hnd
    rw [detachOid] at hm
    cases hd : detachOidL cs d.oid x with
    | mk cs' r =>
      rw [hd] at hm
      simp only [] at hm
      have hfl : findOidL cs x = some n :=
        ih (List.nodup_cons.mp hnd).2 d.oid x p n (by rw [hd]; exact hm)
      have hxm : x ∈ nodeListOids cs := findOidL_mem_of_some hfl
      rw [findOid, if_neg (fun (he : d.oid = x) =>
        (List.nodup_cons.mp hnd).1 (by rw [he]; exact hxm))]
      exact hfl
  | nil =>
    rename_i hnd pa x p n hm
    rw [detachOidL] at hm
    exact Option.noConfusion hm
  | cons c cs ihc ihcs =>
    rename_i hnd pa x p n hm
    rw [nodeListOids] at hnd
    have hdisj := List.disjoint_of_nodup_append hnd
    have hndc : (nodeOids c).Nodup := hnd.of_append_left
    have hndcs : (nodeListOids cs).Nodup := hnd.of_append_right
    rw [detachOidL] at hm
    by_cases hcx : c.oid = x
    · rw [if_pos hcx] at hm
      cases hd : detachOidL cs pa x with
      | mk cs' r2 =>
        rw [hd] at hm
        simp only [] at hm
        cases hr2 : r2 with
        | some r' =>
          rw [hr2] at hm
          simp only [] at hm
          have hfl : findOidL cs x = some n :=
            ihcs hndcs pa x p n (by rw [hd]; simp only []; rw [hr2]; exact hm)
          have hxm : x ∈ nodeListOids cs := findOidL_mem_of_some hfl
          have hcx' : c.data.oid = x := hcx
          exact absurd hxm (hdisj (show x ∈ nodeOids c by
            rw [← hcx']; exact oid_mem_nodeOids c))
        | none =>
          rw [hr2] at hm
          simp only [] at hm
          cases hm
          rw [findOidL]
          cases c with
          | mk dc csc =>
            rw [findOid, if_pos (show dc.oid = x from hcx)]
    · rw [if_neg hcx] at hm
      cases hdc : detachOid c x with
      | mk c' r =>
        rw [hdc] at hm
        simp only [] at hm
        cases hd : detachOidL cs pa x with
        | mk cs' r2 =>
          rw [hd] at hm
          simp only [] at hm
          cases hr : r with
          | some r' =>
            rw [hr] at hm
            simp only [] at hm
            have hfc : findOid c x = some n :=
              ihc hndc x p n (by rw [hdc]; simp only []; rw [hr]; exact hm)
            rw [findOidL, hfc]
          | none =>
            rw [hr] at hm
            simp only [] at hm
            have hfl : findOidL cs x = some n :=
              ihcs hndcs pa x p n (by rw [hd]; simp only []; exact hm)
            have hxc : x ∉ nodeOids c := by
              intro hmem
              have hs := detachOid_complete c x (fun he => hcx he) hmem
              rw [hdc] at hs
              simp only [hr] at hs
              exact Bool.noConfusion hs
            rw [findOidL, findOid_not_mem c x hxc]
            exact hfl

theorem insertUnder_ok (t : Node) :
    ∀ p b n, p ∈ nodeOids t → (insertUnder t p b n).2 = true := by
  induction t using Node.rec
    (motive_2 := fun l => ∀ p b n, p ∈ nodeListOids l → (insertUnderL l p b n).2 = true) with
  | mk d cs ih =>
    intro p b n hp
    rw [insertUnder.eq_def]
    simp only []
    by_cases hdp : d.oid = p
    · rw [if_pos hdp]
      cases b with
      | none => rfl
      | some bo =>
        simp only []
        by_cases ha : cs.any (fun c => c.oid == bo) = true
        · rw [if_pos ha]
        · rw [if_neg ha]
    · rw [if_neg hdp]
      rw [nodeOids] at hp
      rcases List.mem_cons.mp hp with he | hm
      · exact absurd he.symm hdp
      · cases hl : insertUnderL cs p b n with
        | mk cs' ok =>
          have := ih p b n hm
          rw [hl] at this
          exact this
  | nil =>
    rename_i p b n hp
    rw [nodeListOids] at hp
    exact absurd hp (List.not_mem_nil p)
  | cons c cs ihc ihcs =>
    rename_i p b n hp
    rw [nodeListOids] at hp
    rw [insertUnderL]
    cases hi : insertUnder c p b n with
    | mk c' tv =>
      cases tv with
      | true => rfl
      | false =>
        simp only []
        have hpc : p ∉ nodeOids c := by
          intro hm
          have := ihc p b n hm
          rw [hi] at this
          exact Bool.noConfusion this
        have hpcs : p ∈ nodeListOids cs := by
          rcases List.mem_append.mp hp with h1 | h2
          · exact absurd h1 hpc
          · exact h2
        cases hl : insertUnderL cs p b n with
        | mk cs' ok =>
          have := ihcs p b n hpcs
          rw [hl] at this
          exact this

theorem findOidL_append (l1 l2 : List Node) (x : Nat) :
    findOidL (l1 ++ l2) x =
      (match findOidL l1 x with
       | some r => some r
       | none => findOidL l2 x) := by
  induction l1 with
  | nil => rw [List.nil_append, findOidL]
  | cons c cs ih =>
    rw [List.cons_append, findOidL, findOidL]
    cases hf : findOid c x with
    | some r => rfl
    | none =>
      simp only []
      exact ih

theorem findOid_self (n : Node) (x : Nat) (hx : n.data.oid = x) : findOid n x = some n := by
  cases n with
  | mk d cs => rw [findOid, if_pos (show d.oid = x from hx)]

theorem findOidL_insertBeforeList (l : List Node) (bo : Nat) (n : Node) (x : Nat)
    (hx : n.data.oid = x) (hnm : x ∉ nodeListOids l) :
    findOidL (insertBeforeList l bo n) x = some n := by
  induction l with
  | nil =>
    rw [insertBeforeList, findOidL, findOid_self n x hx]
  | cons c cs ih =>
    rw [nodeListOids] at hnm
    rw [insertBeforeList]
    by_cases hc : c.oid = bo
    · rw [if_pos hc, findOidL, findOid_self n x hx]
    · rw [if_neg hc, findOidL,
        findOid_not_mem c x (fun hm => hnm (List.mem_append.mpr (Or.inl hm)))]
      exact ih (fun hm => hnm (List.mem_append.mpr (Or.inr hm)))

theorem insertUnder_find (t : Node) :
    ∀ p b n x, n.data.oid = x → x ∉ nodeOids t → (insertUnder t p b n).2 = true →
      findOid (insertUnder t p b n).1 x = some n := by
  induction t using Node.rec
    (motive_2 := fun l => ∀ p b n x, n.data.oid = x → x ∉ nodeListOids l →
      (insertUnderL l p b n).2 = true →
      findOidL (insertUnderL l p b n).1 x = some n) with
  | mk d cs ih =>
    intro p b n x hx hnm htv
    rw [nodeOids] at hnm
    have hdx : ¬ (d.oid = x) := fun he => hnm (List.mem_cons.mpr (Or.inl he.symm))
    have hcsx : x ∉ nodeListOids cs := fun hm => hnm (List.mem_cons_of_mem _ hm)
    rw [insertUnder.eq_def]
    simp only []
    by_cases hdp : d.oid = p
    · rw [if_pos hdp]
      cases b with
      | none =>
        simp only []
        rw [findOid, if_neg hdx, findOidL_append, findOidL_not_mem cs x hcsx]
        simp only []
        rw [findOidL, findOid_self n x hx]
      | some bo =>
        simp only []
        by_cases ha : cs.any (fun c => c.oid == bo) = true
        · rw [if_pos ha]
          simp only []
          rw [findOid, if_neg hdx]
          exact findOidL_insertBeforeList cs bo n x hx hcsx
        · rw [if_neg ha]
          simp only []
          rw [findOid, if_neg hdx, findOidL_append, findOidL_not_mem cs x hcsx]
          simp only []
          rw [findOidL, findOid_self n x hx]
    · rw [if_neg hdp]
      rw [insertUnder.eq_def] at htv
      simp only [] at htv
      rw [if_neg hdp] at htv
      cases hl : insertUnderL cs p b n with
      | mk cs' ok =>
        rw [hl] at htv
        simp only [] at htv
        simp only []
        rw [findOid, if_neg hdx]
        have := ih p b n x hx hcsx (by rw [hl]; exact htv)
        rw [hl] at this
        exact this
  | nil =>
    rename_i p b n x hx hnm htv
    rw [insertUnderL] at htv
    exact Bool.noConfusion htv
  | cons c cs ihc ihcs =>
    rename_i p b n x hx hnm htv
    rw [nodeListOids] at hnm
    have hxc : x ∉ nodeOids c := fun hm => hnm (List.mem_append.mpr (Or.inl hm))
    have hxcs : x ∉ nodeListOids cs := fun hm => hnm (List.mem_append.mpr (Or.inr hm))
    rw [insertUnderL] at htv ⊢
    cases hi : insertUnder c p b n with
    | mk c' tv =>
      rw [hi] at htv
      cases tv with
      | true =>
        simp only [] at htv ⊢
        rw [findOidL]
        have := ihc p b n x hx hxc (by rw [hi])
        rw [hi] at this
        simp only [] at this
        rw [this]
      | false =>
        simp only [] at htv ⊢
        cases hl : insertUnderL cs p b n with
        | mk cs' ok =>
          rw [hl] at htv
          simp only [] at htv
          simp only []
          rw [findOidL, findOid_not_mem c x hxc]
          have := ihcs p b n x hx hxcs (by rw [hl]; exact htv)
          rw [hl] at this
          exact this

/-- `insertBefore`/`appendChild` relocation via `stMoveInto` preserves the
moved node's identity: the exact subtree (every property included) found at
the old position reappears at the new one. -/
theorem stMoveInto_findOid (st : St) (p : Nat) (b : Option Nat) (m : Nat)
    (hnd : (nodeOids st.doc).Nodup)
    (hroot : st.doc.data.oid ≠ m) (hmem : docContains st m = true)
    (hp : p ∈ nodeOids (detachOid st.doc m).1) :
    findOid (stMoveInto st p b m).doc m = findOid st.doc m := by
  obtain ⟨pp, n, hr, hno⟩ := detachOid_found m st.doc hroot hmem
  rw [stMoveInto, stDetach, if_neg (show ¬ (st.doc.oid = m) from hroot)]
  cases hd : detachOid st.doc m with
  | mk doc' r =>
    rw [hd] at hr hp
    simp only [] at hr hp
    rw [hr]
    simp only []
    rw [stInsertValue]
    simp only [stEmit]
    have hnm : m ∉ nodeOids doc' := by
      have := detachOid_removes st.doc m hroot
      rw [hd] at this
      exact this
    have hok : (insertUnder doc' p b n).2 = true := insertUnder_ok doc' p b n hp
    cases hi : insertUnder doc' p b n with
    | mk doc'' tv =>
      rw [hi] at hok
      simp only [] at hok
      cases hok
      simp only []
      have hfind := insertUnder_find doc' p b n m hno hnm (by rw [hi])
      rw [hi] at hfind
      simp only [] at hfind
      rw [hfind]
      exact (detachOid_find st.doc hnd m pp n (by rw [hd]; exact hr)).symm

/-- C1 counterexample: an element keyed `k` appears in both trees, but its
tag name changed from P to SPAN.  The pass discards the live keyed instance
(oid 2) and grafts a newly created node (oid 101) into the final position:
key preservation fails when the keyed element's node name changes. -/
theorem C1_counterexample :
    getNodeKey cxC1FromKeyed = some "k" ∧ getNodeKey cxC1ToKeyed = some "k" ∧
    (morphdomF 20 cxC1From cxC1To ⟨false⟩ false 999).map
      (fun r => ((findOid r.1.doc 1).map (fun nd => nd.children.map Node.oid),
                 (findOid r.1.doc 2).isSome, r.2)) =
      some (some [101], false, some 1) := by
  decide

/-- C1 amended: keyed identity is preserved in each placement path *provided
the node names stay compatible*.  (A) an in-place keyed match morphs the
live node `c` itself; (B) a keyed match found elsewhere in the index is
relocated via `insertBefore` — the identical instance (every property
included) survives the move and is the subject of the morph, no new node is
created; (C) when the live children are exhausted, the indexed live node is
appended and morphed, again surviving intact; (D) a fresh node is grafted
only when the key index has no entry for the key (the name-incompatibility
counterexample shows the other fresh-graft cause). -/
theorem C1_amended (f : Nat) (fromElOid : Nat) (toChild : Node) (c : Nat) (st : St)
    (cNode : Node) (k : String) (m : Nat)
    (hnd : (nodeOids st.doc).Nodup)
    (hres : resolve st c = some cNode)
    (hsame : isSameNodeB toChild cNode = false)
    (hcel : cNode.data.nodeType = ELEMENT_NODE)
    (htel : toChild.data.nodeType = ELEMENT_NODE)
    (htk : getNodeKey toChild = some k) :
    (getNodeKey cNode = some k → compareNodeNames cNode toChild = true →
      innerStepF (f + 1) fromElOid toChild c st =
        (match morphElF f c toChild false st with
         | none => none
         | some st3 => some (st3, StepRes.toNext (nextSiblingOf st c)))) ∧
    (getNodeKey cNode ≠ some k → lkGet st.lookup k = some m →
     nextSiblingOf st c ≠ some m → st.doc.data.oid ≠ m → docContains st m = true →
     fromElOid ∈ nodeOids (detachOid st.doc m).1 →
      findOid (stMoveInto st fromElOid (some c) m).doc m = findOid st.doc m ∧
      innerStepF (f + 1) fromElOid toChild c st =
        (let st2 := deferOrRemove (stMoveInto st fromElOid (some c) m) c (getNodeKey cNode)
         if (match resolve st2 m with
             | some mn => compareNodeNames mn toChild
             | none => false) = true then
           (match morphElF f m toChild false st2 with
            | none => none
            | some st3 => some (st3, StepRes.toNext (nextSiblingOf st c)))
         else
           some (deferOrRemove st2 m ((resolve st2 m).bind getNodeKey),
             .scanNext (nextSiblingOf st c)))) ∧
    (∀ mn, lkGet st.lookup k = some m → resolve st m = some mn →
     compareNodeNames mn toChild = true →
      innerScanF (f + 1) fromElOid toChild none st =
        (match morphElF f m toChild false (stMoveInto st fromElOid none m) with
         | none => none
         | some st2 => some (st2, none)) ∧
      (st.doc.data.oid ≠ m → docContains st m = true →
       fromElOid ∈ nodeOids (detachOid st.doc m).1 →
        findOid (stMoveInto st fromElOid none m).doc m = findOid st.doc m)) ∧
    (lkGet st.lookup k = none →
      innerScanF (f + 1) fromElOid toChild none st =
        (match handleNodeAddedF f toChild (stInsertValue st fromElOid none toChild) with
         | none => none
         | some st2 => some (st2, none))) := by
  have hty : cNode.data.nodeType = toChild.data.nodeType := by rw [hcel, htel]
  refine ⟨?_, ?_, ?_, ?_⟩
  · intro hkeq hcmp
    rw [innerStepF]
    rw [hres]
    simp only [hsame, Bool.false_eq_true, if_false, ite_false, hty, if_pos rfl, htel,
      ELEMENT_NODE, htk]
    rw [if_neg (show ¬ some k ≠ getNodeKey cNode from fun h => h hkeq.symm)]
    rw [hres]
    simp only [hcmp, Bool.not_false, Bool.true_and, if_pos]
  · intro hkne hlk hnext hroot hmem hp
    refine ⟨stMoveInto_findOid st fromElOid (some c) m hnd hroot hmem hp, ?_⟩
    rw [innerStepF]
    rw [hres]
    simp only [hsame, Bool.false_eq_true, if_false, ite_false, hty, if_pos rfl, htel,
      ELEMENT_NODE, htk, hlk]
    rw [if_pos (show some k ≠ getNodeKey cNode from fun h => hkne h.symm)]
    rw [if_neg hnext]
    simp only [deferOrRemove]
    rfl
  · intro mn hlk hresm hcmp
    refine ⟨?_, fun hroot hmem hp => stMoveInto_findOid st fromElOid none m hnd hroot hmem hp⟩
    rw [innerScanF]
    simp only [htk, hlk, hresm, hcmp, if_pos]
  · intro hlkn
    rw [innerScanF]
    simp only [htk, hlkn]

/-- C1 witness: the relocation conjunct applied to a concrete state — a
container whose third child carries key `k` is reconciled against a keyed
target sitting at the first position; the live keyed subtree (text content
included) survives the `insertBefore` unchanged and the step advances by
morphing it in place of a fresh node. -/
theorem C1_witness :
    findOid (stMoveInto cxC1St 1 (some 2) 4).doc 4 = findOid cxC1St.doc 4 ∧
    (innerStepF 6 1 cxC1W 2 cxC1St).map (fun r => r.2) = some (.toNext (some 3)) := by
  have h := (C1_amended 5 1 cxC1W 2 cxC1St cxC1CNode "k" 4 (by decide) (by decide)
    (by decide) (by decide) (by decide) (by decide)).2.1
    (by decide) (by decide) (by decide) (by decide) (by decide) (by decide)
  exact ⟨h.1, by rw [h.2]; decide⟩

end Phpspa
